import Mathlib

/-!
Verification of the merkle-tree-db sparse Merkle tree library.

This file shallowly embeds the data model and operations of the library
(src/key.rs, src/node.rs, src/tree.rs, src/storage.rs, src/treedb.rs,
src/treedbmut.rs) and proves or refutes the frozen claims about it.

Modelling conventions:
- A byte is modelled as a natural number (`Byte := Nat`).  The code never
  performs wrap-around arithmetic on data bytes: it only concatenates,
  compares, tags (0..3) and bit-tests them, so every operation below is the
  byte-level operation of the source, merely without the upper bound 256.
  Digests must be injective fixed-length strings for any cryptographic
  statement to hold, and no injective fixed-length function exists over a
  bounded alphabet, so the concrete model hasher uses unbounded numerals.
- The pluggable hasher (the `Hasher` trait of the hash_db crate) is a
  structure `HasherM` with a digest length `len` (`Hasher::LENGTH`) and a
  `hash` function; theorems that need collision freeness assume
  `Function.Injective Hh.hash`.
- The backing store (`HashDB` of the external hash_db crate, not part of
  src/) is modelled from the spec, section 6: a refcounted map
  hash -> (bytes, count); `emplace` inserts or increments, `remove`
  decrements and deletes at zero, `get` returns the bytes.  All calls use
  the single empty prefix, so the prefix argument is dropped.
- Rust HashMaps are modelled as association lists; iteration (drain) order
  is the list order, one of the orders the HashMap may present.
- `TreeDBMut::insert_at` recurses with `key_index + 1` and stops at
  `key_index == D * 8`; the model recurses structurally on the fuel
  `D * 8 - key_index`, which is equivalent for every reachable call
  (the top level call starts at key_index 0 with fuel D * 8).
- Mutations of `&mut self` are modelled by state passing; a Rust method
  that can fail after having mutated the tree returns
  `State × Except TreeError α` so that partial mutations survive errors,
  exactly as in the source.
-/

-- ================================================================================================
-- Bytes and the hasher interface
-- ================================================================================================

/-- A data byte (see the modelling conventions above). -/
abbrev Byte := Nat

/-- A byte string (`Vec<u8>` / `DBValue` in the source). -/
abbrev Bytes := List Byte

/-- The `Hasher` trait of hash_db: a digest length `LENGTH` and a
    deterministic `hash` function whose output has that length. -/
structure HasherM where
  len : Nat
  hash : Bytes → Bytes
  hash_len : ∀ b, (hash b).length = len

-- ================================================================================================
-- Errors (src/error.rs)
-- ================================================================================================

/-- `KeyError` of src/error.rs. -/
inductive KeyError where
  | IncorrectKeySize (expected actual : Nat)
  | BitIndexOutOfBounds (bit max : Nat)
  | LeafIndexOutOfBounds (index max : Nat)
deriving DecidableEq

/-- `DataError` of src/error.rs. -/
inductive DataError where
  | DatabaseDataNotFound (hash : Bytes)
  | NullNodeDataNotFound (hash : Bytes)
  | InMemoryDataNotFound (hash : Bytes)
  | InMemoryNotSupported
deriving DecidableEq

/-- `NodeError` of src/error.rs.  `DecodeNodeInvalidTag` models the source
    constructor for an unrecognised leading tag byte of an encoded node
    (its source name ends in the word for a leading byte, which cannot be
    used as a Lean name here); it carries the offending first byte.
    `DecodeNodeInvalidLength` carries its two arguments in the order the
    call sites of src/node.rs pass them: the actual length first, then the
    expected length (the declaration in error.rs names them the other way
    round). -/
inductive NodeError where
  | DecodeNodeEmptyValue
  | DecodeNodeNoData
  | DecodeNodeInvalidTag (b : Byte)
  | DecodeNodeHashFailed (data : Bytes)
  | DecodeNodeInvalidLength (a b : Nat)
  | InconsistentDefaultHashes
  | InvalidNodeType (expected actual : String)
deriving DecidableEq

/-- `TreeError` of src/error.rs. -/
inductive TreeError where
  | DataError (e : DataError)
  | NodeError (e : NodeError)
  | DepthTooLarge (actual max : Nat)
  | KeyError (e : KeyError)
deriving DecidableEq

-- ================================================================================================
-- Node hashes and nodes (src/node.rs)
-- ================================================================================================

/-- `NodeHash<H>`: a node hash tagged with its residence. -/
inductive NodeHash where
  | InMemory (h : Bytes)
  | Database (h : Bytes)
  | Default (h : Bytes)
deriving DecidableEq

namespace NodeHash

/-- `NodeHash::hash`. -/
def hash : NodeHash → Bytes
  | InMemory h => h
  | Database h => h
  | Default h => h

/-- `NodeHash::is_default`. -/
def isDefault : NodeHash → Bool
  | Default _ => true
  | _ => false

end NodeHash

/-- `ChildSelector` of src/node.rs. -/
inductive ChildSelector where
  | Left
  | Right
deriving DecidableEq

namespace ChildSelector

/-- `ChildSelector::new`: false selects Left, true selects Right. -/
def new (child : Bool) : ChildSelector :=
  if child then Right else Left

/-- `ChildSelector::sibling`. -/
def sibling : ChildSelector → ChildSelector
  | Left => Right
  | Right => Left

end ChildSelector

/-- `Node<H>`: a value (leaf) node or an inner node. -/
inductive Node where
  | Value (hash : Bytes) (value : Bytes)
  | Inner (hash : Bytes) (left right : NodeHash)
deriving DecidableEq

namespace Node

/-- `Node::new_value`. -/
def newValue (Hh : HasherM) (value : Bytes) : Node :=
  .Value (Hh.hash value) value

/-- `Node::new_inner`: rejects two Default children with different hashes,
    otherwise hashes the concatenation of the child hashes. -/
def newInner (Hh : HasherM) (left right : NodeHash) : Except NodeError Node :=
  match left, right with
  | .Default lh, .Default rh =>
      if lh ≠ rh then .error .InconsistentDefaultHashes
      else .ok (.Inner (Hh.hash (lh ++ rh)) (.Default lh) (.Default rh))
  | l, r => .ok (.Inner (Hh.hash (l.hash ++ r.hash)) l r)

/-- `Node::child_hash`. -/
def childHash : Node → ChildSelector → Except NodeError NodeHash
  | .Value _ _, _ => .error (.InvalidNodeType "Value" "Inner")
  | .Inner _ l _, .Left => .ok l
  | .Inner _ _ r, .Right => .ok r

/-- `Node::value`. -/
def value : Node → Except NodeError Bytes
  | .Value _ v => .ok v
  | .Inner _ _ _ => .error (.InvalidNodeType "Inner" "Value")

/-- `Node::hash`. -/
def hash : Node → Bytes
  | .Value h _ => h
  | .Inner h _ _ => h

/-- `Node::is_default`: a value node with an empty value, or an inner node
    whose children are both Default. -/
def isDefault : Node → Bool
  | .Value _ v => v.isEmpty
  | .Inner _ l r => l.isDefault && r.isDefault

/-- `Node::set_child_hash`: replaces a child and recomputes the hash. -/
def setChildHash (Hh : HasherM) : Node → ChildSelector → NodeHash → Except NodeError Node
  | .Value _ _, _, _ => .error (.InvalidNodeType "Value" "Inner")
  | .Inner _ _ r, .Left, c => .ok (.Inner (Hh.hash (c.hash ++ r.hash)) c r)
  | .Inner _ l _, .Right, c => .ok (.Inner (Hh.hash (l.hash ++ c.hash)) l c)

end Node

-- ================================================================================================
-- Node codec (src/node.rs, From<Node> for Vec<u8> and TryFrom<Vec<u8>> for Node)
-- ================================================================================================

/-- `impl From<Node<H>> for Vec<u8>`: the canonical byte encoding.  A value
    node is tagged 0 followed by its bytes; an inner node is tagged 2 when
    the right child is Default, 3 when (only) the left child is Default,
    1 otherwise, followed by the two child hashes. -/
def nodeToBytes : Node → Bytes
  | .Value _ v => 0 :: v
  | .Inner _ l r =>
      (match l, r with
        | _, .Default _ => 2
        | .Default _, _ => 3
        | _, _ => 1) :: (l.hash ++ r.hash)

/-- `decode_hash` of src/node.rs: the slice must be exactly LENGTH bytes. -/
def decodeHash (Hh : HasherM) (data : Bytes) : Except NodeError Bytes :=
  if data.length ≠ Hh.len then .error (.DecodeNodeHashFailed data)
  else .ok data

/-- `impl TryFrom<Vec<u8>> for Node<H>`: decode a node from bytes.  The
    hash is recomputed from the content.  Children of decoded inner nodes
    are tagged Database, except the child the tag byte marks as Default. -/
def bytesToNode (Hh : HasherM) (data : Bytes) : Except NodeError Node :=
  match data with
  | [] => .error .DecodeNodeNoData
  | 0 :: rest =>
      if data.length = 1 then .error .DecodeNodeEmptyValue
      else .ok (Node.newValue Hh rest)
  | tag :: rest =>
      if data.length ≠ 2 * Hh.len + 1 then
        .error (.DecodeNodeInvalidLength data.length (2 * Hh.len + 1))
      else
        match decodeHash Hh (rest.take Hh.len) with
        | .error e => .error e
        | .ok leftHash =>
          match decodeHash Hh (rest.drop Hh.len) with
          | .error e => .error e
          | .ok rightHash =>
            if tag = 1 then
              Node.newInner Hh (.Database leftHash) (.Database rightHash)
            else if tag = 2 then
              Node.newInner Hh (.Database leftHash) (.Default rightHash)
            else if tag = 3 then
              Node.newInner Hh (.Default leftHash) (.Database rightHash)
            else .error (.DecodeNodeInvalidTag tag)

-- ================================================================================================
-- Association lists: the model of the hashbrown HashMaps of the source
-- ================================================================================================

/-- Lookup in an association list keyed by byte strings. -/
def afind {β : Type} : List (Bytes × β) → Bytes → Option β
  | [], _ => none
  | (k, v) :: t, h => if k = h then some v else afind t h

/-- Remove the (first) entry with the given key. -/
def aremove {β : Type} : List (Bytes × β) → Bytes → List (Bytes × β)
  | [], _ => []
  | (k, v) :: t, h => if k = h then t else (k, v) :: aremove t h

-- ================================================================================================
-- The backing store (modelled from the spec, section 6: hash_db is external)
-- ================================================================================================

/-- Modelled from the spec: the content-addressed refcounted byte store
    consumed through the `HashDB` interface (hash_db crate, not in src/):
    a map hash -> (stored bytes, refcount).  Counts of live entries are
    always at least 1. -/
abbrev Store := List (Bytes × Bytes × Nat)

/-- Modelled from the spec: `get(hash, EMPTY_PREFIX)` returns the stored
    bytes. -/
def storeGet (db : Store) (h : Bytes) : Option Bytes :=
  (afind db h).map Prod.fst

/-- Modelled from the spec: `emplace(hash, EMPTY_PREFIX, bytes)` inserts the
    entry or increments its refcount (the bytes of a live entry are kept:
    the store is content addressed). -/
def storeEmplace (db : Store) (h : Bytes) (d : Bytes) : Store :=
  match afind db h with
  | some (d0, c) => (h, d0, c + 1) :: aremove db h
  | none => (h, d, 1) :: db

/-- Modelled from the spec: `remove(hash, EMPTY_PREFIX)` decrements the
    refcount, deleting the entry when it reaches zero; removing an absent
    hash is a no-op. -/
def storeRemove (db : Store) (h : Bytes) : Store :=
  match afind db h with
  | some (d0, c) => if c ≤ 1 then aremove db h else (h, d0, c - 1) :: aremove db h
  | none => db

/-- `n` repeated emplace calls for the same hash and bytes. -/
def storeEmplaceN (db : Store) (h : Bytes) (d : Bytes) : Nat → Store
  | 0 => db
  | n + 1 => storeEmplaceN (storeEmplace db h d) h d n

/-- `n` repeated remove calls for the same hash. -/
def storeRemoveN (db : Store) (h : Bytes) : Nat → Store
  | 0 => db
  | n + 1 => storeRemoveN (storeRemove db h) h n

-- ================================================================================================
-- Keys (src/key.rs)
-- ================================================================================================

/-- `Key::<D>::new`: checks that the byte slice has exactly D bytes. -/
def keyNew (D : Nat) (k : Bytes) : Except KeyError Bytes :=
  if k.length = D then .ok k else .error (.IncorrectKeySize D k.length)

/-- The unchecked bit access of `Key::bit`: bit `i % 8` from the most
    significant side of byte `i / 8`. -/
def keyBitRaw (k : Bytes) (i : Nat) : Bool :=
  ((k.getD (i / 8) 0) >>> (7 - i % 8)) &&& 1 ≠ 0

/-- `Key::<D>::bit`: fails when the byte position is out of range. -/
def keyBit (D : Nat) (k : Bytes) (i : Nat) : Except KeyError Bool :=
  if i / 8 ≥ D then .error (.BitIndexOutOfBounds i (D * 8))
  else .ok (keyBitRaw k i)

/-- `Key::iter`: the D*8 bits of the key, most significant first. -/
def keyBits (D : Nat) (k : Bytes) : List Bool :=
  (List.range (D * 8)).map (keyBitRaw k)

/-- The big-endian 8-byte representation of a u64 (`u64::to_be_bytes`). -/
def u64BeBytes (v : Nat) : Bytes :=
  [v / 2 ^ 56 % 256, v / 2 ^ 48 % 256, v / 2 ^ 40 % 256, v / 2 ^ 32 % 256,
   v / 2 ^ 24 % 256, v / 2 ^ 16 % 256, v / 2 ^ 8 % 256, v % 256]

/-- `impl TryFrom<&u64> for Key<D>` of src/key.rs: rejects values strictly
    greater than `2u64.pow(D * 8)` and otherwise takes the LEADING D bytes
    of the big-endian representation (`&value.to_be_bytes()[..D]`). -/
def keyTryFrom (D : Nat) (v : Nat) : Except KeyError Bytes :=
  let max := 2 ^ (D * 8)
  if v > max then .error (.LeafIndexOutOfBounds v max)
  else .ok ((u64BeBytes v).take D)

-- ================================================================================================
-- The null node ladder (src/tree.rs, null_nodes)
-- ================================================================================================

/-- `null_nodes::<H>(depth)`: the map from default hash to canonical null
    node for every level, together with the top default hash. -/
def nullLadder (Hh : HasherM) : Nat → List (Bytes × Node) × Bytes
  | 0 =>
      let d0 := Hh.hash []
      ([(d0, .Value d0 [])], d0)
  | n + 1 =>
      let (l, d) := nullLadder Hh n
      let next := Hh.hash (d ++ d)
      (l ++ [(next, .Inner next (.Default d) (.Default d))], next)

/-- The default hash at a given level: `d_0 = H(empty)`,
    `d_{i+1} = H(d_i || d_i)`. -/
def dHash (Hh : HasherM) : Nat → Bytes
  | 0 => Hh.hash []
  | n + 1 => Hh.hash (dHash Hh n ++ dHash Hh n)

-- ================================================================================================
-- NodeStorage, the in-memory overlay (src/storage.rs)
-- ================================================================================================

/-- The overlay: a map from node hash to (node, refcount), modelled as an
    association list in insertion order. -/
abbrev Overlay := List (Bytes × Node × Nat)

/-- `NodeStorage::get`. -/
def overlayGet (st : Overlay) (h : Bytes) : Option Node :=
  (afind st h).map Prod.fst

/-- `NodeStorage::insert`: an existing entry keeps its node and gains a
    count (the and_modify arm of the source clones the stored node onto
    itself); a new entry starts at count 1. -/
def overlayInsert (st : Overlay) (n : Node) : Overlay :=
  match afind st n.hash with
  | some (m, c) => (n.hash, m, c + 1) :: aremove st n.hash
  | none => st ++ [(n.hash, n, 1)]

/-- `NodeStorage::remove`: decrements the count, deleting and returning the
    node when the count reaches zero. -/
def overlayRemove (st : Overlay) (h : Bytes) : Overlay × Option Node :=
  match afind st h with
  | some (m, c) =>
      if c - 1 = 0 then (aremove st h, some m)
      else ((h, m, c - 1) :: aremove st h, none)
  | none => (st, none)

-- ================================================================================================
-- The mutable tree (src/treedbmut.rs)
-- ================================================================================================

/-- The state of a `TreeDBMut<D, H>`: overlay, death row, backing store,
    published root cell and the current root handle.  The null-node ladder
    field is constant (always `null_nodes(D * 8)`) and is therefore not
    stored but recomputed where the source reads it. -/
structure MutState where
  storage : Overlay
  deathRow : List (Bytes × Nat)
  db : Store
  root : Bytes
  rootHandle : NodeHash
deriving DecidableEq

/-- `TreeDBMut::lookup`: resolve a node hash through the overlay, the
    backing store (decoding the stored bytes) or the null-node ladder.
    The optional recorder only records and never alters results, so it is
    omitted. -/
def treeMutLookup (Hh : HasherM) (D : Nat) (s : MutState) : NodeHash → Except TreeError Node
  | .InMemory h =>
      match overlayGet s.storage h with
      | some n => .ok n
      | none => .error (.DataError (.InMemoryDataNotFound h))
  | .Database h =>
      match storeGet s.db h with
      | some data =>
          match bytesToNode Hh data with
          | .ok n => .ok n
          | .error e => .error (.NodeError e)
      | none => .error (.DataError (.DatabaseDataNotFound h))
  | .Default h =>
      match afind (nullLadder Hh (D * 8)).1 h with
      | some n => .ok n
      | none => .error (.DataError (.NullNodeDataNotFound h))

/-- The shared leaf walk (`lookup_leaf_node` of src/treedb.rs and
    src/treedbmut.rs, which are textually identical up to the resolver):
    descend bit by bit; without proof collection a Default child aborts the
    walk with `none`; with proof collection the sibling hash of every step
    is appended and the walk continues through default subtrees. -/
def lookupLeafLoop (resolve : NodeHash → Except TreeError Node)
    (collectProof : Bool) :
    Node → List Bool → List Bytes → Except TreeError (Option Node × List Bytes)
  | n, [], acc => .ok (some n, acc)
  | n, b :: bs, acc =>
      match n.childHash (ChildSelector.new b) with
      | .error e => .error (.NodeError e)
      | .ok childRef =>
          if childRef.isDefault ∧ ¬collectProof then .ok (none, acc)
          else
            match collectProof, n.childHash (ChildSelector.new b).sibling with
            | true, .error e => .error (.NodeError e)
            | true, .ok sib =>
                match resolve childRef with
                | .error e => .error e
                | .ok child => lookupLeafLoop resolve collectProof child bs (acc ++ [sib.hash])
            | false, _ =>
                match resolve childRef with
                | .error e => .error e
                | .ok child => lookupLeafLoop resolve collectProof child bs acc

/-- `lookup_leaf_node`: resolve the root and run the walk over the key
    bits. -/
def lookupLeafVia (resolve : NodeHash → Except TreeError Node)
    (rootRef : NodeHash) (bits : List Bool) (collectProof : Bool) :
    Except TreeError (Option Node × List Bytes) :=
  match resolve rootRef with
  | .error e => .error e
  | .ok n => lookupLeafLoop resolve collectProof n bits []

/-- `TreeDBMut::remove_node`: drop an overlay reference, enqueue a database
    deletion, or ignore a default reference. -/
def removeNode (s : MutState) : NodeHash → MutState
  | .InMemory h => { s with storage := (overlayRemove s.storage h).1 }
  | .Database h =>
      { s with deathRow :=
          match afind s.deathRow h with
          | some c => (h, c + 1) :: aremove s.deathRow h
          | none => s.deathRow ++ [(h, 1)] }
  | .Default _ => s

/-- `TreeDBMut::insert_at`, recursing structurally on the fuel
    `D * 8 - key_index` (see the modelling conventions).  Returns the new
    subtree top node, the previous leaf value and the change flag; the
    state is returned in every case because the source mutates in place. -/
def insertAtF (Hh : HasherM) (D : Nat) :
    Nat → MutState → NodeHash → Bytes → Bytes → Nat →
    MutState × Except TreeError (Node × Option Bytes × Bool)
  | 0, s, cur, _key, value, _keyIndex =>
      let node := Node.newValue Hh value
      let oldRes : Except TreeError (Option Bytes) :=
        match cur with
        | .Default _ => .ok none
        | _ =>
            match treeMutLookup Hh D s cur with
            | .error e => .error e
            | .ok n =>
                match n.value with
                | .error e => .error (.NodeError e)
                | .ok v => .ok (some v)
      match oldRes with
      | .error e => (s, .error e)
      | .ok oldNode =>
          if node.hash = cur.hash then (s, .ok (node, oldNode, false))
          else
            let s := if ¬node.isDefault then { s with storage := overlayInsert s.storage node } else s
            let s := removeNode s cur
            (s, .ok (node, oldNode, true))
  | fuel + 1, s, cur, key, value, keyIndex =>
      match treeMutLookup Hh D s cur with
      | .error e => (s, .error e)
      | .ok currentNode =>
          match keyBit D key keyIndex with
          | .error e => (s, .error (.KeyError e))
          | .ok bit =>
              let sel := ChildSelector.new bit
              match currentNode.childHash sel with
              | .error e => (s, .error (.NodeError e))
              | .ok childRef =>
                  match insertAtF Hh D fuel s childRef key value (keyIndex + 1) with
                  | (s, .error e) => (s, .error e)
                  | (s, .ok (childNode, oldNode, changed)) =>
                      if ¬changed then (s, .ok (currentNode, oldNode, false))
                      else
                        let newChildRef : NodeHash :=
                          if childNode.isDefault then .Default childNode.hash
                          else .InMemory childNode.hash
                        match currentNode.setChildHash Hh sel newChildRef with
                        | .error e => (s, .error (.NodeError e))
                        | .ok updated =>
                            let s := if ¬updated.isDefault then { s with storage := overlayInsert s.storage updated } else s
                            let s := removeNode s cur
                            (s, .ok (updated, oldNode, true))

/-- `TreeDBMut::insert`. -/
def treeMutInsert (Hh : HasherM) (D : Nat) (s : MutState) (key value : Bytes) :
    MutState × Except TreeError (Option Bytes) :=
  match keyNew D key with
  | .error e => (s, .error (.KeyError e))
  | .ok key =>
      let currentRoot := s.rootHandle
      match insertAtF Hh D (D * 8) s currentRoot key value 0 with
      | (s, .error e) => (s, .error e)
      | (s, .ok (newRoot, oldNode, changed)) =>
          if changed then
            let s := removeNode s currentRoot
            let s := { s with rootHandle := .InMemory newRoot.hash }
            let s := { s with storage := overlayInsert s.storage newRoot }
            (s, .ok oldNode)
          else (s, .ok oldNode)

/-- `TreeDBMut::remove`: insert the empty value. -/
def treeMutRemove (Hh : HasherM) (D : Nat) (s : MutState) (key : Bytes) :
    MutState × Except TreeError (Option Bytes) :=
  treeMutInsert Hh D s key []

/-- One drained overlay entry during `TreeDBMut::commit`: reconcile the
    insert count against a possible death row entry and apply the net
    emplacements or removals to the store. -/
def commitEntry (acc : Store × List (Bytes × Nat)) (e : Bytes × Node × Nat) :
    Store × List (Bytes × Nat) :=
  let (db, dr) := acc
  let (h, node, insertCount) := e
  match afind dr h with
  | some deathCount =>
      let dr := aremove dr h
      if insertCount = deathCount then (db, dr)
      else if insertCount > deathCount then
        (storeEmplaceN db h (nodeToBytes node) (insertCount - deathCount), dr)
      else (storeRemoveN db h (deathCount - insertCount), dr)
  | none => (storeEmplaceN db h (nodeToBytes node) insertCount, dr)

/-- `TreeDBMut::commit`: drain the overlay against the death row, apply the
    remaining death row removals, publish the root and reset the root
    handle to a database reference. -/
def treeMutCommit (s : MutState) : MutState :=
  let (db, dr) := s.storage.foldl commitEntry (s.db, s.deathRow)
  let db := dr.foldl (fun db e => storeRemoveN db e.1 e.2) db
  let newRoot := s.rootHandle.hash
  { storage := [], deathRow := [], db := db, root := newRoot,
    rootHandle := .Database newRoot }

/-- `TreeDBMut::value`. -/
def treeMutValue (Hh : HasherM) (D : Nat) (s : MutState) (key : Bytes) :
    Except TreeError (Option Bytes) :=
  match keyNew D key with
  | .error e => .error (.KeyError e)
  | .ok key =>
      match lookupLeafVia (treeMutLookup Hh D s) s.rootHandle (keyBits D key) false with
      | .error e => .error e
      | .ok (some n, _) =>
          match n.value with
          | .error e => .error (.NodeError e)
          | .ok v => .ok (some v)
      | .ok (none, _) => .ok none

/-- `TreeDBMut::leaf`. -/
def treeMutLeaf (Hh : HasherM) (D : Nat) (s : MutState) (key : Bytes) :
    Except TreeError (Option Bytes) :=
  match keyNew D key with
  | .error e => .error (.KeyError e)
  | .ok key =>
      match lookupLeafVia (treeMutLookup Hh D s) s.rootHandle (keyBits D key) false with
      | .error e => .error e
      | .ok (some n, _) => .ok (some n.hash)
      | .ok (none, _) => .ok none

/-- `TreeDBMut::proof`: collect the sibling hashes along the walk and
    reverse them, so the result is ordered leaf sibling first. -/
def treeMutProof (Hh : HasherM) (D : Nat) (s : MutState) (key : Bytes) :
    Except TreeError (Option (List Bytes)) :=
  match keyNew D key with
  | .error e => .error (.KeyError e)
  | .ok key =>
      match lookupLeafVia (treeMutLookup Hh D s) s.rootHandle (keyBits D key) true with
      | .error e => .error e
      | .ok (some _, acc) => .ok (some acc.reverse)
      | .ok (none, _) => .ok none

/-- `verify` (textually identical in src/treedb.rs and src/treedbmut.rs):
    fold the value hash up the Merkle path, pairing the key bits from
    `D*8 - 1` down to 0 with the proof hashes in order; the zip stops at
    the shorter of the two. -/
def treeVerify (Hh : HasherM) (D : Nat) (key value : Bytes) (proof : List Bytes)
    (root : Bytes) : Except TreeError Bool :=
  match keyNew D key with
  | .error e => .error (.KeyError e)
  | .ok key =>
      let step : Bytes → Nat × Bytes → Except TreeError Bytes := fun hash (i, sibling) =>
        match keyBit D key i with
        | .error e => .error (.KeyError e)
        | .ok bit =>
            match ChildSelector.new bit with
            | .Left => .ok (Hh.hash (hash ++ sibling))
            | .Right => .ok (Hh.hash (sibling ++ hash))
      match ((List.range (D * 8)).reverse.zip proof).foldlM step (Hh.hash value) with
      | .error e => .error e
      | .ok h => .ok (h = root)

-- ================================================================================================
-- The immutable tree (src/treedb.rs)
-- ================================================================================================

/-- The state of a `TreeDB<D, H>`: backing store and the tagged root.  As
    for the mutable tree the ladder field is recomputed where read. -/
structure ImmState where
  db : Store
  root : NodeHash
deriving DecidableEq

/-- `TreeDBBuilder::build`: a root equal to the zero hash or to the top
    default hash becomes a Default reference to the top of the ladder,
    anything else a Database reference. -/
def treeDBBuild (Hh : HasherM) (D : Nat) (db : Store) (root : Bytes) : ImmState :=
  let defaultRoot := (nullLadder Hh (D * 8)).2
  let rootRef : NodeHash :=
    if root = List.replicate Hh.len 0 ∨ root = defaultRoot then .Default defaultRoot
    else .Database root
  { db := db, root := rootRef }

/-- `TreeDB::lookup`: as the mutable resolver but without an overlay; any
    in-memory reference is an error. -/
def treeDBLookup (Hh : HasherM) (D : Nat) (s : ImmState) : NodeHash → Except TreeError Node
  | .InMemory _ => .error (.DataError .InMemoryNotSupported)
  | .Database h =>
      match storeGet s.db h with
      | some data =>
          match bytesToNode Hh data with
          | .ok n => .ok n
          | .error e => .error (.NodeError e)
      | none => .error (.DataError (.DatabaseDataNotFound h))
  | .Default h =>
      match afind (nullLadder Hh (D * 8)).1 h with
      | some n => .ok n
      | none => .error (.DataError (.NullNodeDataNotFound h))

/-- `TreeDB::value`. -/
def treeDBValue (Hh : HasherM) (D : Nat) (s : ImmState) (key : Bytes) :
    Except TreeError (Option Bytes) :=
  match keyNew D key with
  | .error e => .error (.KeyError e)
  | .ok key =>
      match lookupLeafVia (treeDBLookup Hh D s) s.root (keyBits D key) false with
      | .error e => .error e
      | .ok (some n, _) =>
          match n.value with
          | .error e => .error (.NodeError e)
          | .ok v => .ok (some v)
      | .ok (none, _) => .ok none

/-- `TreeDB::leaf`. -/
def treeDBLeaf (Hh : HasherM) (D : Nat) (s : ImmState) (key : Bytes) :
    Except TreeError (Option Bytes) :=
  match keyNew D key with
  | .error e => .error (.KeyError e)
  | .ok key =>
      match lookupLeafVia (treeDBLookup Hh D s) s.root (keyBits D key) false with
      | .error e => .error e
      | .ok (some n, _) => .ok (some n.hash)
      | .ok (none, _) => .ok none

/-- `TreeDB::proof`. -/
def treeDBProof (Hh : HasherM) (D : Nat) (s : ImmState) (key : Bytes) :
    Except TreeError (Option (List Bytes)) :=
  match keyNew D key with
  | .error e => .error (.KeyError e)
  | .ok key =>
      match lookupLeafVia (treeDBLookup Hh D s) s.root (keyBits D key) true with
      | .error e => .error e
      | .ok (some _, acc) => .ok (some acc.reverse)
      | .ok (none, _) => .ok none

/-- `TreeDBMutBuilder::build` of src/treedbmut.rs AS WRITTEN: the root
    handle is unconditionally a Database reference to the incoming root;
    there is no default-root check (unlike `TreeDBBuilder::build`). -/
def treeDBMutBuild (db : Store) (root : Bytes) : MutState :=
  { storage := [], deathRow := [], db := db, root := root,
    rootHandle := .Database root }

-- ================================================================================================
-- A concrete injective model hasher (digest length 1, unbounded numerals)
-- ================================================================================================

/-- An injective encoding of byte strings into a single numeral, used to
    instantiate the abstract hasher in witnesses and counterexamples. -/
def encL : Bytes → Nat
  | [] => 0
  | a :: l => Nat.pair a (encL l) + 1

/-- The concrete model hasher: digest length 1, digest `[encL b]`. -/
def hashC : HasherM where
  len := 1
  hash := fun b => [encL b]
  hash_len := fun _ => rfl

-- ================================================================================================
-- The pure tree model used to state well-formedness of committed trees
-- ================================================================================================

/-- A pure sparse Merkle (sub)tree: a leaf holding a byte value (the empty
    value denotes an absent leaf) or an inner node with two children. -/
inductive PTree where
  | lf (v : Bytes)
  | nd (l r : PTree)
deriving DecidableEq

namespace PTree

/-- The Merkle hash of a pure tree: `H(value)` at leaves,
    `H(left || right)` at inner nodes. -/
def hashT (Hh : HasherM) : PTree → Bytes
  | lf v => Hh.hash v
  | nd l r => Hh.hash (hashT Hh l ++ hashT Hh r)

/-- The tree is full of the given height (all leaves at the same depth). -/
def fullB : PTree → Nat → Bool
  | lf _, 0 => true
  | lf _, _ + 1 => false
  | nd _ _, 0 => false
  | nd l r, n + 1 => fullB l n && fullB r n

/-- Every leaf is empty: the tree is a default (null) subtree. -/
def isD : PTree → Bool
  | lf v => v.isEmpty
  | nd l r => isD l && isD r

/-- No leaf value has length `2 * LENGTH`: the byte length of two
    concatenated digests.  This rules out the leaf/inner hash ambiguity of
    the untagged Merkle construction. -/
def noTwoL (Hh : HasherM) : PTree → Bool
  | lf v => v.length ≠ 2 * Hh.len
  | nd l r => noTwoL Hh l && noTwoL Hh r

/-- The fully default (null) tree of a given height. -/
def dT : Nat → PTree
  | 0 => lf []
  | n + 1 => nd (dT n) (dT n)

/-- The leaf value at a bit path (`none` on shape mismatch). -/
def valueAt : PTree → List Bool → Option Bytes
  | lf v, [] => some v
  | nd l r, b :: bs => valueAt (if b then r else l) bs
  | _, _ => none

/-- Replace the leaf at a bit path (identity on shape mismatch). -/
def setAt : PTree → List Bool → Bytes → PTree
  | _, [], v => lf v
  | nd l r, b :: bs, v => if b then nd l (setAt r bs v) else nd (setAt l bs v) r
  | t, _ :: _, _ => t

/-- All subtrees of a tree (including itself). -/
def subtreesL : PTree → List PTree
  | lf v => [lf v]
  | nd l r => nd l r :: (subtreesL l ++ subtreesL r)

end PTree

/-- The canonical tagged reference to a pure subtree: Default for null
    subtrees, Database otherwise (the shape every committed tree has). -/
def canonRef (Hh : HasherM) (t : PTree) : NodeHash :=
  if t.isD then .Default (t.hashT Hh) else .Database (t.hashT Hh)

/-- The canonical stored node of a pure subtree. -/
def canonNode (Hh : HasherM) : PTree → Node
  | .lf v => .Value (Hh.hash v) v
  | .nd l r => .Inner ((PTree.nd l r).hashT Hh) (canonRef Hh l) (canonRef Hh r)

/-- A store entry is canonical for the tree when it stores the canonical
    encoding of some non-default subtree under that hash. -/
def entryCanon (Hh : HasherM) (t : PTree) (e : Bytes × Bytes × Nat) : Prop :=
  ∃ u ∈ t.subtreesL, u.isD = false ∧ e.1 = u.hashT Hh ∧
    e.2.1 = nodeToBytes (canonNode Hh u)

/-- The store represents exactly the committed tree: every entry is the
    canonical node of a non-default subtree, and every non-default subtree
    is present under its hash with its canonical bytes. -/
def StoreRep (Hh : HasherM) (db : Store) (t : PTree) : Prop :=
  (∀ e ∈ db, entryCanon Hh t e) ∧
  (∀ u ∈ t.subtreesL, u.isD = false →
    (afind db (u.hashT Hh)).map Prod.fst = some (nodeToBytes (canonNode Hh u)))

/-- The canonical store of a pure tree: one entry (count 1) per non-default
    subtree, parents first.  Used to build concrete well-formed states. -/
def canonStore (Hh : HasherM) : PTree → Store
  | .lf v => if (PTree.lf v).isD then [] else
      [((PTree.lf v).hashT Hh, nodeToBytes (canonNode Hh (.lf v)), 1)]
  | .nd l r => if (PTree.nd l r).isD then [] else
      ((PTree.nd l r).hashT Hh, nodeToBytes (canonNode Hh (.nd l r)), 1) ::
        (canonStore Hh l ++ canonStore Hh r)

/-- A committed mutable tree state over a store and root: empty overlay,
    empty death row, root handle pointing at the database (the shape
    `commit` always leaves behind). -/
def committedState (db : Store) (root : Bytes) : MutState :=
  { storage := [], deathRow := [], db := db, root := root,
    rootHandle := .Database root }

-- ================================================================================================
-- Predicates used in the theorem statements
-- ================================================================================================

deriving instance DecidableEq for Except

/-- A node is internally hash consistent and its child hashes have digest
    length: exactly what decoding and the node constructors guarantee. -/
def nodeConsistent (Hh : HasherM) : Node → Bool
  | .Value h v => h = Hh.hash v
  | .Inner h l r =>
      h = Hh.hash (l.hash ++ r.hash) && l.hash.length = Hh.len &&
        r.hash.length = Hh.len

/-- Every overlay node is consistent and keyed by its own hash, and every
    store entry decodes (when it decodes) to a node with the entry hash:
    the store is content addressed. -/
def stateConsistent (Hh : HasherM) (s : MutState) : Prop :=
  (∀ e ∈ s.storage, nodeConsistent Hh e.2.1 = true ∧ e.2.1.hash = e.1) ∧
  (∀ e ∈ s.db, ∀ n, bytesToNode Hh e.2.1 = .ok n → n.hash = e.1)

/-- A hash chain along the key bits: the hash of the leaf value reached by
    following the bit-selected component through `fuel` levels of
    digest-pair preimages. -/
def SpineChain (Hh : HasherM) (key value : Bytes) : Nat → Nat → Bytes → Prop
  | 0, _, h => h = Hh.hash value
  | fuel + 1, ki, h => ∃ lh rh,
      h = Hh.hash (lh ++ rh) ∧ lh.length = Hh.len ∧ rh.length = Hh.len ∧
      SpineChain Hh key value fuel (ki + 1) (if keyBitRaw key ki then rh else lh)

/-- The resolver exposes the pure tree along the given bit path: at every
    level the reference carries the subtree hash, its Default flag matches
    subtree nullness, and resolving it yields an inner node whose children
    carry the child subtree hashes and nullness flags. -/
def SpineRepB (Hh : HasherM) (f : NodeHash → Except TreeError Node) :
    NodeHash → PTree → List Bool → Bool
  | ref, .lf v, [] =>
      (f ref == .ok (.Value (Hh.hash v) v)) && (ref.hash == Hh.hash v) &&
        (ref.isDefault == (PTree.lf v).isD)
  | ref, .nd l r, b :: bs =>
      (match f ref with
        | .ok (.Inner h lref rref) =>
            (h == (PTree.nd l r).hashT Hh) &&
            (lref.hash == l.hashT Hh) && (rref.hash == r.hashT Hh) &&
            (lref.isDefault == l.isD) && (rref.isDefault == r.isD) &&
            SpineRepB Hh f (if b then rref else lref) (if b then r else l) bs
        | _ => false) &&
      (ref.hash == (PTree.nd l r).hashT Hh) &&
      (ref.isDefault == (PTree.nd l r).isD)
  | _, _, _ => false

/-- The sibling hashes along a bit path, root level first. -/
def sibHashes (Hh : HasherM) : PTree → List Bool → List Bytes
  | .nd l r, b :: bs =>
      (if b then l.hashT Hh else r.hashT Hh) ::
        sibHashes Hh (if b then r else l) bs
  | _, _ => []

/-- The in-memory reference `insert_at` creates for a freshly written
    subtree: Default for null subtrees, InMemory otherwise. -/
def insRef (Hh : HasherM) (t : PTree) : NodeHash :=
  if t.isD then .Default (t.hashT Hh) else .InMemory (t.hashT Hh)

/-- The node `insert_at` builds at a level of the written path: the child
    on the path is a fresh in-memory reference, the sibling keeps its
    decoded canonical reference. -/
def mixNode (Hh : HasherM) : PTree → List Bool → Node
  | .lf v, _ => .Value (Hh.hash v) v
  | .nd l r, [] => canonNode Hh (.nd l r)
  | .nd l r, b :: bs =>
      if b then .Inner ((PTree.nd l r).hashT Hh) (canonRef Hh l) (insRef Hh r)
      else .Inner ((PTree.nd l r).hashT Hh) (insRef Hh l) (canonRef Hh r)

/-- The committed spine: along the bit path every reference is the
    canonical one and resolves to the canonical node of its subtree. -/
def canonSpineB (Hh : HasherM) (f : NodeHash → Except TreeError Node) :
    PTree → List Bool → Bool
  | t, [] => f (canonRef Hh t) == .ok (canonNode Hh t)
  | .nd l r, b :: bs =>
      (f (canonRef Hh (.nd l r)) == .ok (canonNode Hh (.nd l r))) &&
        canonSpineB Hh f (if b then r else l) bs
  | .lf _, _ :: _ => false

/-- The freshly written spine: along the bit path every reference is the
    in-memory one and resolves to the mixed node of its subtree. -/
def memSpineB (Hh : HasherM) (f : NodeHash → Except TreeError Node) :
    PTree → List Bool → Bool
  | .lf v, [] => f (insRef Hh (.lf v)) == .ok (.Value (Hh.hash v) v)
  | .nd _ _, [] => false
  | .nd l r, b :: bs =>
      (f (insRef Hh (.nd l r)) == .ok (mixNode Hh (.nd l r) (b :: bs))) &&
        memSpineB Hh f (if b then r else l) bs
  | .lf _, _ :: _ => false

/-- The overlay entries a successful changing insert appends, bottom up:
    one count for every non-default node of the written path. -/
def qOver (Hh : HasherM) : PTree → List Bool → Bytes → Overlay
  | _, [], v =>
      let n := Node.newValue Hh v
      if n.isDefault then [] else [(n.hash, n, 1)]
  | .nd l r, b :: bs, v =>
      qOver Hh (if b then r else l) bs v ++
        (let u := (PTree.nd l r).setAt (b :: bs) v
         let n := mixNode Hh u (b :: bs)
         if n.isDefault then [] else [(n.hash, n, 1)])
  | .lf _, _ :: _, _ => []

/-- The death row entries a successful changing insert over a committed
    spine appends, bottom up: one count for every database-resident (non
    default) node of the overwritten path. -/
def pDeath (Hh : HasherM) : PTree → List Bool → List (Bytes × Nat)
  | t, [] => if t.isD then [] else [(t.hashT Hh, 1)]
  | .nd l r, b :: bs =>
      pDeath Hh (if b then r else l) bs ++
        (if (PTree.nd l r).isD then [] else [((PTree.nd l r).hashT Hh, 1)])
  | .lf _, _ :: _ => []

/-- The node shapes whose canonical encoding decodes back exactly: value
    nodes with a non-empty value, and hash-consistent inner nodes with no
    in-memory child and at most one Default child. -/
def decodableShape (Hh : HasherM) : Node → Bool
  | .Value h v => !v.isEmpty && h = Hh.hash v
  | .Inner h l r =>
      (h = Hh.hash (l.hash ++ r.hash)) && l.hash.length = Hh.len &&
        r.hash.length = Hh.len &&
        (match l, r with
          | .Database _, .Database _ => true
          | .Database _, .Default _ => true
          | .Default _, .Database _ => true
          | _, _ => false)

/-- The key bits from index `j` for `n` levels: the suffix of the key path
    a recursive `insert_at` call still has to follow. -/
def pathBits (key : Bytes) (j n : Nat) : List Bool :=
  (List.range' j n).map (keyBitRaw key)

/-- The previous-value result `insert_at` reports for a slot: the leaf
    value when present and non-empty, `none` for an absent (default) slot. -/
def oldOf (u : PTree) (bits : List Bool) : Option Bytes :=
  match u.valueAt bits with
  | some w => if w.isEmpty then none else some w
  | none => none

/-- The subtrees along a bit path, root first (the last element is the
    reached slot subtree). -/
def spineSubs : PTree → List Bool → List PTree
  | t, [] => [t]
  | .nd l r, b :: bs => .nd l r :: spineSubs (if b then r else l) bs
  | t, _ :: _ => [t]

/-- The adversarial committed tree of the inclusion counterexample: the
    leaf at key 128 stores `H([1]) ++ d_0`, a value of digest-pair length,
    whose hash therefore collides with the inner node `insert` later builds
    above the fresh leaf for `[1]`. -/
def cexTree : PTree :=
  PTree.setAt (PTree.dT 8) (keyBits 1 [128]) (hashC.hash [1] ++ dHash hashC 0)

/-- The committed representation of `cexTree` at depth one. -/
def cexState : MutState :=
  committedState (canonStore hashC cexTree) (cexTree.hashT hashC)

/-- A small well-formed committed tree (value [7] at key 3) used to
    instantiate general theorems at depth one. -/
def wTree : PTree := PTree.setAt (PTree.dT 8) (keyBits 1 [3]) [7]

/-- Store representation is a checkable property on concrete data. -/
instance storeRepDecidable (Hh : HasherM) (db : Store) (t : PTree) :
    Decidable (StoreRep Hh db t) := by
  unfold StoreRep entryCanon
  exact inferInstance

/-- The overlay entries the removal pass writes back, bottom up: one
    rebuilt node for every non-default level of the old path. -/
def rOver (Hh : HasherM) : PTree → List Bool → Overlay
  | _, [] => []
  | .nd l r, b :: bs =>
      rOver Hh (if b then r else l) bs ++
        (let n := mixNode Hh (.nd l r) (b :: bs)
         if n.isDefault then [] else [(n.hash, n, 1)])
  | .lf _, _ :: _ => []

-- ================================================================================================
-- General helper lemmas
-- ================================================================================================

/-- Zipping only consumes the first `l₁.length` elements of the right list. -/
theorem zip_take_len {α β : Type} (l₁ : List α) (l₂ : List β) :
    l₁.zip (l₂.take l₁.length) = l₁.zip l₂ := by
  induction l₁ generalizing l₂ with
  | nil => simp
  | cons a t ih =>
      cases l₂ with
      | nil => simp
      | cons b t₂ => simp [List.zip_cons_cons, ih]

/-- A monadic fold whose step never fails computes the pure fold. -/
theorem foldlM_ok {α β ε : Type} (step : α → β → Except ε α) (f : α → β → α)
    (l : List β) (h : ∀ b ∈ l, ∀ a, step a b = .ok (f a b)) (a : α) :
    l.foldlM step a = .ok (l.foldl f a) := by
  induction l generalizing a with
  | nil => rfl
  | cons b t ih =>
      have hb := h b (by simp)
      simp only [List.foldlM_cons, hb, List.foldl_cons]
      exact ih (fun x hx a => h x (by simp [hx]) a) (f a b)

/-- `Key::bit` succeeds on every index below the bit width. -/
theorem keyBit_lt (D : Nat) (k : Bytes) (i : Nat) (h : i < D * 8) :
    keyBit D k i = .ok (keyBitRaw k i) := by
  have : i / 8 < D := by omega
  simp [keyBit, Nat.not_le.mpr this]

-- ================================================================================================
-- C2: mutable-tree root initialization
-- ================================================================================================

/-- C2: the claim says `TreeDBMutBuilder::build` initialises the root
    handle to `Default(d_N)` when the incoming root is the zero hash or the
    top default hash.  The code unconditionally uses `Database(root)`: built
    over an empty store with the zero hash, the root handle is a database
    reference (unlike the immutable builder, which does implement the
    claimed check), and the very first insert on such a freshly built empty
    tree fails with DatabaseDataNotFound, which contradicts the library
    test suite (`mock_data` in src/tests.rs inserts into exactly such a
    tree).  The code, not the claim, is wrong. -/
theorem C2_mut_root_initialization_code_bug :
    (treeDBMutBuild ([] : Store) [0]).rootHandle = .Database [0] ∧
    (treeDBBuild hashC 1 [] [0]).root = .Default ((nullLadder hashC 8).2) ∧
    NodeHash.Database ([0] : Bytes) ≠ .Default ((nullLadder hashC 8).2) ∧
    (treeMutInsert hashC 1 (treeDBMutBuild [] [0]) [0] [1]).2 =
      .error (.DataError (.DatabaseDataNotFound [0])) := by
  decide

-- ================================================================================================
-- C3: index-to-key conversion
-- ================================================================================================

/-- C3: the claim says `Key::try_from(v)` fails iff `v >= 2^(D*8)` and
    otherwise takes the LOW (trailing) D bytes of the big-endian encoding.
    The code compares with `>` (so `v = 2^(D*8)` is accepted) and slices
    the LEADING D bytes (`to_be_bytes()[..D]`), so index 100 at D = 2 maps
    to the key [0,0] instead of [0,100].  The test suite pairs index 100
    with path [0,100] (TEST_DATA of src/tests.rs), so the code, not the
    claim, is wrong. -/
theorem C3_index_key_conversion_code_bug :
    keyTryFrom 2 100 = .ok [0, 0] ∧ ([0, 0] : Bytes) ≠ [0, 100] ∧
    keyTryFrom 2 (2 ^ 16) = .ok [0, 0] ∧
    keyTryFrom 2 (2 ^ 16 + 1) = .error (.LeafIndexOutOfBounds (2 ^ 16 + 1) (2 ^ 16)) ∧
    keyTryFrom 1 5 = .ok [0] := by
  decide

-- ================================================================================================
-- C6: codec round-trip
-- ================================================================================================

/-- C6 counterexample: the well-formed inner node with two identical
    Default children (the canonical null node of level 1, explicitly legal
    per the data model) does not decode back to itself: its encoding is
    tagged 2, so decoding marks the left child Database instead of
    Default. -/
theorem C6_codec_roundtrip_counterexample :
    bytesToNode hashC (nodeToBytes (.Inner (hashC.hash (hashC.hash [] ++ hashC.hash []))
        (.Default (hashC.hash [])) (.Default (hashC.hash [])))) =
      .ok (.Inner (hashC.hash (hashC.hash [] ++ hashC.hash []))
        (.Database (hashC.hash [])) (.Default (hashC.hash []))) ∧
    bytesToNode hashC (nodeToBytes (.Inner (hashC.hash (hashC.hash [] ++ hashC.hash []))
        (.Default (hashC.hash [])) (.Default (hashC.hash [])))) ≠
      .ok (.Inner (hashC.hash (hashC.hash [] ++ hashC.hash []))
        (.Default (hashC.hash [])) (.Default (hashC.hash []))) := by
  decide

/-- C6 amended: decode is a left inverse of encode exactly on the node
    shapes decode can produce: hash-consistent value nodes with a non-empty
    value, and hash-consistent inner nodes with digest-length child hashes
    whose residence tags are (Database, Database), (Database, Default) or
    (Default, Database).  Nodes with an InMemory child, with two Default
    children, or with an empty value do not round-trip. -/
theorem C6_codec_roundtrip_amended (Hh : HasherM) (n : Node)
    (h : decodableShape Hh n = true) :
    bytesToNode Hh (nodeToBytes n) = .ok n := by
  cases n with
  | Value hh v =>
      simp only [decodableShape, Bool.and_eq_true, Bool.not_eq_true',
        decide_eq_true_iff] at h
      obtain ⟨hne, hhash⟩ := h
      cases v with
      | nil => simp at hne
      | cons a t => simp [nodeToBytes, bytesToNode, Node.newValue, hhash]
  | Inner hh l r =>
      simp only [decodableShape, Bool.and_eq_true, decide_eq_true_iff] at h
      obtain ⟨⟨⟨hhash, hl⟩, hr⟩, htags⟩ := h
      have htake : (l.hash ++ r.hash).take Hh.len = l.hash := by
        rw [← hl]; exact List.take_left _ _
      have hdrop : (l.hash ++ r.hash).drop Hh.len = r.hash := by
        rw [← hl]; exact List.drop_left _ _
      have hlen : (l.hash ++ r.hash).length = 2 * Hh.len := by
        simp [List.length_append, hl, hr]; omega
      match l, r, htags with
      | .Database lh, .Database rh, _ =>
          simp only [nodeToBytes, NodeHash.hash] at *
          simp [bytesToNode, hlen, decodeHash, htake, hdrop, hl, hr,
            Node.newInner, hhash, NodeHash.hash]
      | .Database lh, .Default rh, _ =>
          simp only [nodeToBytes, NodeHash.hash] at *
          simp [bytesToNode, hlen, decodeHash, htake, hdrop, hl, hr,
            Node.newInner, hhash, NodeHash.hash]
      | .Default lh, .Database rh, _ =>
          simp only [nodeToBytes, NodeHash.hash] at *
          simp [bytesToNode, hlen, decodeHash, htake, hdrop, hl, hr,
            Node.newInner, hhash, NodeHash.hash]

/-- C6 witness: the amended round-trip applied to a concrete value node. -/
theorem C6_codec_roundtrip_witness :
    decodableShape hashC (.Value (hashC.hash [5]) [5]) = true ∧
    bytesToNode hashC (nodeToBytes (.Value (hashC.hash [5]) [5])) =
      .ok (.Value (hashC.hash [5]) [5]) :=
  ⟨by decide, C6_codec_roundtrip_amended hashC _ (by decide)⟩

-- ================================================================================================
-- C7: decode error taxonomy
-- ================================================================================================

/-- C7 counterexample: the claim says any first byte outside {0,1,2,3}
    yields the invalid-tag error regardless of length.  Decoding `[7]`
    (first byte 7, wrong length) yields InvalidLength(1, 2L+1) instead, and
    decoding the empty input yields NoData, not the invalid-tag error. -/
theorem C7_decode_error_taxonomy_counterexample :
    bytesToNode hashC [7] = .error (.DecodeNodeInvalidLength 1 3) ∧
    (Except.error (.DecodeNodeInvalidLength 1 3) : Except NodeError Node) ≠
      .error (.DecodeNodeInvalidTag 7) ∧
    bytesToNode hashC [] = .error .DecodeNodeNoData := by
  decide

/-- C7 amended: the exact decode error taxonomy.  EmptyValueBody iff the
    input is exactly [0]; NoData iff the input is empty; InvalidLength
    (with the actual length in the first argument and 2L+1 in the second,
    the reverse of the declaration order in error.rs) iff the first byte is
    nonzero (not only 1..3) and the length differs from 2L+1; the
    invalid-tag error iff the first byte is outside {0,1,2,3} and the
    length is exactly 2L+1; and decoding never reports a failed hash decode
    or inconsistent default hashes. -/
theorem C7_decode_error_taxonomy_amended (Hh : HasherM) (data : Bytes) :
    (bytesToNode Hh data = .error .DecodeNodeEmptyValue ↔ data = [0]) ∧
    (bytesToNode Hh data = .error .DecodeNodeNoData ↔ data = []) ∧
    (∀ a b, bytesToNode Hh data = .error (.DecodeNodeInvalidLength a b) ↔
      ∃ t rest, data = t :: rest ∧ t ≠ 0 ∧ data.length ≠ 2 * Hh.len + 1 ∧
        a = data.length ∧ b = 2 * Hh.len + 1) ∧
    (∀ t, bytesToNode Hh data = .error (.DecodeNodeInvalidTag t) ↔
      ∃ rest, data = t :: rest ∧ t ≠ 0 ∧ t ≠ 1 ∧ t ≠ 2 ∧ t ≠ 3 ∧
        data.length = 2 * Hh.len + 1) ∧
    (∀ bs, bytesToNode Hh data ≠ .error (.DecodeNodeHashFailed bs)) ∧
    bytesToNode Hh data ≠ .error .InconsistentDefaultHashes := by
  match data with
  | [] => simp [bytesToNode]
  | 0 :: rest =>
      by_cases hr : rest = []
      · subst hr
        simp [bytesToNode]
      · have hlen : (0 :: rest).length ≠ 1 := by
          simp [List.length_eq_zero]; exact hr
        simp [bytesToNode, hlen, Node.newValue, hr]
  | (m + 1) :: rest =>
      by_cases hlen : ((m + 1) :: rest).length = 2 * Hh.len + 1
      · have hrl : rest.length = 2 * Hh.len := by simp at hlen; omega
        have htl : (rest.take Hh.len).length = Hh.len := by
          simp [List.length_take, hrl]; omega
        have hdl : (rest.drop Hh.len).length = Hh.len := by
          simp [List.length_drop, hrl]; omega
        by_cases h1 : m + 1 = 1
        · simp [bytesToNode, hlen, hrl, decodeHash, htl, hdl, h1, Node.newInner]
        · by_cases h2 : m + 1 = 2
          · simp [bytesToNode, hlen, hrl, decodeHash, htl, hdl, h1, h2,
              Node.newInner]
          · by_cases h3 : m + 1 = 3
            · simp [bytesToNode, hlen, hrl, decodeHash, htl, hdl, h1, h2, h3,
                Node.newInner]
            · simp [bytesToNode, hlen, hrl, decodeHash, htl, hdl, h1, h2, h3,
                Node.newInner]
      · have hrl2 : rest.length ≠ 2 * Hh.len := by simp at hlen ⊢; omega
        simp [bytesToNode, hlen, hrl2]
        omega

-- ================================================================================================
-- C9: verify performs no length check on the sibling list
-- ================================================================================================

/-- C9: for a key of the right width, `verify` never returns an error for
    any sibling list; with the empty sibling list it returns true exactly
    when the value hash equals the root; and any siblings beyond the first
    D*8 are ignored (the fold stops at the shorter of bits and siblings). -/
theorem C9_verify_no_length_check (Hh : HasherM) (D : Nat) (key value : Bytes)
    (pf : List Bytes) (root : Bytes) (hk : key.length = D) :
    (∃ b, treeVerify Hh D key value pf root = .ok b) ∧
    (treeVerify Hh D key value [] root = .ok true ↔ Hh.hash value = root) ∧
    treeVerify Hh D key value pf root =
      treeVerify Hh D key value (pf.take (D * 8)) root := by
  have hnew : keyNew D key = .ok key := by simp [keyNew, hk]
  have hfold : ∀ (l : List Bytes),
      (((List.range (D * 8)).reverse.zip l).foldlM
        (fun hash (p : Nat × Bytes) =>
          match keyBit D key p.1 with
          | .error e => .error (.KeyError e)
          | .ok bit =>
              match ChildSelector.new bit with
              | .Left => .ok (Hh.hash (hash ++ p.2))
              | .Right => .ok (Hh.hash (p.2 ++ hash)))
        (Hh.hash value) : Except TreeError Bytes) =
      .ok (((List.range (D * 8)).reverse.zip l).foldl
        (fun hash p =>
          if keyBitRaw key p.1 then Hh.hash (p.2 ++ hash) else Hh.hash (hash ++ p.2))
        (Hh.hash value)) := by
    intro l
    apply foldlM_ok
    intro b hb a
    have hmem := List.of_mem_zip hb
    have hi : b.1 < D * 8 := by
      have := hmem.1
      simp [List.mem_reverse, List.mem_range] at this
      exact this
    rw [keyBit_lt D key b.1 hi]
    cases hbit : keyBitRaw key b.1 <;> simp [ChildSelector.new, hbit]
  refine ⟨?_, ?_, ?_⟩
  · simp only [treeVerify, hnew, hfold]
    exact ⟨_, rfl⟩
  · simp only [treeVerify, hnew, List.zip_nil_right, List.foldlM_nil, pure, Except.pure]
    simp [decide_eq_true_iff]
  · have hlen : (List.range (D * 8)).reverse.length = D * 8 := by simp
    simp only [treeVerify, hnew]
    rw [← zip_take_len (List.range (D * 8)).reverse pf, hlen]

/-- C9 witness: a 9-element sibling list at depth 8 verifies without error
    and only its first 8 elements matter. -/
theorem C9_verify_no_length_check_witness :
    ([0] : Bytes).length = 1 ∧
    ((∃ b, treeVerify hashC 1 [0] [9] [[1],[2],[3],[4],[5],[6],[7],[8],[9]] [5] = .ok b) ∧
     (treeVerify hashC 1 [0] [9] [] [5] = .ok true ↔ hashC.hash [9] = [5]) ∧
     treeVerify hashC 1 [0] [9] [[1],[2],[3],[4],[5],[6],[7],[8],[9]] [5] =
       treeVerify hashC 1 [0] [9] ([[1],[2],[3],[4],[5],[6],[7],[8],[9]].take (1 * 8)) [5]) :=
  ⟨by decide, C9_verify_no_length_check hashC 1 [0] [9] _ [5] (by decide)⟩

-- ================================================================================================
-- Consistency and frame lemmas for the mutable tree
-- ================================================================================================

theorem afind_mem {β : Type} {l : List (Bytes × β)} {k : Bytes} {v : β}
    (h : afind l k = some v) : (k, v) ∈ l := by
  induction l with
  | nil => simp [afind] at h
  | cons e t ih =>
      obtain ⟨ek, ev⟩ := e
      by_cases hk : ek = k
      · subst hk
        simp [afind] at h
        simp [h]
      · simp [afind, hk] at h
        simp [ih h]

theorem aremove_subset {β : Type} {l : List (Bytes × β)} {k : Bytes} {e : Bytes × β}
    (h : e ∈ aremove l k) : e ∈ l := by
  induction l with
  | nil => simp [aremove] at h
  | cons f t ih =>
      obtain ⟨fk, fv⟩ := f
      by_cases hk : fk = k
      · subst hk
        simp [aremove] at h
        simp [h]
      · simp [aremove, hk] at h
        rcases h with h | h
        · simp [h]
        · simp [ih h]

theorem bytesToNode_consistent {Hh : HasherM} {d : Bytes} {n : Node}
    (h : bytesToNode Hh d = .ok n) : nodeConsistent Hh n = true := by
  match d with
  | [] => simp [bytesToNode] at h
  | 0 :: rest =>
      by_cases hr : rest = ([] : Bytes)
      · simp [bytesToNode, hr] at h
      · have hr1 : ((0 :: rest : Bytes)).length ≠ 1 := by
          simp [List.length_eq_zero]; exact hr
        simp [bytesToNode, hr1, hr, Node.newValue] at h
        rw [← h]
        simp [nodeConsistent]
  | (m + 1) :: rest =>
      by_cases hlen : ((m + 1) :: rest : Bytes).length = 2 * Hh.len + 1
      · have hrl : rest.length = 2 * Hh.len := by simp at hlen; omega
        have htl : (rest.take Hh.len).length = Hh.len := by
          simp [List.length_take, hrl]; omega
        have hdl : (rest.drop Hh.len).length = Hh.len := by
          simp [List.length_drop, hrl]; omega
        by_cases h1 : m + 1 = 1
        · simp [bytesToNode, hlen, hrl, decodeHash, htl, hdl, h1, Node.newInner] at h
          rw [← h]
          simp [nodeConsistent, NodeHash.hash, htl, hdl]
        · by_cases h2 : m + 1 = 2
          · simp [bytesToNode, hlen, hrl, decodeHash, htl, hdl, h1, h2, Node.newInner] at h
            rw [← h]
            simp [nodeConsistent, NodeHash.hash, htl, hdl]
          · by_cases h3 : m + 1 = 3
            · simp [bytesToNode, hlen, hrl, decodeHash, htl, hdl, h1, h2, h3, Node.newInner] at h
              rw [← h]
              simp [nodeConsistent, NodeHash.hash, htl, hdl]
            · simp [bytesToNode, hlen, hrl, decodeHash, htl, hdl, h1, h2, h3] at h
      · have hrl2 : rest.length ≠ 2 * Hh.len := by simp at hlen ⊢; omega
        simp [bytesToNode, hlen, hrl2] at h

theorem nullLadder_top_len {Hh : HasherM} (m : Nat) :
    (nullLadder Hh m).2.length = Hh.len := by
  cases m with
  | zero => simp [nullLadder, Hh.hash_len]
  | succ m => simp [nullLadder, Hh.hash_len]

theorem nullLadder_entries {Hh : HasherM} {m : Nat} :
    ∀ e ∈ (nullLadder Hh m).1, e.2.hash = e.1 ∧ nodeConsistent Hh e.2 = true := by
  induction m with
  | zero =>
      intro e he
      simp [nullLadder] at he
      subst he
      simp [Node.hash, nodeConsistent]
  | succ m ih =>
      intro e he
      simp only [nullLadder, List.mem_append, List.mem_singleton] at he
      rcases he with he | he
      · exact ih e he
      · subst he
        simp [Node.hash, nodeConsistent, NodeHash.hash, Hh.hash_len,
          nullLadder_top_len]

theorem nodeConsistent_hash_len {Hh : HasherM} {n : Node}
    (h : nodeConsistent Hh n = true) : n.hash.length = Hh.len := by
  cases n with
  | Value hh v =>
      simp [nodeConsistent] at h
      simp [Node.hash, h, Hh.hash_len]
  | Inner hh l r =>
      simp [nodeConsistent] at h
      simp [Node.hash, h.1.1, Hh.hash_len]

theorem treeMutLookup_consistent {Hh : HasherM} {D : Nat} {s : MutState}
    {r : NodeHash} {n : Node} (hc : stateConsistent Hh s)
    (h : treeMutLookup Hh D s r = .ok n) :
    n.hash = r.hash ∧ nodeConsistent Hh n = true := by
  cases r with
  | InMemory hh =>
      simp only [treeMutLookup, overlayGet] at h
      cases haf : afind s.storage hh with
      | none => simp [haf] at h
      | some e =>
          simp [haf] at h
          have := hc.1 (hh, e) (afind_mem haf)
          subst h
          exact ⟨by simp [NodeHash.hash, this.2], this.1⟩
  | Database hh =>
      simp only [treeMutLookup, storeGet] at h
      cases haf : afind s.db hh with
      | none => simp [haf] at h
      | some e =>
          simp [haf] at h
          cases hdec : bytesToNode Hh e.1 with
          | error e2 => simp [hdec] at h
          | ok n2 =>
              simp [hdec] at h
              subst h
              have := hc.2 (hh, e) (afind_mem haf) n2 hdec
              exact ⟨by simp [NodeHash.hash, this], bytesToNode_consistent hdec⟩
  | Default hh =>
      simp only [treeMutLookup] at h
      cases haf : afind (nullLadder Hh (D * 8)).1 hh with
      | none => simp [haf] at h
      | some n2 =>
          simp [haf] at h
          subst h
          have := nullLadder_entries (hh, n2) (afind_mem haf)
          exact ⟨by simp [NodeHash.hash, this.1], this.2⟩

theorem overlayInsert_consistent {Hh : HasherM} {st : Overlay} {n : Node}
    (hst : ∀ e ∈ st, nodeConsistent Hh e.2.1 = true ∧ e.2.1.hash = e.1)
    (hn : nodeConsistent Hh n = true) :
    ∀ e ∈ overlayInsert st n, nodeConsistent Hh e.2.1 = true ∧ e.2.1.hash = e.1 := by
  intro e he
  simp only [overlayInsert] at he
  cases haf : afind st n.hash with
  | some p =>
      rw [haf] at he
      rcases List.mem_cons.mp he with he | he
      · subst he
        have := hst (n.hash, p) (afind_mem haf)
        exact ⟨this.1, this.2⟩
      · exact hst e (aremove_subset he)
  | none =>
      rw [haf] at he
      rcases List.mem_append.mp he with he | he
      · exact hst e he
      · simp at he
        subst he
        exact ⟨hn, rfl⟩

theorem overlayRemove_consistent {Hh : HasherM} {st : Overlay} {h : Bytes}
    (hst : ∀ e ∈ st, nodeConsistent Hh e.2.1 = true ∧ e.2.1.hash = e.1) :
    ∀ e ∈ (overlayRemove st h).1, nodeConsistent Hh e.2.1 = true ∧ e.2.1.hash = e.1 := by
  intro e he
  simp only [overlayRemove] at he
  cases haf : afind st h with
  | some p =>
      rw [haf] at he
      by_cases hz : p.2 - 1 = 0
      · simp [hz] at he
        exact hst e (aremove_subset he)
      · simp [hz] at he
        rcases he with he | he
        · subst he
          have := hst (h, p) (afind_mem haf)
          exact ⟨this.1, this.2⟩
        · exact hst e (aremove_subset he)
  | none =>
      rw [haf] at he
      exact hst e he

theorem removeNode_consistent {Hh : HasherM} {s : MutState} {r : NodeHash}
    (hc : stateConsistent Hh s) : stateConsistent Hh (removeNode s r) := by
  cases r with
  | InMemory h => exact ⟨overlayRemove_consistent hc.1, hc.2⟩
  | Database h => exact ⟨hc.1, hc.2⟩
  | Default h => exact ⟨hc.1, hc.2⟩

theorem removeNode_db (s : MutState) (r : NodeHash) :
    (removeNode s r).db = s.db ∧ (removeNode s r).root = s.root ∧
      (removeNode s r).rootHandle = s.rootHandle := by
  cases r <;> simp [removeNode]

theorem childHash_ok_inner {n : Node} {sel : ChildSelector} {r : NodeHash}
    (h : n.childHash sel = .ok r) : ∃ hh l rr, n = .Inner hh l rr := by
  cases n with
  | Value hh v => simp [Node.childHash] at h
  | Inner hh l rr => exact ⟨hh, l, rr, rfl⟩

theorem insertAtF_error_frame {Hh : HasherM} {D : Nat} :
    ∀ {fuel : Nat} {s : MutState} {r : NodeHash} {key value : Bytes} {ki : Nat}
      {e : TreeError},
      (insertAtF Hh D fuel s r key value ki).2 = .error e →
      (insertAtF Hh D fuel s r key value ki).1 = s := by
  intro fuel
  induction fuel with
  | zero =>
      intro s r key value ki e h
      simp only [insertAtF] at h ⊢
      split at h
      · rfl
      · split at h <;> simp_all
  | succ fuel ih =>
      intro s r key value ki e h
      simp only [insertAtF] at h ⊢
      cases hlk : treeMutLookup Hh D s r with
      | error e2 => simp [hlk]
      | ok current =>
          simp only [hlk] at h ⊢
          cases hkb : keyBit D key ki with
          | error e2 => simp [hkb]
          | ok bit =>
              simp only [hkb] at h ⊢
              cases hch : current.childHash (ChildSelector.new bit) with
              | error e2 => simp [hch]
              | ok childRef =>
                  simp only [hch] at h ⊢
                  cases hrec : insertAtF Hh D fuel s childRef key value (ki + 1) with
                  | mk s2 res =>
                      cases res with
                      | error e2 =>
                          simp only [hrec] at h ⊢
                          have h2 := ih (e := e2) (by rw [hrec])
                          rw [hrec] at h2
                          exact h2
                      | ok trip =>
                          obtain ⟨cn, old, changed⟩ := trip
                          simp only [hrec] at h ⊢
                          by_cases hc : ¬changed = true
                          · simp [hc] at h
                          · simp only [hc, if_neg, ite_not] at h ⊢
                            obtain ⟨hh0, l0, r0, hcur⟩ := childHash_ok_inner hch
                            subst hcur
                            simp only [Node.setChildHash] at h ⊢
                            cases hsel : ChildSelector.new bit <;>
                              simp [hsel] at h ⊢ <;> simp_all

theorem insertAtF_false_frame {Hh : HasherM} {D : Nat} :
    ∀ {fuel : Nat} {s : MutState} {r : NodeHash} {key value : Bytes} {ki : Nat}
      {n : Node} {old : Option Bytes},
      (insertAtF Hh D fuel s r key value ki).2 = .ok (n, old, false) →
      (insertAtF Hh D fuel s r key value ki).1 = s := by
  intro fuel
  induction fuel with
  | zero =>
      intro s r key value ki n old h
      simp only [insertAtF] at h ⊢
      split at h
      · simp at h
      · split at h <;> simp_all
  | succ fuel ih =>
      intro s r key value ki n old h
      simp only [insertAtF] at h ⊢
      cases hlk : treeMutLookup Hh D s r with
      | error e2 => simp [hlk]
      | ok current =>
          simp only [hlk] at h ⊢
          cases hkb : keyBit D key ki with
          | error e2 => simp [hkb] at h
          | ok bit =>
              simp only [hkb] at h ⊢
              cases hch : current.childHash (ChildSelector.new bit) with
              | error e2 => simp [hch] at h
              | ok childRef =>
                  simp only [hch] at h ⊢
                  cases hrec : insertAtF Hh D fuel s childRef key value (ki + 1) with
                  | mk s2 res =>
                      cases res with
                      | error e2 => simp only [hrec] at h; simp at h
                      | ok trip =>
                          obtain ⟨cn, old2, changed⟩ := trip
                          simp only [hrec] at h ⊢
                          by_cases hc : ¬changed = true
                          · simp only [hc, ite_true, if_pos] at h ⊢
                            simp at h hc
                            subst hc
                            have h2 := @ih s childRef key value (ki + 1) cn
                              old2 (by rw [hrec])
                            rw [hrec] at h2
                            simp [h2, h]
                          · simp only [hc, if_neg, ite_not] at h ⊢
                            obtain ⟨hh0, l0, r0, hcur⟩ := childHash_ok_inner hch
                            subst hcur
                            simp only [Node.setChildHash] at h ⊢
                            cases hsel : ChildSelector.new bit <;> simp [hsel] at h

theorem keyBit_ok_val {D : Nat} {k : Bytes} {i : Nat} {b : Bool}
    (h : keyBit D k i = .ok b) : b = keyBitRaw k i := by
  simp only [keyBit] at h
  split at h
  · simp at h
  · simp at h
    exact h.symm

theorem insertAtF_spec {Hh : HasherM} {D : Nat} :
    ∀ {fuel : Nat} {s : MutState} {r : NodeHash} {key value : Bytes} {ki : Nat}
      {n : Node} {old : Option Bytes} {ch : Bool},
      stateConsistent Hh s →
      (insertAtF Hh D fuel s r key value ki).2 = .ok (n, old, ch) →
      nodeConsistent Hh n = true ∧
      SpineChain Hh key value fuel ki n.hash ∧
      (ch = false → n.hash = r.hash) ∧
      stateConsistent Hh (insertAtF Hh D fuel s r key value ki).1 := by
  intro fuel
  induction fuel with
  | zero =>
      intro s r key value ki n old ch hc h
      simp only [insertAtF] at h ⊢
      split at h
      · simp at h
      · rename_i oldNode hold
        by_cases heq : (Node.newValue Hh value).hash = r.hash
        · simp only [heq, if_pos] at h ⊢
          simp at h ⊢
          obtain ⟨hn, _, hch⟩ := h
          subst hn
          refine ⟨by simp [Node.newValue, nodeConsistent], ?_, fun _ => heq, hc⟩
          simp [SpineChain, Node.newValue, Node.hash]
        · simp only [heq, if_neg, ite_false] at h ⊢
          simp at h ⊢
          obtain ⟨hn, _, hch⟩ := h
          subst hn
          refine ⟨by simp [Node.newValue, nodeConsistent], ?_, ?_, ?_⟩
          · simp [SpineChain, Node.newValue, Node.hash]
          · intro hf
            rw [hch] at hf
            simp at hf
          · by_cases hd : (Node.newValue Hh value).isDefault = true
            · simp only [hd]
              simp
              exact removeNode_consistent hc
            · simp only [hd]
              simp
              refine removeNode_consistent ⟨?_, hc.2⟩
              exact overlayInsert_consistent hc.1 (by simp [Node.newValue, nodeConsistent])
  | succ fuel ih =>
      intro s r key value ki n old ch hc h
      simp only [insertAtF] at h ⊢
      cases hlk : treeMutLookup Hh D s r with
      | error e2 => simp [hlk] at h
      | ok current =>
          simp only [hlk] at h ⊢
          cases hkb : keyBit D key ki with
          | error e2 => simp [hkb] at h
          | ok bit =>
              simp only [hkb] at h ⊢
              have hbit : bit = keyBitRaw key ki := keyBit_ok_val hkb
              cases hch : current.childHash (ChildSelector.new bit) with
              | error e2 => simp [hch] at h
              | ok childRef =>
                  simp only [hch] at h ⊢
                  obtain ⟨hcc, hcons⟩ := treeMutLookup_consistent hc hlk
                  obtain ⟨hh0, l0, r0, hcur⟩ := childHash_ok_inner hch
                  subst hcur
                  simp only [nodeConsistent, Bool.and_eq_true, decide_eq_true_iff] at hcons
                  obtain ⟨⟨hhash0, hl0⟩, hr0⟩ := hcons
                  cases hrec : insertAtF Hh D fuel s childRef key value (ki + 1) with
                  | mk s2 res =>
                      cases res with
                      | error e2 => simp only [hrec] at h; simp at h
                      | ok trip =>
                          obtain ⟨cn, old2, changed⟩ := trip
                          have hrec2 : (insertAtF Hh D fuel s childRef key value (ki + 1)).2 =
                              .ok (cn, old2, changed) := by rw [hrec]
                          obtain ⟨ihc, ihchain, ihfalse, ihstate⟩ := ih hc hrec2
                          rw [hrec] at ihstate
                          simp only [hrec] at h ⊢
                          by_cases hcg : ¬changed = true
                          · simp only [hcg, ite_true, if_pos] at h ⊢
                            simp at h hcg
                            obtain ⟨hn, _, hch2⟩ := h
                            subst hn
                            have hcnh : cn.hash = childRef.hash := ihfalse hcg
                            refine ⟨?_, ?_, ?_, ihstate⟩
                            · simp [nodeConsistent, hhash0, hl0, hr0]
                            · refine ⟨l0.hash, r0.hash, ?_, hl0, hr0, ?_⟩
                              · simp [Node.hash, hhash0]
                              · rw [← hbit]
                                have : (if bit then r0.hash else l0.hash) = childRef.hash := by
                                  cases bit <;> simp [ChildSelector.new, Node.childHash] at hch <;>
                                    simp [hch, NodeHash.hash]
                                rw [this, ← hcnh]
                                exact ihchain
                            · intro _
                              exact hcc
                          · simp only [hcg, if_neg, ite_not] at h ⊢
                            simp at hcg
                            simp only [Node.setChildHash] at h ⊢
                            have hlen2 : (if cn.isDefault = true then NodeHash.Default cn.hash
                                else NodeHash.InMemory cn.hash).hash = cn.hash := by
                              split <;> simp [NodeHash.hash]
                            cases hsel : ChildSelector.new bit with
                            | Left =>
                                simp only [hsel] at h ⊢
                                simp at h ⊢
                                obtain ⟨hn, _, hch2⟩ := h
                                have hbit2 : bit = false := by
                                  cases bit
                                  · rfl
                                  · simp [ChildSelector.new] at hsel
                                have hcnlen : cn.hash.length = Hh.len :=
                                  nodeConsistent_hash_len ihc
                                refine ⟨?_, ?_, ?_, ?_⟩
                                · rw [← hn]
                                  simp [nodeConsistent, hlen2, hr0, hcnlen]
                                · rw [← hn]
                                  simp only [Node.hash]
                                  refine ⟨cn.hash, r0.hash, by split <;> rfl, hcnlen, hr0, ?_⟩
                                  rw [← hbit, hbit2]
                                  simp
                                  exact ihchain
                                · intro hf
                                  rw [hch2] at hf
                                  simp at hf
                                · by_cases hd : (Node.Inner
                                      (Hh.hash ((if cn.isDefault = true then NodeHash.Default cn.hash
                                        else NodeHash.InMemory cn.hash).hash ++ r0.hash))
                                      (if cn.isDefault = true then NodeHash.Default cn.hash
                                        else NodeHash.InMemory cn.hash) r0).isDefault = true
                                  · simp only [hd]
                                    simp
                                    exact removeNode_consistent ihstate
                                  · simp only [hd]
                                    simp
                                    refine removeNode_consistent ⟨?_, ihstate.2⟩
                                    refine overlayInsert_consistent ihstate.1 ?_
                                    simp [nodeConsistent, hlen2, hr0, hcnlen]
                            | Right =>
                                simp only [hsel] at h ⊢
                                simp at h ⊢
                                obtain ⟨hn, _, hch2⟩ := h
                                have hbit2 : bit = true := by
                                  cases bit
                                  · simp [ChildSelector.new] at hsel
                                  · rfl
                                have hcnlen : cn.hash.length = Hh.len :=
                                  nodeConsistent_hash_len ihc
                                refine ⟨?_, ?_, ?_, ?_⟩
                                · rw [← hn]
                                  simp [nodeConsistent, hlen2, hl0, hcnlen]
                                · rw [← hn]
                                  simp only [Node.hash]
                                  refine ⟨l0.hash, cn.hash, by split <;> rfl, hl0, hcnlen, ?_⟩
                                  rw [← hbit, hbit2]
                                  simp
                                  exact ihchain
                                · intro hf
                                  rw [hch2] at hf
                                  simp at hf
                                · by_cases hd : (Node.Inner
                                      (Hh.hash (l0.hash ++ (if cn.isDefault = true then NodeHash.Default cn.hash
                                        else NodeHash.InMemory cn.hash).hash))
                                      l0 (if cn.isDefault = true then NodeHash.Default cn.hash
                                        else NodeHash.InMemory cn.hash)).isDefault = true
                                  · simp only [hd]
                                    simp
                                    exact removeNode_consistent ihstate
                                  · simp only [hd]
                                    simp
                                    refine removeNode_consistent ⟨?_, ihstate.2⟩
                                    refine overlayInsert_consistent ihstate.1 ?_
                                    simp [nodeConsistent, hlen2, hl0, hcnlen]

theorem insertAtF_chain_noop {Hh : HasherM} {D : Nat}
    (hinj : Function.Injective Hh.hash) :
    ∀ {fuel : Nat} {s : MutState} {r : NodeHash} {key value : Bytes} {ki : Nat},
      stateConsistent Hh s →
      SpineChain Hh key value fuel ki r.hash →
      (insertAtF Hh D fuel s r key value ki).1 = s ∧
      ((∃ e, (insertAtF Hh D fuel s r key value ki).2 = .error e) ∨
       ∃ n old, (insertAtF Hh D fuel s r key value ki).2 = .ok (n, old, false)) := by
  intro fuel
  induction fuel with
  | zero =>
      intro s r key value ki hc hchain
      simp only [SpineChain] at hchain
      have heq : (Node.newValue Hh value).hash = r.hash := by
        simp [Node.newValue, Node.hash, hchain]
      simp only [insertAtF, heq, if_pos]
      split
      · exact ⟨by simp, .inl ⟨_, rfl⟩⟩
      · simp only [heq, if_pos]
        exact ⟨by simp, .inr ⟨_, _, rfl⟩⟩
  | succ fuel ih =>
      intro s r key value ki hc hchain
      obtain ⟨lh, rh, hrhash, hlh, hrh, hnext⟩ := hchain
      simp only [insertAtF]
      cases hlk : treeMutLookup Hh D s r with
      | error e2 => simp only [hlk]; exact ⟨by simp, .inl ⟨_, rfl⟩⟩
      | ok current =>
          cases hkb : keyBit D key ki with
          | error e2 =>
              simp only [hlk, hkb]
              exact ⟨by simp, .inl ⟨_, rfl⟩⟩
          | ok bit =>
              have hbit : bit = keyBitRaw key ki := keyBit_ok_val hkb
              cases hch : current.childHash (ChildSelector.new bit) with
              | error e2 =>
                  simp only [hlk, hkb, hch]
                  exact ⟨by simp, .inl ⟨_, rfl⟩⟩
              | ok childRef =>
                  obtain ⟨hcc, hcons⟩ := treeMutLookup_consistent hc hlk
                  obtain ⟨hh0, l0, r0, hcur⟩ := childHash_ok_inner hch
                  subst hcur
                  simp only [nodeConsistent, Bool.and_eq_true, decide_eq_true_iff] at hcons
                  obtain ⟨⟨hhash0, hl0⟩, hr0⟩ := hcons
                  have hcat : l0.hash ++ r0.hash = lh ++ rh := by
                    apply hinj
                    rw [← hhash0, ← hrhash]
                    simp only [Node.hash] at hcc
                    exact hcc
                  have hsplit := List.append_inj hcat (by rw [hl0, hlh])
                  have hcr : childRef.hash = (if keyBitRaw key ki then rh else lh) := by
                    rw [← hbit]
                    cases bit <;> simp [ChildSelector.new, Node.childHash] at hch <;>
                      simp [← hch, hsplit.1, hsplit.2]
                  have hchain2 : SpineChain Hh key value fuel (ki + 1) childRef.hash := by
                    rw [hcr]
                    exact hnext
                  obtain ⟨ihframe, ihres⟩ := ih hc hchain2
                  cases hrec : insertAtF Hh D fuel s childRef key value (ki + 1) with
                  | mk s2 res =>
                      rw [hrec] at ihframe
                      simp only [] at ihframe
                      rcases ihres with ⟨e2, hres⟩ | ⟨n2, old2, hres⟩
                      · rw [hrec] at hres
                        simp only [] at hres
                        subst hres
                        simp only [hlk, hkb, hch, hrec]
                        exact ⟨by simp [ihframe], .inl ⟨e2, rfl⟩⟩
                      · rw [hrec] at hres
                        simp only [] at hres
                        subst hres
                        simp only [hlk, hkb, hch, hrec]
                        exact ⟨by simp [ihframe], .inr ⟨_, _, rfl⟩⟩

theorem treeMutInsert_idem {Hh : HasherM} {D : Nat} {s : MutState}
    {key value : Bytes} (hinj : Function.Injective Hh.hash)
    (hc : stateConsistent Hh s) :
    (treeMutInsert Hh D (treeMutInsert Hh D s key value).1 key value).1 =
      (treeMutInsert Hh D s key value).1 := by
  cases hkn : keyNew D key with
  | error e =>
      simp [treeMutInsert, hkn]
  | ok key2 =>
      have hk2 : key2 = key := by
        simp only [keyNew] at hkn
        split at hkn
        · simp at hkn; exact hkn.symm
        · simp at hkn
      rw [hk2] at hkn
      cases hres : insertAtF Hh D (D * 8) s s.rootHandle key value 0 with
      | mk s0 res =>
          cases res with
          | error e =>
              have hframe := @insertAtF_error_frame Hh D (D * 8) s
                s.rootHandle key value 0 e (by rw [hres])
              rw [hres] at hframe
              simp only [] at hframe
              subst hframe
              simp [treeMutInsert, hkn, hres]
          | ok trip =>
              obtain ⟨n, old, changed⟩ := trip
              cases changed with
              | false =>
                  have hframe := @insertAtF_false_frame Hh D (D * 8) s
                    s.rootHandle key value 0 n old (by rw [hres])
                  rw [hres] at hframe
                  simp only [] at hframe
                  subst hframe
                  simp [treeMutInsert, hkn, hres]
              | true =>
                  obtain ⟨hn, hchain, _, hstate⟩ :=
                    @insertAtF_spec Hh D (D * 8) s s.rootHandle key value 0 n
                      old true hc (by rw [hres])
                  rw [hres] at hstate
                  simp only [] at hstate
                  -- the state after the first insert
                  have hfirst : (treeMutInsert Hh D s key value) =
                      (let s2 := removeNode s0 s.rootHandle
                       let s3 := { s2 with rootHandle := NodeHash.InMemory n.hash }
                       ({ s3 with storage := overlayInsert s3.storage n }, .ok old)) := by
                    simp [treeMutInsert, hkn, hres]
                  set s4 : MutState :=
                    { removeNode s0 s.rootHandle with
                        rootHandle := NodeHash.InMemory n.hash,
                        storage := overlayInsert (removeNode s0 s.rootHandle).storage n }
                    with hs4
                  have hfirst2 : (treeMutInsert Hh D s key value).1 = s4 := by
                    rw [hfirst]
                  rw [hfirst2]
                  -- consistency of the state after the first insert
                  have hc4 : stateConsistent Hh s4 := by
                    refine ⟨?_, (removeNode_consistent hstate).2⟩
                    exact overlayInsert_consistent (removeNode_consistent hstate).1 hn
                  -- the second insert is a no-op
                  have hroot4 : s4.rootHandle.hash = n.hash := by
                    simp [hs4, NodeHash.hash]
                  obtain ⟨hnf, hnr⟩ := insertAtF_chain_noop (D := D) hinj hc4
                    (by rw [hroot4]; exact hchain)
                  cases hres2 : insertAtF Hh D (D * 8) s4 s4.rootHandle key value 0 with
                  | mk s5 res2 =>
                      rw [hres2] at hnf
                      simp only [] at hnf
                      subst hnf
                      rcases hnr with ⟨e2, hr2⟩ | ⟨n2, old2, hr2⟩
                      · rw [hres2] at hr2
                        simp only [] at hr2
                        subst hr2
                        simp [treeMutInsert, hkn, hres2]
                      · rw [hres2] at hr2
                        simp only [] at hr2
                        subst hr2
                        simp [treeMutInsert, hkn, hres2]


/-- The list encoding is injective. -/
theorem encL_inj : Function.Injective encL := by
  intro a b h
  induction a generalizing b with
  | nil =>
      cases b with
      | nil => rfl
      | cons y ys => simp [encL] at h
  | cons x xs ih =>
      cases b with
      | nil => simp [encL] at h
      | cons y ys =>
          simp only [encL, Nat.add_right_cancel_iff] at h
          obtain ⟨h1, h2⟩ := Nat.pair_eq_pair.mp h
          rw [h1, ih h2]

/-- The concrete model hasher is injective. -/
theorem hashC_inj : Function.Injective hashC.hash := by
  intro a b h
  simp only [hashC, List.cons.injEq, and_true] at h
  exact encL_inj h

-- ================================================================================================
-- C8: insert and remove idempotence
-- ================================================================================================

/-- C8: on any hash-consistent tree state and with a collision-free hasher,
    inserting the same (key, value) twice leaves the entire mutable tree
    state (overlay, death row, backing store, published root and root
    handle) identical to inserting it once, and likewise for remove (which
    is insert of the empty value).  A failing insert never mutates the
    state, and the second of two identical inserts either fails without
    mutating or reaches a leaf whose hash already matches and changes
    nothing. -/
theorem C8_insert_remove_idempotent (Hh : HasherM) (D : Nat) (s : MutState)
    (key value : Bytes) (hinj : Function.Injective Hh.hash)
    (hc : stateConsistent Hh s) :
    (treeMutInsert Hh D (treeMutInsert Hh D s key value).1 key value).1 =
      (treeMutInsert Hh D s key value).1 ∧
    (treeMutRemove Hh D (treeMutRemove Hh D s key).1 key).1 =
      (treeMutRemove Hh D s key).1 :=
  ⟨treeMutInsert_idem hinj hc, treeMutInsert_idem hinj hc⟩

/-- C8 witness: idempotence on the concrete empty default tree at depth 1
    (where the double insert follows the successful changing path). -/
theorem C8_insert_remove_idempotent_witness :
    Function.Injective hashC.hash ∧
    stateConsistent hashC
      { storage := [], deathRow := [], db := [],
        root := (nullLadder hashC 8).2,
        rootHandle := .Default ((nullLadder hashC 8).2) } ∧
    ((treeMutInsert hashC 1 (treeMutInsert hashC 1
        { storage := [], deathRow := [], db := [],
          root := (nullLadder hashC 8).2,
          rootHandle := .Default ((nullLadder hashC 8).2) } [0] [7]).1 [0] [7]).1 =
      (treeMutInsert hashC 1
        { storage := [], deathRow := [], db := [],
          root := (nullLadder hashC 8).2,
          rootHandle := .Default ((nullLadder hashC 8).2) } [0] [7]).1 ∧
     (treeMutRemove hashC 1 (treeMutRemove hashC 1
        { storage := [], deathRow := [], db := [],
          root := (nullLadder hashC 8).2,
          rootHandle := .Default ((nullLadder hashC 8).2) } [0]).1 [0]).1 =
      (treeMutRemove hashC 1
        { storage := [], deathRow := [], db := [],
          root := (nullLadder hashC 8).2,
          rootHandle := .Default ((nullLadder hashC 8).2) } [0]).1) :=
  ⟨hashC_inj, ⟨by simp [stateConsistent], by simp [stateConsistent]⟩,
    C8_insert_remove_idempotent hashC 1 _ [0] [7] hashC_inj
      ⟨by simp [stateConsistent], by simp [stateConsistent]⟩⟩

-- ================================================================================================
-- Descent over a represented spine
-- ================================================================================================

theorem insertAt_spine_noop {Hh : HasherM} {D : Nat} {s : MutState}
    {key value : Bytes} :
    ∀ {bits : List Bool} {t : PTree} {ref : NodeHash} {ki : Nat} {w : Bytes},
      SpineRepB Hh (treeMutLookup Hh D s) ref t bits = true →
      t.valueAt bits = some w →
      (∀ j, j < bits.length → bits.getD j false = keyBitRaw key (ki + j)) →
      ki + bits.length ≤ D * 8 →
      Hh.hash value = Hh.hash w →
      ∃ n, insertAtF Hh D bits.length s ref key value ki =
        (s, .ok (n, if w.isEmpty then none else some w, false)) := by
  intro bits
  induction bits with
  | nil =>
      intro t ref ki w hrep hval _ _ hhash
      cases t with
      | nd l r => simp [SpineRepB] at hrep
      | lf v0 =>
          simp only [SpineRepB, Bool.and_eq_true, beq_iff_eq] at hrep
          obtain ⟨⟨hres, hrh⟩, hrd⟩ := hrep
          simp only [PTree.valueAt, Option.some.injEq] at hval
          subst hval
          have hhq : (Node.newValue Hh value).hash = ref.hash := by
            simp [Node.newValue, Node.hash, hhash, hrh]
          refine ⟨Node.newValue Hh value, ?_⟩
          simp only [List.length_nil, insertAtF, hhq, if_pos]
          cases ref with
          | Default h0 =>
              have hd : v0 = [] := by
                simp only [NodeHash.isDefault, PTree.isD] at hrd
                simp [List.isEmpty_iff] at hrd
                exact hrd
              simp [hd]
          | InMemory h0 =>
              have hd : ¬v0 = [] := by
                simp only [NodeHash.isDefault, PTree.isD] at hrd
                simp [List.isEmpty_iff] at hrd
                exact hrd
              simp only [hres, Node.value]
              simp [hd]
          | Database h0 =>
              have hd : ¬v0 = [] := by
                simp only [NodeHash.isDefault, PTree.isD] at hrd
                simp [List.isEmpty_iff] at hrd
                exact hrd
              simp only [hres, Node.value]
              simp [hd]
  | cons b bs ih =>
      intro t ref ki w hrep hval hbits hle hhash
      cases t with
      | lf v0 => simp [SpineRepB] at hrep
      | nd l r =>
          simp only [SpineRepB, Bool.and_eq_true, beq_iff_eq] at hrep
          obtain ⟨⟨hmatch, hrh⟩, hrd⟩ := hrep
          cases hres : treeMutLookup Hh D s ref with
          | error e => rw [hres] at hmatch; simp at hmatch
          | ok node =>
              rw [hres] at hmatch
              cases node with
              | Value nh nv => simp at hmatch
              | Inner nh lref rref =>
                  simp only [Bool.and_eq_true, beq_iff_eq] at hmatch
                  obtain ⟨⟨⟨⟨⟨hnh, hlh⟩, hrhh⟩, hld⟩, hrd2⟩, hrec⟩ := hmatch
                  have hb : b = keyBitRaw key ki := by
                    have := hbits 0 (by simp)
                    simpa using this
                  have hkb : keyBit D key ki = .ok b := by
                    rw [hb]
                    exact keyBit_lt D key ki (by simp at hle; omega)
                  simp only [PTree.valueAt] at hval
                  obtain ⟨n2, hn2⟩ := @ih (if b then r else l)
                    (if b then rref else lref) (ki + 1) w
                    hrec hval
                    (fun j hj => by
                      have := hbits (j + 1) (by simp; omega)
                      simpa [Nat.add_assoc, Nat.add_comm 1 j] using this)
                    (by simp at hle ⊢; omega) hhash
                  refine ⟨.Inner nh lref rref, ?_⟩
                  simp only [List.length_cons, insertAtF, hres, hkb]
                  have hch : (Node.Inner nh lref rref).childHash
                      (ChildSelector.new b) = .ok (if b then rref else lref) := by
                    cases b <;> simp [ChildSelector.new, Node.childHash]
                  rw [hch]
                  simp only [hn2]
                  simp

theorem keyBits_length (D : Nat) (k : Bytes) : (keyBits D k).length = D * 8 := by
  simp [keyBits]

theorem keyBits_getD (D : Nat) (k : Bytes) (j : Nat) (hj : j < D * 8) :
    (keyBits D k).getD j false = keyBitRaw k j := by
  simp [keyBits, List.getD, List.getElem?_map, List.getElem?_range hj]


-- ================================================================================================
-- C10: no-op writes leave the state untouched
-- ================================================================================================

/-- C10: on a tree state whose root-to-leaf spine for the key is exposed by
    the resolver (SpineRepB) with leaf value w, inserting any value whose
    hash equals the hash of w returns Ok with the previous value (Some w
    for a resident slot, None for a default slot, in particular for
    remove = insert of the empty value at an absent key) and returns the
    state entirely unchanged: overlay, death row, store, root handle and
    published root. -/
theorem C10_noop_write_identity (Hh : HasherM) (D : Nat) (s : MutState)
    (key v : Bytes) (t : PTree) (w : Bytes)
    (hrep : SpineRepB Hh (treeMutLookup Hh D s) s.rootHandle t (keyBits D key) = true)
    (hval : t.valueAt (keyBits D key) = some w)
    (hk : key.length = D)
    (hh : Hh.hash v = Hh.hash w) :
    treeMutInsert Hh D s key v = (s, .ok (if w.isEmpty then none else some w)) := by
  have hkn : keyNew D key = .ok key := by simp [keyNew, hk]
  obtain ⟨n, hn⟩ := @insertAt_spine_noop Hh D s key v (keyBits D key) t
    s.rootHandle 0 w hrep hval
    (fun j hj => by
      simpa using keyBits_getD D key j (by rw [keyBits_length] at hj; exact hj))
    (by rw [keyBits_length]; omega) hh
  rw [keyBits_length] at hn
  simp [treeMutInsert, hkn, hn]

/-- C10 witness: re-inserting the existing value of the singleton committed
    tree with key [0] and value [9] at depth 1 is a no-op returning the old
    value. -/
theorem C10_noop_write_identity_witness :
    SpineRepB hashC (treeMutLookup hashC 1
        (committedState (canonStore hashC (PTree.setAt (PTree.dT 8) (keyBits 1 [0]) [9]))
          ((PTree.setAt (PTree.dT 8) (keyBits 1 [0]) [9]).hashT hashC)))
      (committedState (canonStore hashC (PTree.setAt (PTree.dT 8) (keyBits 1 [0]) [9]))
          ((PTree.setAt (PTree.dT 8) (keyBits 1 [0]) [9]).hashT hashC)).rootHandle
      (PTree.setAt (PTree.dT 8) (keyBits 1 [0]) [9]) (keyBits 1 [0]) = true ∧
    treeMutInsert hashC 1
      (committedState (canonStore hashC (PTree.setAt (PTree.dT 8) (keyBits 1 [0]) [9]))
        ((PTree.setAt (PTree.dT 8) (keyBits 1 [0]) [9]).hashT hashC)) [0] [9] =
      ((committedState (canonStore hashC (PTree.setAt (PTree.dT 8) (keyBits 1 [0]) [9]))
        ((PTree.setAt (PTree.dT 8) (keyBits 1 [0]) [9]).hashT hashC)),
        .ok (if ([9] : Bytes).isEmpty then none else some [9])) :=
  ⟨by decide, C10_noop_write_identity hashC 1 _ [0] [9]
      (PTree.setAt (PTree.dT 8) (keyBits 1 [0]) [9]) [9]
      (by decide) (by decide) (by decide) rfl⟩

theorem spineRepB_resolves {Hh : HasherM} {f : NodeHash → Except TreeError Node}
    {ref : NodeHash} {t : PTree} {bits : List Bool}
    (h : SpineRepB Hh f ref t bits = true) : ∃ n, f ref = .ok n := by
  match t, bits with
  | .lf v, [] =>
      simp only [SpineRepB, Bool.and_eq_true, beq_iff_eq] at h
      exact ⟨_, h.1.1⟩
  | .nd l r, b :: bs =>
      simp only [SpineRepB, Bool.and_eq_true, beq_iff_eq] at h
      obtain ⟨⟨hm, _⟩, _⟩ := h
      cases hres : f ref with
      | error e => rw [hres] at hm; simp at hm
      | ok n => exact ⟨n, rfl⟩
  | .lf _, _ :: _ => simp [SpineRepB] at h
  | .nd _ _, [] => simp [SpineRepB] at h

theorem valueAt_ne_empty_not_isD {t : PTree} {bits : List Bool} {w : Bytes}
    (hval : t.valueAt bits = some w) (hw : w ≠ []) : t.isD = false := by
  induction t generalizing bits with
  | lf v =>
      cases bits with
      | nil =>
          simp [PTree.valueAt] at hval
          subst hval
          simp [PTree.isD, List.isEmpty_iff, hw]
      | cons b bs => simp [PTree.valueAt] at hval
  | nd l r ihl ihr =>
      cases bits with
      | nil => simp [PTree.valueAt] at hval
      | cons b bs =>
          simp only [PTree.valueAt] at hval
          cases b with
          | false =>
              simp only [if_neg, ite_false, Bool.false_eq_true] at hval
              simp [PTree.isD, ihl hval]
          | true =>
              simp only [if_pos, ite_true] at hval
              simp [PTree.isD, ihr hval]

theorem walk_proof {Hh : HasherM} {f : NodeHash → Except TreeError Node} :
    ∀ {bits : List Bool} {t : PTree} {ref : NodeHash} {w : Bytes},
      SpineRepB Hh f ref t bits = true →
      t.valueAt bits = some w →
      ∀ acc, (match f ref with
        | .error e => .error e
        | .ok n => lookupLeafLoop f true n bits acc :
          Except TreeError (Option Node × List Bytes)) =
        .ok (some (.Value (Hh.hash w) w), acc ++ sibHashes Hh t bits) := by
  intro bits
  induction bits with
  | nil =>
      intro t ref w hrep hval acc
      cases t with
      | nd l r => simp [SpineRepB] at hrep
      | lf v =>
          simp only [SpineRepB, Bool.and_eq_true, beq_iff_eq] at hrep
          simp only [PTree.valueAt, Option.some.injEq] at hval
          subst hval
          rw [hrep.1.1]
          simp [lookupLeafLoop, sibHashes]
  | cons b bs ih =>
      intro t ref w hrep hval acc
      cases t with
      | lf v => simp [SpineRepB] at hrep
      | nd l r =>
          simp only [SpineRepB, Bool.and_eq_true, beq_iff_eq] at hrep
          obtain ⟨⟨hm, hrh⟩, hrd⟩ := hrep
          cases hres : f ref with
          | error e => rw [hres] at hm; simp at hm
          | ok node =>
              rw [hres] at hm
              cases node with
              | Value nh nv => simp at hm
              | Inner nh lref rref =>
                  simp only [Bool.and_eq_true, beq_iff_eq] at hm
                  obtain ⟨⟨⟨⟨⟨hnh, hlh⟩, hrhh⟩, hld⟩, hrd2⟩, hrec⟩ := hm
                  simp only [PTree.valueAt] at hval
                  simp only [lookupLeafLoop]
                  have hch : (Node.Inner nh lref rref).childHash
                      (ChildSelector.new b) = .ok (if b then rref else lref) := by
                    cases b <;> simp [ChildSelector.new, Node.childHash]
                  have hsib : (Node.Inner nh lref rref).childHash
                      (ChildSelector.new b).sibling = .ok (if b then lref else rref) := by
                    cases b <;> simp [ChildSelector.new, ChildSelector.sibling, Node.childHash]
                  rw [hch]
                  simp only [not_true, and_false, if_neg, ite_false]
                  rw [hsib]
                  obtain ⟨cn, hcn⟩ := spineRepB_resolves hrec
                  rw [hcn]
                  have hloop := ih hrec hval (acc ++ [(if b then lref else rref).hash])
                  rw [hcn] at hloop
                  simp only [] at hloop ⊢
                  rw [hloop]
                  cases b <;> simp [sibHashes, hlh, hrhh, List.append_assoc]

theorem walk_some {Hh : HasherM} {f : NodeHash → Except TreeError Node} :
    ∀ {bits : List Bool} {t : PTree} {ref : NodeHash} {w : Bytes},
      SpineRepB Hh f ref t bits = true →
      t.valueAt bits = some w → w ≠ [] →
      ∀ acc, (match f ref with
        | .error e => .error e
        | .ok n => lookupLeafLoop f false n bits acc :
          Except TreeError (Option Node × List Bytes)) =
        .ok (some (.Value (Hh.hash w) w), acc) := by
  intro bits
  induction bits with
  | nil =>
      intro t ref w hrep hval hw acc
      cases t with
      | nd l r => simp [SpineRepB] at hrep
      | lf v =>
          simp only [SpineRepB, Bool.and_eq_true, beq_iff_eq] at hrep
          simp only [PTree.valueAt, Option.some.injEq] at hval
          subst hval
          rw [hrep.1.1]
          simp [lookupLeafLoop]
  | cons b bs ih =>
      intro t ref w hrep hval hw acc
      cases t with
      | lf v => simp [SpineRepB] at hrep
      | nd l r =>
          simp only [SpineRepB, Bool.and_eq_true, beq_iff_eq] at hrep
          obtain ⟨⟨hm, hrh⟩, hrd⟩ := hrep
          cases hres : f ref with
          | error e => rw [hres] at hm; simp at hm
          | ok node =>
              rw [hres] at hm
              cases node with
              | Value nh nv => simp at hm
              | Inner nh lref rref =>
                  simp only [Bool.and_eq_true, beq_iff_eq] at hm
                  obtain ⟨⟨⟨⟨⟨hnh, hlh⟩, hrhh⟩, hld⟩, hrd2⟩, hrec⟩ := hm
                  simp only [PTree.valueAt] at hval
                  simp only [lookupLeafLoop]
                  have hch : (Node.Inner nh lref rref).childHash
                      (ChildSelector.new b) = .ok (if b then rref else lref) := by
                    cases b <;> simp [ChildSelector.new, Node.childHash]
                  rw [hch]
                  have hnd : (if b then rref else lref).isDefault = false := by
                    have hcd : (if b then r else l).isD = false :=
                      valueAt_ne_empty_not_isD hval hw
                    cases b <;> simp_all
                  simp only [hnd, Bool.false_eq_true, false_and, if_neg, ite_false]
                  obtain ⟨cn, hcn⟩ := spineRepB_resolves hrec
                  rw [hcn]
                  have hloop := ih hrec hval hw acc
                  rw [hcn] at hloop
                  simp only [] at hloop ⊢
                  exact hloop

theorem walk_none {Hh : HasherM} {f : NodeHash → Except TreeError Node} :
    ∀ {bs : List Bool} {b : Bool} {t : PTree} {ref : NodeHash},
      SpineRepB Hh f ref t (b :: bs) = true →
      t.valueAt (b :: bs) = some [] →
      ∀ acc, (match f ref with
        | .error e => .error e
        | .ok n => lookupLeafLoop f false n (b :: bs) acc :
          Except TreeError (Option Node × List Bytes)) =
        .ok (none, acc) := by
  intro bs
  induction bs with
  | nil =>
      intro b t ref hrep hval acc
      cases t with
      | lf v => simp [SpineRepB] at hrep
      | nd l r =>
          simp only [SpineRepB, Bool.and_eq_true, beq_iff_eq] at hrep
          obtain ⟨⟨hm, hrh⟩, hrd⟩ := hrep
          cases hres : f ref with
          | error e => rw [hres] at hm; simp at hm
          | ok node =>
              rw [hres] at hm
              cases node with
              | Value nh nv => simp at hm
              | Inner nh lref rref =>
                  simp only [Bool.and_eq_true, beq_iff_eq] at hm
                  obtain ⟨⟨⟨⟨⟨hnh, hlh⟩, hrhh⟩, hld⟩, hrd2⟩, hrec⟩ := hm
                  simp only [PTree.valueAt] at hval
                  -- the child is the leaf holding the empty value: default
                  have hchild : (if b then r else l).isD = true := by
                    cases hcb : (if b then r else l) with
                    | lf v2 =>
                        rw [hcb] at hval
                        simp [PTree.valueAt] at hval
                        simp [PTree.isD, hval]
                    | nd l2 r2 =>
                        rw [hcb] at hrec
                        simp [SpineRepB] at hrec
                  simp only [lookupLeafLoop]
                  have hch : (Node.Inner nh lref rref).childHash
                      (ChildSelector.new b) = .ok (if b then rref else lref) := by
                    cases b <;> simp [ChildSelector.new, Node.childHash]
                  rw [hch]
                  have hd : (if b then rref else lref).isDefault = true := by
                    cases b <;> simp_all
                  simp [hd]
  | cons b2 bs2 ih =>
      intro b t ref hrep hval acc
      cases t with
      | lf v => simp [SpineRepB] at hrep
      | nd l r =>
          simp only [SpineRepB, Bool.and_eq_true, beq_iff_eq] at hrep
          obtain ⟨⟨hm, hrh⟩, hrd⟩ := hrep
          cases hres : f ref with
          | error e => rw [hres] at hm; simp at hm
          | ok node =>
              rw [hres] at hm
              cases node with
              | Value nh nv => simp at hm
              | Inner nh lref rref =>
                  simp only [Bool.and_eq_true, beq_iff_eq] at hm
                  obtain ⟨⟨⟨⟨⟨hnh, hlh⟩, hrhh⟩, hld⟩, hrd2⟩, hrec⟩ := hm
                  simp only [PTree.valueAt] at hval
                  simp only [lookupLeafLoop]
                  have hch : (Node.Inner nh lref rref).childHash
                      (ChildSelector.new b) = .ok (if b then rref else lref) := by
                    cases b <;> simp [ChildSelector.new, Node.childHash]
                  rw [hch]
                  by_cases hd : (if b then rref else lref).isDefault = true
                  · simp [hd]
                  · simp only [Bool.not_eq_true] at hd
                    simp only [hd, Bool.false_eq_true, false_and, if_neg, ite_false]
                    obtain ⟨cn, hcn⟩ := spineRepB_resolves hrec
                    rw [hcn]
                    have hloop := ih hrec hval acc
                    rw [hcn] at hloop
                    simp only [lookupLeafLoop] at hloop
                    simpa using hloop

theorem sibHashes_length {Hh : HasherM} :
    ∀ {bits : List Bool} {t : PTree} {w : Bytes},
      t.valueAt bits = some w → (sibHashes Hh t bits).length = bits.length := by
  intro bits
  induction bits with
  | nil =>
      intro t w hval
      cases t with
      | lf v => simp [sibHashes]
      | nd l r => simp [PTree.valueAt] at hval
  | cons b bs ih =>
      intro t w hval
      cases t with
      | lf v => simp [PTree.valueAt] at hval
      | nd l r =>
          simp only [PTree.valueAt] at hval
          simp [sibHashes, ih hval]

theorem verify_replay {Hh : HasherM} (key : Bytes) :
    ∀ (m : Nat) (j : Nat) (t : PTree) (w : Bytes),
      t.valueAt ((List.range' j m).map (keyBitRaw key)) = some w →
      ((List.range' j m).reverse.zip
          (sibHashes Hh t ((List.range' j m).map (keyBitRaw key))).reverse).foldl
        (fun hash p =>
          if keyBitRaw key p.1 then Hh.hash (p.2 ++ hash) else Hh.hash (hash ++ p.2))
        (Hh.hash w) = t.hashT Hh := by
  intro m
  induction m with
  | zero =>
      intro j t w hval
      cases t with
      | lf v =>
          simp only [List.range'] at hval ⊢
          simp [PTree.valueAt] at hval
          simp [hval, PTree.hashT]
      | nd l r =>
          simp only [List.range'] at hval
          simp [PTree.valueAt] at hval
  | succ m ih =>
      intro j t w hval
      rw [List.range'_succ j m 1] at hval ⊢
      cases t with
      | lf v => simp [PTree.valueAt] at hval
      | nd l r =>
          simp only [List.map_cons, PTree.valueAt] at hval
          set b := keyBitRaw key j with hb
          set child : PTree := if b then r else l with hchild
          have hval2 : child.valueAt ((List.range' (j + 1) m).map (keyBitRaw key)) = some w := hval
          have hlen1 : (List.range' (j + 1) m).reverse.length = m := by simp
          have hlen2 : ((sibHashes Hh child ((List.range' (j + 1) m).map (keyBitRaw key))).reverse).length = m := by
            simp [sibHashes_length hval2]
          have hsib : sibHashes Hh (PTree.nd l r)
              (b :: (List.range' (j + 1) m).map (keyBitRaw key)) =
              (if b then l.hashT Hh else r.hashT Hh) ::
                sibHashes Hh child ((List.range' (j + 1) m).map (keyBitRaw key)) := by
            simp only [sibHashes, hchild]
          simp only [List.map_cons, hsib, List.reverse_cons]
          rw [List.zip_append (by rw [hlen1, hlen2])]
          rw [List.foldl_append]
          rw [ih (j + 1) child w hval2]
          simp only [List.zip_cons_cons, List.zip_nil_right, List.foldl_cons, List.foldl_nil]
          rw [← hb]
          cases hbv : b with
          | true => simp [hchild, PTree.hashT, hbv]
          | false => simp [hchild, PTree.hashT, hbv]

theorem verify_of_spine {Hh : HasherM} {D : Nat} {key w : Bytes} {t : PTree}
    (hk : key.length = D)
    (hval : t.valueAt (keyBits D key) = some w) :
    treeVerify Hh D key w (sibHashes Hh t (keyBits D key)).reverse (t.hashT Hh) =
      .ok true := by
  have hnew : keyNew D key = .ok key := by simp [keyNew, hk]
  have hfold : ∀ (l : List Bytes),
      (((List.range (D * 8)).reverse.zip l).foldlM
        (fun hash (p : Nat × Bytes) =>
          match keyBit D key p.1 with
          | .error e => .error (.KeyError e)
          | .ok bit =>
              match ChildSelector.new bit with
              | .Left => .ok (Hh.hash (hash ++ p.2))
              | .Right => .ok (Hh.hash (p.2 ++ hash)))
        (Hh.hash w) : Except TreeError Bytes) =
      .ok (((List.range (D * 8)).reverse.zip l).foldl
        (fun hash p =>
          if keyBitRaw key p.1 then Hh.hash (p.2 ++ hash) else Hh.hash (hash ++ p.2))
        (Hh.hash w)) := by
    intro l
    apply foldlM_ok
    intro b hb a
    have hmem := List.of_mem_zip hb
    have hi : b.1 < D * 8 := by
      have := hmem.1
      simp [List.mem_reverse, List.mem_range] at this
      exact this
    rw [keyBit_lt D key b.1 hi]
    cases hbit : keyBitRaw key b.1 <;> simp [ChildSelector.new, hbit]
  have hval2 : t.valueAt ((List.range' 0 (D * 8)).map (keyBitRaw key)) = some w := by
    simpa [keyBits, List.range_eq_range'] using hval
  have hrep := @verify_replay Hh key (D * 8) 0 t w hval2
  rw [show List.range' 0 (D * 8) = List.range (D * 8) from (List.range_eq_range' _).symm] at hrep
  simp only [treeVerify, hnew, hfold, keyBits]
  simp [hrep]

theorem spineRepB_root_hash {Hh : HasherM} {f : NodeHash → Except TreeError Node}
    {ref : NodeHash} {t : PTree} {bits : List Bool}
    (h : SpineRepB Hh f ref t bits = true) : ref.hash = t.hashT Hh := by
  match t, bits with
  | .lf v, [] =>
      simp only [SpineRepB, Bool.and_eq_true, beq_iff_eq] at h
      exact h.1.2
  | .nd l r, b :: bs =>
      simp only [SpineRepB, Bool.and_eq_true, beq_iff_eq] at h
      exact h.1.2
  | .lf _, _ :: _ => simp [SpineRepB] at h
  | .nd _ _, [] => simp [SpineRepB] at h

/-- C4 (amended): over a resolver exposing the spine of a committed tree
    whose slot at the key is absent (leaf value empty), `value` returns
    Ok(None), `leaf` returns Ok(None) — not the default leaf hash d_0 — and
    `proof` returns a sibling list over which `verify` of the empty value
    against the root succeeds. -/
theorem C4_non_inclusion_amended (Hh : HasherM) (D : Nat) (s : ImmState)
    (key : Bytes) (t : PTree)
    (hD : 1 ≤ D)
    (hk : key.length = D)
    (hrep : SpineRepB Hh (treeDBLookup Hh D s) s.root t (keyBits D key) = true)
    (hval : t.valueAt (keyBits D key) = some []) :
    treeDBValue Hh D s key = .ok none ∧
    treeDBLeaf Hh D s key = .ok none ∧
    (∃ sibs, treeDBProof Hh D s key = .ok (some sibs) ∧
      treeVerify Hh D key [] sibs s.root.hash = .ok true) := by
  have hnew : keyNew D key = .ok key := by simp [keyNew, hk]
  have hlen : (keyBits D key).length = D * 8 := keyBits_length D key
  cases hbits : keyBits D key with
  | nil =>
      rw [hbits] at hlen
      simp at hlen
      omega
  | cons b bs =>
      rw [hbits] at hrep hval
      have hnone := walk_none hrep hval []
      have hproof := walk_proof hrep hval []
      refine ⟨?_, ?_, ?_⟩
      · simp only [treeDBValue, hnew, lookupLeafVia, hbits]
        rw [hnone]
      · simp only [treeDBLeaf, hnew, lookupLeafVia, hbits]
        rw [hnone]
      · refine ⟨(sibHashes Hh t (b :: bs)).reverse, ?_, ?_⟩
        · simp only [treeDBProof, hnew, lookupLeafVia, hbits]
          rw [hproof]
          simp
        · rw [spineRepB_root_hash hrep]
          have := @verify_of_spine Hh D key [] t hk (hbits ▸ hval)
          rw [hbits] at this
          exact this

/-- C4 counterexample: on the committed empty tree (all slots absent,
    exactly the "never inserted" situation of the claim) `leaf` of any key
    returns Ok(None), not the default leaf hash `d_0 = H([])` the claim
    requires: the valueless walk short-circuits at the first Default child
    and never reaches a leaf node. -/
theorem C4_non_inclusion_counterexample :
    treeDBLeaf hashC 1 (treeDBBuild hashC 1 [] (List.replicate hashC.len 0)) [0] =
      .ok none ∧
    (Except.ok none : Except TreeError (Option Bytes)) ≠
      .ok (some (dHash hashC 0)) := by
  decide

/-- C4 witness: the amended statement instantiated on the committed empty
    tree at depth 1, key [0], spine tree `dT 8`. -/
theorem C4_non_inclusion_witness :
    1 ≤ 1 ∧ ([0] : Bytes).length = 1 ∧
    SpineRepB hashC
      (treeDBLookup hashC 1 (treeDBBuild hashC 1 [] (List.replicate hashC.len 0)))
      (treeDBBuild hashC 1 [] (List.replicate hashC.len 0)).root
      (PTree.dT 8) (keyBits 1 [0]) = true ∧
    (PTree.dT 8).valueAt (keyBits 1 [0]) = some [] ∧
    (treeDBValue hashC 1 (treeDBBuild hashC 1 [] (List.replicate hashC.len 0)) [0] =
        .ok none ∧
      treeDBLeaf hashC 1 (treeDBBuild hashC 1 [] (List.replicate hashC.len 0)) [0] =
        .ok none ∧
      (∃ sibs,
        treeDBProof hashC 1 (treeDBBuild hashC 1 [] (List.replicate hashC.len 0)) [0] =
          .ok (some sibs) ∧
        treeVerify hashC 1 [0] [] sibs
          (treeDBBuild hashC 1 [] (List.replicate hashC.len 0)).root.hash = .ok true)) :=
  ⟨by decide, by decide, by decide, by decide,
    C4_non_inclusion_amended hashC 1 (treeDBBuild hashC 1 [] (List.replicate hashC.len 0))
      [0] (PTree.dT 8) (by decide) (by decide) (by decide) (by decide)⟩

theorem hashT_len {Hh : HasherM} (t : PTree) : (t.hashT Hh).length = Hh.len := by
  cases t <;> simp [PTree.hashT, Hh.hash_len]

theorem fullB_height_eq : ∀ {t : PTree} {a b : Nat},
    t.fullB a = true → t.fullB b = true → a = b := by
  intro t
  induction t with
  | lf v =>
      intro a b ha hb
      cases a with
      | zero =>
          cases b with
          | zero => rfl
          | succ b => simp [PTree.fullB] at hb
      | succ a => simp [PTree.fullB] at ha
  | nd l r ihl ihr =>
      intro a b ha hb
      cases a with
      | zero => simp [PTree.fullB] at ha
      | succ a =>
          cases b with
          | zero => simp [PTree.fullB] at hb
          | succ b =>
              simp only [PTree.fullB, Bool.and_eq_true] at ha hb
              rw [ihl ha.1 hb.1]

theorem hashT_inj {Hh : HasherM} (hinj : Function.Injective Hh.hash) :
    ∀ {a b : PTree}, a.noTwoL Hh = true → b.noTwoL Hh = true →
      a.hashT Hh = b.hashT Hh → a = b := by
  intro a
  induction a with
  | lf va =>
      intro b hna hnb h
      cases b with
      | lf vb =>
          have : va = vb := hinj (by simpa [PTree.hashT] using h)
          rw [this]
      | nd lb rb =>
          exfalso
          have hv : va = lb.hashT Hh ++ rb.hashT Hh :=
            hinj (by simpa [PTree.hashT] using h)
          have : va.length = 2 * Hh.len := by
            rw [hv]
            simp [hashT_len, Nat.two_mul]
          simp [PTree.noTwoL, this] at hna
  | nd la ra ihl ihr =>
      intro b hna hnb h
      cases b with
      | lf vb =>
          exfalso
          have hv : vb = la.hashT Hh ++ ra.hashT Hh :=
            hinj (by simpa [PTree.hashT] using h.symm)
          have : vb.length = 2 * Hh.len := by
            rw [hv]
            simp [hashT_len, Nat.two_mul]
          simp [PTree.noTwoL, this] at hnb
      | nd lb rb =>
          simp only [PTree.noTwoL, Bool.and_eq_true] at hna hnb
          have hcat : la.hashT Hh ++ ra.hashT Hh = lb.hashT Hh ++ rb.hashT Hh :=
            hinj (by simpa [PTree.hashT] using h)
          have hlen : (la.hashT Hh).length = (lb.hashT Hh).length := by
            simp [hashT_len]
          obtain ⟨h1, h2⟩ := List.append_inj hcat hlen
          rw [ihl hna.1 hnb.1 h1, ihr hna.2 hnb.2 h2]

theorem setAt_full : ∀ {bits : List Bool} {t : PTree} {n : Nat} {v : Bytes},
    t.fullB n = true → bits.length = n → (t.setAt bits v).fullB n = true := by
  intro bits
  induction bits with
  | nil =>
      intro t n v hf hl
      simp at hl
      subst hl
      cases t with
      | lf w => simpa [PTree.setAt, PTree.fullB] using hf
      | nd l r => simp [PTree.fullB] at hf
  | cons b bs ih =>
      intro t n v hf hl
      cases t with
      | lf w =>
          cases n with
          | zero => simp at hl
          | succ n => simp [PTree.fullB] at hf
      | nd l r =>
          cases n with
          | zero => simp [PTree.fullB] at hf
          | succ n =>
              simp only [PTree.fullB, Bool.and_eq_true] at hf
              simp only [List.length_cons, Nat.succ.injEq] at hl
              cases b with
              | false =>
                  simp only [PTree.setAt, if_neg, ite_false, PTree.fullB,
                    Bool.and_eq_true, Bool.false_eq_true]
                  exact ⟨ih hf.1 hl, hf.2⟩
              | true =>
                  simp only [PTree.setAt, if_pos, ite_true, PTree.fullB, Bool.and_eq_true]
                  exact ⟨hf.1, ih hf.2 hl⟩

theorem valueAt_setAt_self : ∀ {bits : List Bool} {t : PTree} {n : Nat} {v : Bytes},
    t.fullB n = true → bits.length = n → (t.setAt bits v).valueAt bits = some v := by
  intro bits
  induction bits with
  | nil =>
      intro t n v hf hl
      simp [PTree.setAt, PTree.valueAt]
  | cons b bs ih =>
      intro t n v hf hl
      cases t with
      | lf w =>
          cases n with
          | zero => simp at hl
          | succ n => simp [PTree.fullB] at hf
      | nd l r =>
          cases n with
          | zero => simp [PTree.fullB] at hf
          | succ n =>
              simp only [PTree.fullB, Bool.and_eq_true] at hf
              simp only [List.length_cons, Nat.succ.injEq] at hl
              cases b with
              | false =>
                  simp only [PTree.setAt, if_neg, ite_false, PTree.valueAt,
                    Bool.false_eq_true]
                  exact ih hf.1 hl
              | true =>
                  simp only [PTree.setAt, if_pos, ite_true, PTree.valueAt]
                  exact ih hf.2 hl

theorem setAt_noTwoL {Hh : HasherM} : ∀ {bits : List Bool} {t : PTree} {v : Bytes},
    t.noTwoL Hh = true → v.length ≠ 2 * Hh.len → (t.setAt bits v).noTwoL Hh = true := by
  intro bits
  induction bits with
  | nil =>
      intro t v ht hv
      simp [PTree.setAt, PTree.noTwoL, hv]
  | cons b bs ih =>
      intro t v ht hv
      cases t with
      | lf w => simpa [PTree.setAt] using ht
      | nd l r =>
          simp only [PTree.noTwoL, Bool.and_eq_true] at ht
          cases b with
          | false =>
              simp only [PTree.setAt, if_neg, ite_false, PTree.noTwoL,
                Bool.and_eq_true, Bool.false_eq_true]
              exact ⟨ih ht.1 hv, ht.2⟩
          | true =>
              simp only [PTree.setAt, if_pos, ite_true, PTree.noTwoL, Bool.and_eq_true]
              exact ⟨ht.1, ih ht.2 hv⟩

theorem setAt_isD_false : ∀ {bits : List Bool} {t : PTree} {n : Nat} {v : Bytes},
    t.fullB n = true → bits.length = n → v ≠ [] → (t.setAt bits v).isD = false := by
  intro bits
  induction bits with
  | nil =>
      intro t n v hf hl hv
      simp [PTree.setAt, PTree.isD, List.isEmpty_iff, hv]
  | cons b bs ih =>
      intro t n v hf hl hv
      cases t with
      | lf w =>
          cases n with
          | zero => simp at hl
          | succ n => simp [PTree.fullB] at hf
      | nd l r =>
          cases n with
          | zero => simp [PTree.fullB] at hf
          | succ n =>
              simp only [PTree.fullB, Bool.and_eq_true] at hf
              simp only [List.length_cons, Nat.succ.injEq] at hl
              cases b with
              | false =>
                  simp only [PTree.setAt, if_neg, ite_false, PTree.isD,
                    Bool.and_eq_false_iff, Bool.false_eq_true]
                  exact Or.inl (ih hf.1 hl hv)
              | true =>
                  simp only [PTree.setAt, if_pos, ite_true, PTree.isD,
                    Bool.and_eq_false_iff]
                  exact Or.inr (ih hf.2 hl hv)

theorem setAt_valueAt_id : ∀ {bits : List Bool} {t : PTree} {w : Bytes},
    t.valueAt bits = some w → t.setAt bits w = t := by
  intro bits
  induction bits with
  | nil =>
      intro t w hval
      cases t with
      | lf v =>
          simp [PTree.valueAt] at hval
          simp [PTree.setAt, hval]
      | nd l r => simp [PTree.valueAt] at hval
  | cons b bs ih =>
      intro t w hval
      cases t with
      | lf v => simp [PTree.valueAt] at hval
      | nd l r =>
          simp only [PTree.valueAt] at hval
          cases b with
          | false =>
              simp only [if_neg, ite_false, Bool.false_eq_true] at hval
              simp [PTree.setAt, ih hval]
          | true =>
              simp only [if_pos, ite_true] at hval
              simp [PTree.setAt, ih hval]

theorem setAt_setAt : ∀ {bits : List Bool} {t : PTree} {v v2 : Bytes},
    (t.setAt bits v).setAt bits v2 = t.setAt bits v2 := by
  intro bits
  induction bits with
  | nil => intro t v v2; simp [PTree.setAt]
  | cons b bs ih =>
      intro t v v2
      cases t with
      | lf w => simp [PTree.setAt]
      | nd l r =>
          cases b with
          | false => simp [PTree.setAt, ih]
          | true => simp [PTree.setAt, ih]

theorem canonRef_hash {Hh : HasherM} (u : PTree) : (canonRef Hh u).hash = u.hashT Hh := by
  by_cases h : u.isD = true <;> simp [canonRef, h, NodeHash.hash]

theorem canonRef_isDefault {Hh : HasherM} (u : PTree) :
    (canonRef Hh u).isDefault = u.isD := by
  by_cases h : u.isD = true <;> simp [canonRef, h, NodeHash.isDefault]

theorem canonNode_hash {Hh : HasherM} (u : PTree) :
    (canonNode Hh u).hash = u.hashT Hh := by
  cases u <;> simp [canonNode, Node.hash, PTree.hashT]

theorem canonNode_isDefault {Hh : HasherM} (u : PTree) :
    (canonNode Hh u).isDefault = u.isD := by
  cases u with
  | lf v => simp [canonNode, Node.isDefault, PTree.isD]
  | nd l r => simp [canonNode, Node.isDefault, PTree.isD, canonRef_isDefault]

theorem insRef_hash {Hh : HasherM} (u : PTree) : (insRef Hh u).hash = u.hashT Hh := by
  by_cases h : u.isD = true <;> simp [insRef, h, NodeHash.hash]

theorem insRef_isDefault {Hh : HasherM} (u : PTree) :
    (insRef Hh u).isDefault = u.isD := by
  by_cases h : u.isD = true <;> simp [insRef, h, NodeHash.isDefault]

theorem decode_canon {Hh : HasherM} : ∀ {u : PTree}, u.isD = false →
    bytesToNode Hh (nodeToBytes (canonNode Hh u)) = .ok (canonNode Hh u) := by
  intro u hu
  cases u with
  | lf v =>
      have hv : v ≠ [] := by simpa [PTree.isD, List.isEmpty_iff] using hu
      simp [canonNode, nodeToBytes, bytesToNode, Node.newValue, hv]
  | nd l r =>
      have hlh := @hashT_len Hh l
      have hrh := @hashT_len Hh r
      have hlen : (l.hashT Hh ++ r.hashT Hh).length = 2 * Hh.len := by
        simp [hlh, hrh, Nat.two_mul]
      have htake : (l.hashT Hh ++ r.hashT Hh).take Hh.len = l.hashT Hh :=
        List.take_left' hlh
      have hdrop : (l.hashT Hh ++ r.hashT Hh).drop Hh.len = r.hashT Hh :=
        List.drop_left' hlh
      by_cases hl : l.isD = true
      · have hr : r.isD = false := by
          cases hrd : r.isD with
          | false => rfl
          | true => simp [PTree.isD, hl, hrd] at hu
        simp only [canonNode, canonRef, hl, hr, if_pos, if_neg, ite_true, ite_false,
          Bool.false_eq_true, nodeToBytes, NodeHash.hash, PTree.hashT]
        simp [bytesToNode, decodeHash, htake, hdrop, hlh, hrh, hlen,
          Node.newInner, NodeHash.hash, PTree.hashT, Nat.two_mul]
      · by_cases hr : r.isD = true
        · simp only [canonNode, canonRef, hl, hr, if_pos, if_neg, ite_true, ite_false,
            Bool.false_eq_true, nodeToBytes, NodeHash.hash, PTree.hashT]
          simp [bytesToNode, decodeHash, htake, hdrop, hlh, hrh, hlen,
            Node.newInner, NodeHash.hash, PTree.hashT, Nat.two_mul]
        · simp only [canonNode, canonRef, hl, hr, if_pos, if_neg, ite_true, ite_false,
            Bool.false_eq_true, nodeToBytes, NodeHash.hash, PTree.hashT]
          simp [bytesToNode, decodeHash, htake, hdrop, hlh, hrh, hlen,
            Node.newInner, NodeHash.hash, PTree.hashT, Nat.two_mul]

theorem mixNode_hash {Hh : HasherM} : ∀ (u : PTree) (bits : List Bool),
    (mixNode Hh u bits).hash = u.hashT Hh := by
  intro u bits
  cases u with
  | lf v => cases bits <;> simp [mixNode, Node.hash, PTree.hashT]
  | nd l r =>
      cases bits with
      | nil => simp [mixNode, canonNode_hash]
      | cons b bs => cases b <;> simp [mixNode, Node.hash]

theorem mixNode_isDefault {Hh : HasherM} : ∀ (u : PTree) (bits : List Bool),
    (mixNode Hh u bits).isDefault = u.isD := by
  intro u bits
  cases u with
  | lf v => cases bits <;> simp [mixNode, Node.isDefault, PTree.isD]
  | nd l r =>
      cases bits with
      | nil => simp [mixNode, canonNode_isDefault]
      | cons b bs =>
          cases b <;>
            simp [mixNode, Node.isDefault, PTree.isD, canonRef_isDefault,
              insRef_isDefault, Bool.and_comm]

theorem mixNode_bytes {Hh : HasherM} : ∀ (u : PTree) (bits : List Bool),
    nodeToBytes (mixNode Hh u bits) = nodeToBytes (canonNode Hh u) := by
  intro u bits
  cases u with
  | lf v => cases bits <;> simp [mixNode, canonNode]
  | nd l r =>
      cases bits with
      | nil => simp [mixNode]
      | cons b bs =>
          cases b with
          | false =>
              simp only [mixNode, ite_false, Bool.false_eq_true, if_neg, canonNode,
                nodeToBytes]
              by_cases hl : l.isD = true <;> by_cases hr : r.isD = true <;>
                simp [canonRef, insRef, hl, hr, NodeHash.hash]
          | true =>
              simp only [mixNode, ite_true, if_pos, canonNode, nodeToBytes]
              by_cases hl : l.isD = true <;> by_cases hr : r.isD = true <;>
                simp [canonRef, insRef, hl, hr, NodeHash.hash]

theorem len_pos_of_inj {Hh : HasherM} (hinj : Function.Injective Hh.hash) :
    0 < Hh.len := by
  by_contra h
  have h0 : Hh.len = 0 := by omega
  have h1 : Hh.hash [] = Hh.hash [0] := by
    have a := Hh.hash_len []
    have b := Hh.hash_len [0]
    rw [h0] at a b
    rw [List.length_eq_zero] at a b
    rw [a, b]
  have := hinj h1
  simp at this

theorem dHash_len {Hh : HasherM} (m : Nat) : (dHash Hh m).length = Hh.len := by
  cases m <;> simp [dHash, Hh.hash_len]

theorem dHash_inj {Hh : HasherM} (hinj : Function.Injective Hh.hash) :
    ∀ {i j : Nat}, dHash Hh i = dHash Hh j → i = j := by
  intro i
  induction i with
  | zero =>
      intro j h
      cases j with
      | zero => rfl
      | succ j =>
          exfalso
          have := hinj (by simpa [dHash] using h)
          have hl := @dHash_len Hh j
          have := congrArg List.length this
          simp [hl] at this
          have := len_pos_of_inj hinj
          omega
  | succ i ih =>
      intro j h
      cases j with
      | zero =>
          exfalso
          have := hinj (by simpa [dHash] using h)
          have hl := @dHash_len Hh i
          have := congrArg List.length this
          simp [hl] at this
          have := len_pos_of_inj hinj
          omega
      | succ j =>
          have hc : dHash Hh i ++ dHash Hh i = dHash Hh j ++ dHash Hh j :=
            hinj (by simpa [dHash] using h)
          have := (List.append_inj hc (by simp [dHash_len])).1
          rw [ih this]

theorem dT_full (m : Nat) : (PTree.dT m).fullB m = true := by
  induction m with
  | zero => simp [PTree.dT, PTree.fullB]
  | succ m ih => simp [PTree.dT, PTree.fullB, ih]

theorem dT_isD (m : Nat) : (PTree.dT m).isD = true := by
  induction m with
  | zero => simp [PTree.dT, PTree.isD]
  | succ m ih => simp [PTree.dT, PTree.isD, ih]

theorem hashT_dT {Hh : HasherM} (m : Nat) :
    (PTree.dT m).hashT Hh = dHash Hh m := by
  induction m with
  | zero => simp [PTree.dT, PTree.hashT, dHash]
  | succ m ih => simp [PTree.dT, PTree.hashT, dHash, ih]

theorem isD_full_eq_dT : ∀ {u : PTree} {m : Nat},
    u.fullB m = true → u.isD = true → u = PTree.dT m := by
  intro u
  induction u with
  | lf v =>
      intro m hf hd
      cases m with
      | zero =>
          simp [PTree.isD, List.isEmpty_iff] at hd
          simp [PTree.dT, hd]
      | succ m => simp [PTree.fullB] at hf
  | nd l r ihl ihr =>
      intro m hf hd
      cases m with
      | zero => simp [PTree.fullB] at hf
      | succ m =>
          simp only [PTree.fullB, Bool.and_eq_true] at hf
          simp only [PTree.isD, Bool.and_eq_true] at hd
          simp [PTree.dT, ihl hf.1 hd.1, ihr hf.2 hd.2]

theorem afind_append_left {β : Type} {l₁ l₂ : List (Bytes × β)} {k : Bytes}
    {v : β} (h : afind l₁ k = some v) : afind (l₁ ++ l₂) k = some v := by
  induction l₁ with
  | nil => simp [afind] at h
  | cons e es ih =>
      obtain ⟨ek, ev⟩ := e
      simp only [afind] at h
      by_cases he : ek = k
      · simp only [he, if_pos, ite_true] at h
        simp [afind, he, h]
      · simp only [he, Bool.false_eq_true, if_neg, ite_false] at h
        simp [afind, he, ih h]

theorem afind_append_none {β : Type} {l₁ : List (Bytes × β)} {k : Bytes}
    (h : ∀ e ∈ l₁, e.1 ≠ k) (l₂ : List (Bytes × β)) :
    afind (l₁ ++ l₂) k = afind l₂ k := by
  induction l₁ with
  | nil => simp
  | cons e es ih =>
      obtain ⟨ek, ev⟩ := e
      have hek : ek ≠ k := h (ek, ev) (by simp)
      simp only [List.cons_append, afind, hek, ite_false, Bool.false_eq_true, if_neg]
      exact ih (fun e he => h e (by simp [he]))

theorem nullLadder_list {Hh : HasherM} (n : Nat) :
    (nullLadder Hh n).1 =
      (List.range (n + 1)).map
        (fun i => (dHash Hh i, canonNode Hh (PTree.dT i))) ∧
    (nullLadder Hh n).2 = dHash Hh n := by
  induction n with
  | zero =>
      refine ⟨?_, by simp [nullLadder, dHash]⟩
      simp [nullLadder, dHash, PTree.dT, canonNode, PTree.hashT, List.range_succ,
        List.range_zero]
  | succ n ih =>
      constructor
      · show (nullLadder Hh n).1 ++ _ = _
        rw [ih.1, ih.2,
          show List.range (n + 1 + 1) = List.range (n + 1) ++ [n + 1] from
            List.range_succ (n + 1)]
        simp only [List.map_append, List.map_cons, List.map_nil]
        congr 1
        simp [canonNode, PTree.dT, canonRef, dT_isD, hashT_dT, dHash,
          PTree.hashT]
      · show Hh.hash ((nullLadder Hh n).2 ++ (nullLadder Hh n).2) = _
        rw [ih.2]
        simp [dHash]

theorem afind_map_range {β : Type} (g : Nat → Bytes) (v : Nat → β)
    (hg : ∀ i j, g i = g j → i = j) :
    ∀ {n m : Nat}, m < n →
      afind ((List.range n).map (fun i => (g i, v i))) (g m) = some (v m) := by
  intro n
  induction n with
  | zero => intro m h; omega
  | succ n ih =>
      intro m h
      rw [List.range_succ, List.map_append]
      by_cases hm : m < n
      · exact afind_append_left (ih hm)
      · have hm2 : m = n := by omega
        subst hm2
        rw [afind_append_none]
        · simp [afind]
        · intro e he
          simp only [List.mem_map, List.mem_range] at he
          obtain ⟨i, hi, rfl⟩ := he
          intro hc
          have := hg _ _ hc
          omega

theorem nullLadder_find {Hh : HasherM} (hinj : Function.Injective Hh.hash)
    {n m : Nat} (h : m ≤ n) :
    afind (nullLadder Hh n).1 (dHash Hh m) = some (canonNode Hh (PTree.dT m)) := by
  rw [(@nullLadder_list Hh n).1]
  exact afind_map_range _ _ (fun i j => dHash_inj hinj) (by omega)

theorem subtreesL_self (u : PTree) : u ∈ u.subtreesL := by
  cases u <;> simp [PTree.subtreesL]

theorem subtreesL_trans : ∀ {t u v : PTree},
    u ∈ t.subtreesL → v ∈ u.subtreesL → v ∈ t.subtreesL := by
  intro t
  induction t with
  | lf w =>
      intro u v hu hv
      simp only [PTree.subtreesL, List.mem_singleton] at hu
      subst hu
      exact hv
  | nd l r ihl ihr =>
      intro u v hu hv
      simp only [PTree.subtreesL, List.mem_cons, List.mem_append] at hu ⊢
      rcases hu with hu | hu | hu
      · subst hu
        simpa [PTree.subtreesL] using hv
      · exact Or.inr (Or.inl (ihl hu hv))
      · exact Or.inr (Or.inr (ihr hu hv))

theorem subtreesL_left {l r : PTree} : l ∈ (PTree.nd l r).subtreesL := by
  simp [PTree.subtreesL, subtreesL_self]

theorem subtreesL_right {l r : PTree} : r ∈ (PTree.nd l r).subtreesL := by
  simp [PTree.subtreesL, subtreesL_self]

theorem noTwoL_subtree {Hh : HasherM} : ∀ {t u : PTree},
    t.noTwoL Hh = true → u ∈ t.subtreesL → u.noTwoL Hh = true := by
  intro t
  induction t with
  | lf w =>
      intro u ht hu
      simp only [PTree.subtreesL, List.mem_singleton] at hu
      subst hu
      exact ht
  | nd l r ihl ihr =>
      intro u ht hu
      simp only [PTree.noTwoL, Bool.and_eq_true] at ht
      simp only [PTree.subtreesL, List.mem_cons, List.mem_append] at hu
      rcases hu with hu | hu | hu
      · subst hu
        simp [PTree.noTwoL, ht.1, ht.2]
      · exact ihl ht.1 hu
      · exact ihr ht.2 hu

theorem resolve_canon {Hh : HasherM} {D : Nat} (hinj : Function.Injective Hh.hash)
    {s : MutState} {t0 : PTree} (hrep : StoreRep Hh s.db t0)
    {u : PTree} {m : Nat} (hmem : u ∈ t0.subtreesL) (hfull : u.fullB m = true)
    (hm : m ≤ D * 8) :
    treeMutLookup Hh D s (canonRef Hh u) = .ok (canonNode Hh u) := by
  cases hd : u.isD with
  | false =>
      have hget := hrep.2 u hmem hd
      simp only [canonRef, hd, Bool.false_eq_true, if_neg, ite_false,
        treeMutLookup, storeGet]
      cases hfind : afind s.db (u.hashT Hh) with
      | none => rw [hfind] at hget; simp at hget
      | some e =>
          obtain ⟨d, c⟩ := e
          rw [hfind] at hget
          have hd2 : d = nodeToBytes (canonNode Hh u) := by simpa using hget
          subst hd2
          simp [decode_canon hd]
  | true =>
      have hu : u = PTree.dT m := isD_full_eq_dT hfull hd
      subst hu
      simp only [canonRef, hd, if_pos, ite_true, treeMutLookup, hashT_dT]
      rw [nullLadder_find hinj hm]

theorem afind_eq_none {β : Type} {l : List (Bytes × β)} {k : Bytes}
    (h : ∀ e ∈ l, e.1 ≠ k) : afind l k = none := by
  induction l with
  | nil => rfl
  | cons e es ih =>
      obtain ⟨ek, ev⟩ := e
      have hek : ek ≠ k := h (ek, ev) (by simp)
      simp only [afind, hek, ite_false, Bool.false_eq_true, if_neg]
      exact ih (fun e he => h e (by simp [he]))

theorem pathBits_zero (key : Bytes) (j : Nat) : pathBits key j 0 = [] := rfl

theorem pathBits_succ (key : Bytes) (j n : Nat) :
    pathBits key j (n + 1) = keyBitRaw key j :: pathBits key (j + 1) n := by
  simp [pathBits, List.range'_succ j n 1]

theorem pathBits_len (key : Bytes) (j n : Nat) : (pathBits key j n).length = n := by
  simp [pathBits]

theorem pathBits_keyBits (key : Bytes) (D : Nat) :
    pathBits key 0 (D * 8) = keyBits D key := by
  simp [pathBits, keyBits, List.range_eq_range']

theorem qOver_mem {Hh : HasherM} {value : Bytes}
    (hvlen : value.length ≠ 2 * Hh.len) :
    ∀ {bits : List Bool} {u : PTree},
      u.fullB bits.length = true → u.noTwoL Hh = true →
      ∀ e ∈ qOver Hh u bits value,
        ∃ (w : PTree) (m : Nat) (bits2 : List Bool),
          m ≤ bits.length ∧ w.fullB m = true ∧ w.noTwoL Hh = true ∧
          w.isD = false ∧ e.1 = w.hashT Hh ∧ e.2.1 = mixNode Hh w bits2 ∧
          e.2.2 = 1 := by
  intro bits
  induction bits with
  | nil =>
      intro u hf hn e he
      simp only [qOver] at he
      by_cases hd : (Node.newValue Hh value).isDefault = true
      · simp [hd] at he
      · simp only [Bool.not_eq_true] at hd
        simp only [hd, Bool.false_eq_true, if_neg, ite_false,
          List.mem_singleton] at he
        subst he
        have hv : value ≠ [] := by
          simpa [Node.newValue, Node.isDefault, List.isEmpty_iff] using hd
        exact ⟨.lf value, 0, [], by omega, by simp [PTree.fullB],
          by simp [PTree.noTwoL, hvlen], by simp [PTree.isD, List.isEmpty_iff, hv],
          by simp [Node.newValue, Node.hash, PTree.hashT],
          by simp [Node.newValue, mixNode], rfl⟩
  | cons b bs ih =>
      intro u hf hn e he
      cases u with
      | lf w => simp [qOver] at he
      | nd l r =>
          simp only [PTree.fullB, Bool.and_eq_true, List.length_cons] at hf
          simp only [PTree.noTwoL, Bool.and_eq_true] at hn
          simp only [qOver, List.mem_append] at he
          rcases he with he | he
          · have hcf : (if b then r else l).fullB bs.length = true := by
              cases b <;> simp [hf.1, hf.2]
            have hcn : (if b then r else l).noTwoL Hh = true := by
              cases b <;> simp [hn.1, hn.2]
            obtain ⟨w, m, bits2, hm, h1, h2, h3, h4, h5, h6⟩ := ih hcf hcn e he
            exact ⟨w, m, bits2, by simp [List.length_cons]; omega, h1, h2, h3,
              h4, h5, h6⟩
          · set u2 := (PTree.nd l r).setAt (b :: bs) value with hu2
            by_cases hd : (mixNode Hh u2 (b :: bs)).isDefault = true
            · simp [hd] at he
            · simp only [Bool.not_eq_true] at hd
              simp only [hd, Bool.false_eq_true, if_neg, ite_false,
                List.mem_singleton] at he
              subst he
              have hfu : (PTree.nd l r).fullB (bs.length + 1) = true := by
                simp [PTree.fullB, hf.1, hf.2]
              have hnu : (PTree.nd l r).noTwoL Hh = true := by
                simp [PTree.noTwoL, hn.1, hn.2]
              refine ⟨u2, bs.length + 1, b :: bs, by simp [List.length_cons],
                setAt_full hfu (by simp), setAt_noTwoL hnu hvlen, ?_,
                by simp [mixNode_hash], rfl, rfl⟩
              rw [mixNode_isDefault] at hd
              exact hd

theorem pDeath_mem {Hh : HasherM} :
    ∀ {bits : List Bool} {u : PTree},
      u.fullB bits.length = true →
      ∀ e ∈ pDeath Hh u bits,
        ∃ (w : PTree) (m : Nat),
          m ≤ bits.length ∧ w ∈ u.subtreesL ∧ w.fullB m = true ∧
          w.isD = false ∧ e = (w.hashT Hh, 1) := by
  intro bits
  induction bits with
  | nil =>
      intro u hf e he
      simp only [pDeath] at he
      by_cases hd : u.isD = true
      · simp [hd] at he
      · simp only [Bool.not_eq_true] at hd
        simp only [hd, Bool.false_eq_true, if_neg, ite_false,
          List.mem_singleton] at he
        subst he
        exact ⟨u, 0, by omega, subtreesL_self u, by simpa using hf, hd, rfl⟩
  | cons b bs ih =>
      intro u hf e he
      cases u with
      | lf w => simp [pDeath] at he
      | nd l r =>
          simp only [PTree.fullB, Bool.and_eq_true, List.length_cons] at hf
          simp only [pDeath, List.mem_append] at he
          rcases he with he | he
          · have hcf : (if b then r else l).fullB bs.length = true := by
              cases b <;> simp [hf.1, hf.2]
            obtain ⟨w, m, hm, hmem, h1, h2, h3⟩ := ih hcf e he
            refine ⟨w, m, by simp [List.length_cons]; omega, ?_, h1, h2, h3⟩
            have : (if b then r else l) ∈ (PTree.nd l r).subtreesL := by
              cases b <;> simp [subtreesL_left, subtreesL_right]
            exact subtreesL_trans this hmem
          · by_cases hd : (PTree.nd l r).isD = true
            · simp [hd] at he
            · simp only [Bool.not_eq_true] at hd
              simp only [hd, Bool.false_eq_true, if_neg, ite_false,
                List.mem_singleton] at he
              subst he
              exact ⟨PTree.nd l r, bs.length + 1, by simp [List.length_cons],
                subtreesL_self _, by simp [PTree.fullB, hf.1, hf.2], hd, rfl⟩

theorem insertAtF_canon {Hh : HasherM} {D : Nat} (hinj : Function.Injective Hh.hash)
    {t0 : PTree} {key value : Bytes} (hvlen : value.length ≠ 2 * Hh.len) :
    ∀ (fuel : Nat) (s : MutState) (u : PTree) (keyIndex : Nat),
      StoreRep Hh s.db t0 →
      u ∈ t0.subtreesL →
      u.fullB fuel = true →
      u.noTwoL Hh = true →
      keyIndex + fuel = D * 8 →
      u.valueAt (pathBits key keyIndex fuel) ≠ some value →
      (∀ e ∈ s.storage, ∀ (w : PTree) (m : Nat), m ≤ D * 8 → w.fullB m = true →
        w.noTwoL Hh = true → e.1 ≠ w.hashT Hh) →
      (∀ e ∈ s.deathRow, ∀ (w : PTree) (m : Nat), m ≤ D * 8 → w.fullB m = true →
        w.noTwoL Hh = true → e.1 ≠ w.hashT Hh) →
      insertAtF Hh D fuel s (canonRef Hh u) key value keyIndex =
        ({ s with
            storage := s.storage ++
              qOver Hh u (pathBits key keyIndex fuel) value,
            deathRow := s.deathRow ++ pDeath Hh u (pathBits key keyIndex fuel) },
         .ok (mixNode Hh (u.setAt (pathBits key keyIndex fuel) value)
                (pathBits key keyIndex fuel),
              oldOf u (pathBits key keyIndex fuel), true)) := by
  intro fuel
  induction fuel with
  | zero =>
      intro s u keyIndex hrep hmem hfull hnoTwo hsum hne hstor hdeath
      cases u with
      | nd l r => simp [PTree.fullB] at hfull
      | lf w =>
          rw [pathBits_zero] at hne ⊢
          have hwv : w ≠ value := by
            intro h
            exact hne (by simp [PTree.valueAt, h])
          have hvw : Hh.hash value ≠ Hh.hash w := fun h => hwv (hinj h).symm
          by_cases hw : w = []
          · subst hw
            have hvne : value ≠ [] := fun h => hwv (by rw [h])
            have hnd : (Node.newValue Hh value).isDefault = false := by
              simp [Node.newValue, Node.isDefault, List.isEmpty_iff, hvne]
            have hfind : afind s.storage (Node.newValue Hh value).hash = none := by
              apply afind_eq_none
              intro e he
              have := hstor e he (.lf value) 0 (by omega) (by simp [PTree.fullB])
                (by simp [PTree.noTwoL, hvlen])
              simpa [Node.newValue, Node.hash, PTree.hashT] using this
            simp only [insertAtF, canonRef, PTree.isD, List.isEmpty_nil, if_pos,
              ite_true, NodeHash.hash, Node.newValue, Node.hash, hvw,
              Bool.false_eq_true, if_neg, ite_false]
            simp only [overlayInsert, Node.newValue, Node.hash] at hfind ⊢
            rw [hfind]
            simp only [removeNode]
            simp [qOver, pDeath, oldOf, PTree.valueAt, PTree.setAt, mixNode,
              Node.newValue, Node.isDefault, Node.hash, List.isEmpty_iff, hvne,
              PTree.isD, PTree.hashT, hvw]
          · have hlf : (PTree.lf w).isD = false := by
              simp [PTree.isD, List.isEmpty_iff, hw]
            have hres := resolve_canon (D := D) hinj hrep hmem hfull (by omega)
            simp only [canonRef, hlf, Bool.false_eq_true, if_neg, ite_false] at hres
            simp only [insertAtF, canonRef, hlf, Bool.false_eq_true, if_neg,
              ite_false, hres, canonNode, Node.value, NodeHash.hash,
              Node.newValue, Node.hash, PTree.hashT, hvw]
            by_cases hv : value = []
            · subst hv
              have hd : (Node.Value (Hh.hash []) []).isDefault = true := by
                simp [Node.isDefault]
              have hddr : afind s.deathRow (Hh.hash w) = none := by
                apply afind_eq_none
                intro e he
                have := hdeath e he (.lf w) 0 (by omega) (by simp [PTree.fullB])
                  hnoTwo
                simpa [PTree.hashT] using this
              simp only [hd, not_true, Bool.false_eq_true, if_neg, ite_false,
                removeNode, hddr]
              simp only [PTree.hashT] at hres
              rw [hres]
              simp [qOver, pDeath, oldOf, PTree.valueAt, PTree.setAt, mixNode,
                canonNode, Node.value, Node.newValue, Node.isDefault,
                List.isEmpty_iff, hlf, List.isEmpty_nil, PTree.isD, hw,
                PTree.hashT]
            · have hd : (Node.Value (Hh.hash value) value).isDefault = false := by
                simp [Node.isDefault, List.isEmpty_iff, hv]
              have hfind : afind s.storage (Hh.hash value) = none := by
                apply afind_eq_none
                intro e he
                have := hstor e he (.lf value) 0 (by omega) (by simp [PTree.fullB])
                  (by simp [PTree.noTwoL, hvlen])
                simpa [PTree.hashT] using this
              have hddr : afind s.deathRow (Hh.hash w) = none := by
                apply afind_eq_none
                intro e he
                have := hdeath e he (.lf w) 0 (by omega) (by simp [PTree.fullB])
                  hnoTwo
                simpa [PTree.hashT] using this
              simp only [hd, not_false_eq_true, if_pos, ite_true, overlayInsert,
                Node.hash, hfind, removeNode, hddr]
              simp only [PTree.hashT] at hres
              rw [hres]
              simp [qOver, pDeath, oldOf, PTree.valueAt, PTree.setAt, mixNode,
                canonNode, Node.value, Node.newValue, Node.isDefault, Node.hash,
                List.isEmpty_iff, hv, hw, PTree.isD, PTree.hashT, hddr]
  | succ fuel ih =>
      intro s u keyIndex hrep hmem hfull hnoTwo hsum hne hstor hdeath
      cases u with
      | lf w => simp [PTree.fullB] at hfull
      | nd l r =>
          have hufull : (PTree.nd l r).fullB (fuel + 1) = true := hfull
          have hunoTwo : (PTree.nd l r).noTwoL Hh = true := hnoTwo
          simp only [PTree.fullB, Bool.and_eq_true] at hfull
          simp only [PTree.noTwoL, Bool.and_eq_true] at hnoTwo
          have hres := resolve_canon (D := D) hinj hrep hmem hufull (by omega)
          have hkb : keyBit D key keyIndex = .ok (keyBitRaw key keyIndex) :=
            keyBit_lt D key keyIndex (by omega)
          set b := keyBitRaw key keyIndex with hbdef
          set child := if b then r else l with hchild
          have hcmem : child ∈ t0.subtreesL := by
            refine subtreesL_trans hmem ?_
            rw [hchild]
            cases b
            · simpa using subtreesL_left
            · simpa using subtreesL_right
          have hcfull : child.fullB fuel = true := by
            rw [hchild]; cases b <;> simp [hfull.1, hfull.2]
          have hcnoTwo : child.noTwoL Hh = true := by
            rw [hchild]; cases b <;> simp [hnoTwo.1, hnoTwo.2]
          have hpb := pathBits_succ key keyIndex fuel
          set bs := pathBits key (keyIndex + 1) fuel with hbs
          have hbslen : bs.length = fuel := pathBits_len key (keyIndex + 1) fuel
          have hcne : child.valueAt bs ≠ some value := by
            intro h
            apply hne
            rw [hpb]
            simp only [PTree.valueAt, ← hbdef, ← hchild]
            exact h
          have hrec := ih s child (keyIndex + 1) hrep hcmem hcfull hcnoTwo
            (by omega) hcne hstor hdeath
          have hch : (canonNode Hh (PTree.nd l r)).childHash (ChildSelector.new b) =
              .ok (canonRef Hh child) := by
            rw [hchild]
            cases b <;> simp [canonNode, ChildSelector.new, Node.childHash]
          set child2 := child.setAt bs value with hchild2
          have hncr : (if (mixNode Hh child2 bs).isDefault = true then
              NodeHash.Default (mixNode Hh child2 bs).hash
              else NodeHash.InMemory (mixNode Hh child2 bs).hash) =
              insRef Hh child2 := by
            rw [mixNode_isDefault, mixNode_hash, insRef]
          set u2 := (PTree.nd l r).setAt (b :: bs) value with hu2
          have hu2c : u2 = if b then PTree.nd l child2 else PTree.nd child2 r := by
            rw [hu2, hchild2, hchild]
            cases b <;> simp [PTree.setAt]
          have hsch : (canonNode Hh (PTree.nd l r)).setChildHash Hh
              (ChildSelector.new b) (insRef Hh child2) =
              .ok (mixNode Hh u2 (b :: bs)) := by
            rw [hu2c]
            cases b with
            | false =>
                simp [canonNode, ChildSelector.new, Node.setChildHash, mixNode,
                  PTree.hashT, canonRef_hash, insRef_hash]
            | true =>
                simp [canonNode, ChildSelector.new, Node.setChildHash, mixNode,
                  PTree.hashT, canonRef_hash, insRef_hash]
          have hu2full : u2.fullB (fuel + 1) = true := by
            rw [hu2]
            exact setAt_full hufull (by simp [hbslen])
          have hu2noTwo : u2.noTwoL Hh = true := by
            rw [hu2]
            exact setAt_noTwoL hunoTwo hvlen
          have habsent : afind (s.storage ++ qOver Hh child bs value)
              ((mixNode Hh u2 (b :: bs)).hash) = none := by
            rw [mixNode_hash]
            apply afind_eq_none
            intro e he hc
            rcases List.mem_append.mp he with he | he
            · exact hstor e he u2 (fuel + 1) (by omega) hu2full hu2noTwo hc
            · obtain ⟨w, m, bits2, hm, hwf, hwn, hwd, hwh, _, _⟩ :=
                qOver_mem hvlen (by rw [hbslen]; exact hcfull) hcnoTwo e he
              have hww : w = u2 := hashT_inj hinj hwn hu2noTwo (by rw [← hwh, ← hc])
              rw [hww] at hwf
              have := fullB_height_eq hwf hu2full
              omega
          have hdabsent : afind (s.deathRow ++ pDeath Hh child bs)
              ((PTree.nd l r).hashT Hh) = none := by
            apply afind_eq_none
            intro e he hc
            rcases List.mem_append.mp he with he | he
            · exact hdeath e he (PTree.nd l r) (fuel + 1) (by omega) hufull
                hunoTwo hc
            · obtain ⟨w, m, hm, hwmem, hwf, hwd, hwe⟩ :=
                pDeath_mem (by rw [hbslen]; exact hcfull) e he
              have hwn : w.noTwoL Hh = true := noTwoL_subtree hcnoTwo hwmem
              have hww : w = PTree.nd l r := hashT_inj hinj hwn hunoTwo
                (by rw [hwe] at hc; simpa using hc)
              rw [hww] at hwf
              have := fullB_height_eq hwf hufull
              omega
          simp only [insertAtF, hres, hkb, ← hbdef, hch, hrec, not_true,
            Bool.false_eq_true, if_neg, ite_false, hncr, hsch]
          by_cases hud : u2.isD = true
          · have hmd : (mixNode Hh u2 (b :: bs)).isDefault = true := by
              rw [mixNode_isDefault]; exact hud
            by_cases hu : (PTree.nd l r).isD = true
            · simp only [hmd, not_true, Bool.false_eq_true, if_neg, ite_false,
                canonRef, hu, if_pos, ite_true, removeNode]
              rw [hpb]
              simp [qOver, ← hbs, ← hchild, ← hbdef, ← hu2, hmd, pDeath, hu,
                oldOf, PTree.valueAt, habsent, hdabsent]
            · simp only [Bool.not_eq_true] at hu
              simp only [hmd, not_true, Bool.false_eq_true, if_neg, ite_false,
                canonRef, hu, removeNode, hdabsent]
              rw [hpb]
              simp [qOver, ← hbs, ← hchild, ← hbdef, ← hu2, hmd, pDeath, hu,
                oldOf, PTree.valueAt, List.append_assoc, habsent, hdabsent]
          · simp only [Bool.not_eq_true] at hud
            have hmd : (mixNode Hh u2 (b :: bs)).isDefault = false := by
              rw [mixNode_isDefault]; exact hud
            by_cases hu : (PTree.nd l r).isD = true
            · simp only [hmd, Bool.false_eq_true, not_false_eq_true, if_pos,
                ite_true, overlayInsert, habsent, canonRef, hu, removeNode]
              rw [hpb]
              simp [qOver, ← hbs, ← hchild, ← hbdef, ← hu2, hmd, pDeath, hu,
                oldOf, PTree.valueAt, List.append_assoc, habsent, hdabsent]
            · simp only [Bool.not_eq_true] at hu
              simp only [hmd, Bool.false_eq_true, not_false_eq_true, if_pos,
                ite_true, overlayInsert, habsent, canonRef, hu, removeNode,
                hdabsent]
              rw [hpb]
              simp [qOver, ← hbs, ← hchild, ← hbdef, ← hu2, hmd, pDeath, hu,
                oldOf, PTree.valueAt, List.append_assoc, habsent, hdabsent]

theorem aremove_mem_of_ne {β : Type} {l : List (Bytes × β)} {k : Bytes}
    {e : Bytes × β} (he : e ∈ l) (hne : e.1 ≠ k) : e ∈ aremove l k := by
  induction l with
  | nil => simp at he
  | cons a t ih =>
      obtain ⟨ak, av⟩ := a
      simp only [aremove]
      by_cases ha : ak = k
      · simp only [ha, if_pos, ite_true]
        rcases List.mem_cons.mp he with he | he
        · exfalso; rw [he] at hne; exact hne ha
        · exact he
      · simp only [ha, ite_false, Bool.false_eq_true, if_neg]
        rcases List.mem_cons.mp he with he | he
        · exact he ▸ List.mem_cons_self _ _
        · exact List.mem_cons_of_mem _ (ih he)

theorem qOver_mem2 {Hh : HasherM} {value : Bytes}
    (hvlen : value.length ≠ 2 * Hh.len) (hv : value ≠ []) :
    ∀ {bits : List Bool} {u : PTree},
      u.fullB bits.length = true → u.noTwoL Hh = true →
      ∀ e ∈ qOver Hh u bits value,
        ∃ (w : PTree) (m : Nat),
          m ≤ bits.length ∧ w.fullB m = true ∧ w.noTwoL Hh = true ∧
          w.isD = false ∧ e.1 = w.hashT Hh ∧
          e.2.1 = mixNode Hh w (bits.drop (bits.length - m)) ∧ e.2.2 = 1 ∧
          w.valueAt (bits.drop (bits.length - m)) = some value := by
  intro bits
  induction bits with
  | nil =>
      intro u hf hn e he
      simp only [qOver] at he
      have hnd : (Node.newValue Hh value).isDefault = false := by
        simp [Node.newValue, Node.isDefault, List.isEmpty_iff, hv]
      simp only [hnd, Bool.false_eq_true, if_neg, ite_false,
        List.mem_singleton] at he
      subst he
      exact ⟨.lf value, 0, by omega, by simp [PTree.fullB],
        by simp [PTree.noTwoL, hvlen], by simp [PTree.isD, List.isEmpty_iff, hv],
        by simp [Node.newValue, Node.hash, PTree.hashT],
        by simp [Node.newValue, mixNode], rfl, by simp [PTree.valueAt]⟩
  | cons b bs ih =>
      intro u hf hn e he
      cases u with
      | lf w => simp [qOver] at he
      | nd l r =>
          simp only [PTree.fullB, Bool.and_eq_true, List.length_cons] at hf
          simp only [PTree.noTwoL, Bool.and_eq_true] at hn
          simp only [qOver, List.mem_append] at he
          rcases he with he | he
          · have hcf : (if b then r else l).fullB bs.length = true := by
              cases b <;> simp [hf.1, hf.2]
            have hcn : (if b then r else l).noTwoL Hh = true := by
              cases b <;> simp [hn.1, hn.2]
            obtain ⟨w, m, hm, h1, h2, h3, h4, h5, h6, h7⟩ := ih hcf hcn e he
            refine ⟨w, m, by simp; omega, h1, h2, h3, h4, ?_, h6, ?_⟩
            · rw [show (b :: bs).length - m = (bs.length - m) + 1 by
                simp [List.length_cons]; omega, List.drop_succ_cons]
              exact h5
            · rw [show (b :: bs).length - m = (bs.length - m) + 1 by
                simp [List.length_cons]; omega, List.drop_succ_cons]
              exact h7
          · set u2 := (PTree.nd l r).setAt (b :: bs) value with hu2
            have hfu : (PTree.nd l r).fullB (bs.length + 1) = true := by
              simp [PTree.fullB, hf.1, hf.2]
            have hnu : (PTree.nd l r).noTwoL Hh = true := by
              simp [PTree.noTwoL, hn.1, hn.2]
            have hu2d : u2.isD = false := by
              rw [hu2]
              exact setAt_isD_false hfu (by simp) hv
            have hd : (mixNode Hh u2 (b :: bs)).isDefault = false := by
              rw [mixNode_isDefault]; exact hu2d
            simp only [hd, Bool.false_eq_true, if_neg, ite_false,
              List.mem_singleton] at he
            subst he
            refine ⟨u2, bs.length + 1, by simp [List.length_cons],
              setAt_full hfu (by simp), setAt_noTwoL hnu hvlen, hu2d,
              by simp [mixNode_hash], ?_, rfl, ?_⟩
            · simp [List.length_cons]
            · simp only [List.length_cons, Nat.sub_self, List.drop_zero]
              rw [hu2]
              exact valueAt_setAt_self hfu (by simp)

theorem pDeath_mem2 {Hh : HasherM} :
    ∀ {bits : List Bool} {u : PTree},
      u.fullB bits.length = true → u.noTwoL Hh = true →
      ∀ e ∈ pDeath Hh u bits,
        ∃ (w : PTree) (m : Nat),
          m ≤ bits.length ∧ w.fullB m = true ∧ w.noTwoL Hh = true ∧
          w.isD = false ∧ e = (w.hashT Hh, 1) ∧
          w.valueAt (bits.drop (bits.length - m)) = u.valueAt bits := by
  intro bits
  induction bits with
  | nil =>
      intro u hf hn e he
      simp only [pDeath] at he
      by_cases hd : u.isD = true
      · simp [hd] at he
      · simp only [Bool.not_eq_true] at hd
        simp only [hd, Bool.false_eq_true, if_neg, ite_false,
          List.mem_singleton] at he
        subst he
        exact ⟨u, 0, by omega, by simpa using hf, hn, hd, rfl, by simp⟩
  | cons b bs ih =>
      intro u hf hn e he
      cases u with
      | lf w => simp [pDeath] at he
      | nd l r =>
          simp only [PTree.fullB, Bool.and_eq_true, List.length_cons] at hf
          simp only [PTree.noTwoL, Bool.and_eq_true] at hn
          simp only [pDeath, List.mem_append] at he
          rcases he with he | he
          · have hcf : (if b then r else l).fullB bs.length = true := by
              cases b <;> simp [hf.1, hf.2]
            have hcn : (if b then r else l).noTwoL Hh = true := by
              cases b <;> simp [hn.1, hn.2]
            obtain ⟨w, m, hm, h1, h2, h3, h4, h5⟩ := ih hcf hcn e he
            refine ⟨w, m, by simp; omega, h1, h2, h3, h4, ?_⟩
            rw [show (b :: bs).length - m = (bs.length - m) + 1 by
              simp [List.length_cons]; omega, List.drop_succ_cons]
            rw [h5]
            simp [PTree.valueAt]
          · by_cases hd : (PTree.nd l r).isD = true
            · simp [hd] at he
            · simp only [Bool.not_eq_true] at hd
              simp only [hd, Bool.false_eq_true, if_neg, ite_false,
                List.mem_singleton] at he
              subst he
              exact ⟨PTree.nd l r, bs.length + 1, by simp [List.length_cons],
                by simp [PTree.fullB, hf.1, hf.2],
                by simp [PTree.noTwoL, hn.1, hn.2], hd, rfl,
                by simp [List.length_cons]⟩

theorem spineSubs_covers {Hh : HasherM} {value : Bytes} (hv : value ≠ []) :
    ∀ {bits : List Bool} {u : PTree},
      u.fullB bits.length = true →
      ∀ w ∈ spineSubs (u.setAt bits value) bits,
        w.isD = false ∧
        ∃ bits2, (w.hashT Hh, mixNode Hh w bits2, 1) ∈ qOver Hh u bits value ∧
          w.valueAt bits2 = some value ∧ w.fullB bits2.length = true := by
  intro bits
  induction bits with
  | nil =>
      intro u hf w hw
      simp only [PTree.setAt, spineSubs, List.mem_singleton] at hw
      subst hw
      refine ⟨by simp [PTree.isD, List.isEmpty_iff, hv], [], ?_,
        by simp [PTree.valueAt], by simp [PTree.fullB]⟩
      have hnd : (Node.newValue Hh value).isDefault = false := by
        simp [Node.newValue, Node.isDefault, List.isEmpty_iff, hv]
      simp [qOver, hnd, Node.newValue, Node.hash, Node.isDefault, PTree.hashT,
        mixNode, List.isEmpty_iff, hv]
  | cons b bs ih =>
      intro u hf w hw
      cases u with
      | lf x =>
          simp only [List.length_cons] at hf
          simp [PTree.fullB] at hf
      | nd l r =>
          simp only [PTree.fullB, Bool.and_eq_true, List.length_cons] at hf
          set child := if b then r else l with hchild
          have hcf : child.fullB bs.length = true := by
            rw [hchild]; cases b <;> simp [hf.1, hf.2]
          have hset : (PTree.nd l r).setAt (b :: bs) value =
              if b then PTree.nd l (r.setAt bs value)
              else PTree.nd (l.setAt bs value) r := by
            cases b <;> simp [PTree.setAt]
          have hfu : (PTree.nd l r).fullB (bs.length + 1) = true := by
            simp [PTree.fullB, hf.1, hf.2]
          have hsp : spineSubs ((PTree.nd l r).setAt (b :: bs) value) (b :: bs) =
              (PTree.nd l r).setAt (b :: bs) value ::
                spineSubs (child.setAt bs value) bs := by
            rw [hset]
            cases b <;> simp [spineSubs, hchild]
          rw [hsp] at hw
          rcases List.mem_cons.mp hw with hw | hw
          · subst hw
            set u2 := (PTree.nd l r).setAt (b :: bs) value with hu2
            have hu2d : u2.isD = false := setAt_isD_false hfu (by simp) hv
            have hmd : (mixNode Hh u2 (b :: bs)).isDefault = false := by
              rw [mixNode_isDefault]; exact hu2d
            refine ⟨hu2d, b :: bs, ?_, valueAt_setAt_self hfu (by simp), ?_⟩
            · simp only [qOver, List.mem_append, ← hchild, ← hu2, hmd,
                Bool.false_eq_true, if_neg, ite_false, List.mem_singleton]
              right
              rw [mixNode_hash]
            · simpa using setAt_full hfu (by simp)
          · obtain ⟨hwd, bits2, hq, hval, hwf⟩ := ih hcf w hw
            refine ⟨hwd, bits2, ?_, hval, hwf⟩
            simp only [qOver, List.mem_append, ← hchild]
            exact Or.inl hq

theorem canonSpineB_of_get {Hh : HasherM} {f : NodeHash → Except TreeError Node} :
    ∀ {bits : List Bool} {t : PTree},
      t.fullB bits.length = true →
      (∀ w ∈ spineSubs t bits, f (canonRef Hh w) = .ok (canonNode Hh w)) →
      canonSpineB Hh f t bits = true := by
  intro bits
  induction bits with
  | nil =>
      intro t hf hres
      simp [canonSpineB, hres t (by cases t <;> simp [spineSubs])]
  | cons b bs ih =>
      intro t hf hres
      cases t with
      | lf x => simp [PTree.fullB] at hf
      | nd l r =>
          simp only [PTree.fullB, Bool.and_eq_true, List.length_cons] at hf
          have hcf : (if b then r else l).fullB bs.length = true := by
            cases b <;> simp [hf.1, hf.2]
          simp only [canonSpineB, Bool.and_eq_true, beq_iff_eq]
          refine ⟨hres _ (by simp [spineSubs]), ?_⟩
          refine ih hcf ?_
          intro w hw
          refine hres w ?_
          simp [spineSubs, hw]

theorem spineRepB_of_canonSpine {Hh : HasherM} {f : NodeHash → Except TreeError Node} :
    ∀ {bits : List Bool} {t : PTree} {w : Bytes},
      canonSpineB Hh f t bits = true →
      t.valueAt bits = some w →
      SpineRepB Hh f (canonRef Hh t) t bits = true := by
  intro bits
  induction bits with
  | nil =>
      intro t w hc hval
      cases t with
      | nd l r => simp [PTree.valueAt] at hval
      | lf v =>
          simp only [canonSpineB, beq_iff_eq] at hc
          simp only [SpineRepB, Bool.and_eq_true, beq_iff_eq]
          refine ⟨⟨?_, canonRef_hash _⟩, ?_⟩
          · rw [hc]
            simp [canonNode]
          · rw [canonRef_isDefault]
  | cons b bs ih =>
      intro t w hc hval
      cases t with
      | lf v => simp [PTree.valueAt] at hval
      | nd l r =>
          simp only [canonSpineB, Bool.and_eq_true, beq_iff_eq] at hc
          simp only [PTree.valueAt] at hval
          simp only [SpineRepB, Bool.and_eq_true, beq_iff_eq]
          refine ⟨⟨?_, canonRef_hash _⟩, by rw [canonRef_isDefault]⟩
          rw [hc.1]
          have hrec := ih hc.2 hval
          have hrec2 : SpineRepB Hh f (if b then canonRef Hh r else canonRef Hh l)
              (if b then r else l) bs = true := by
            cases b <;> simpa using hrec
          simp [canonNode, canonRef_hash, canonRef_isDefault, hrec2]

theorem commit_fold_no_death {Q : Overlay} :
    ∀ {db : Store} {dr : List (Bytes × Nat)},
      (∀ e ∈ Q, afind dr e.1 = none) →
      Q.foldl commitEntry (db, dr) =
        (Q.foldl (fun d e => storeEmplaceN d e.1 (nodeToBytes e.2.1) e.2.2) db,
          dr) := by
  induction Q with
  | nil => intro db dr h; rfl
  | cons e Q ih =>
      intro db dr h
      obtain ⟨eh, en, ec⟩ := e
      have he := h (eh, en, ec) (by simp)
      simp only [List.foldl_cons, commitEntry]
      rw [he]
      exact ih (fun e he2 => h e (by simp [he2]))

theorem afind_aremove_ne {β : Type} {l : List (Bytes × β)} {k k2 : Bytes}
    (hne : k ≠ k2) : afind (aremove l k) k2 = afind l k2 := by
  induction l with
  | nil => rfl
  | cons e es ih =>
      obtain ⟨ek, ev⟩ := e
      simp only [aremove]
      by_cases he : ek = k
      · simp only [he, if_pos, ite_true, afind]
        have : ¬k = k2 := hne
        simp [this]
      · simp only [he, ite_false, Bool.false_eq_true, if_neg, afind]
        by_cases he2 : ek = k2
        · simp [he2]
        · simp [he2, ih]

theorem storeEmplace_get_self {db : Store} {h d : Bytes}
    (hdb : storeGet db h = none ∨ storeGet db h = some d) :
    storeGet (storeEmplace db h d) h = some d := by
  rcases hdb with hdb | hdb
  · simp only [storeGet] at hdb
    cases hfind : afind db h with
    | some e => rw [hfind] at hdb; simp at hdb
    | none => simp [storeEmplace, hfind, storeGet, afind]
  · simp only [storeGet] at hdb
    cases hfind : afind db h with
    | none => rw [hfind] at hdb; simp at hdb
    | some e =>
        obtain ⟨d0, c⟩ := e
        rw [hfind] at hdb
        have hd0 : d0 = d := by simpa using hdb
        subst hd0
        simp [storeEmplace, hfind, storeGet, afind]

theorem storeEmplace_get_other {db : Store} {h d h2 : Bytes} (hne : h ≠ h2) :
    storeGet (storeEmplace db h d) h2 = storeGet db h2 := by
  simp only [storeEmplace]
  cases hfind : afind db h with
  | some e =>
      obtain ⟨d0, c⟩ := e
      simp [storeGet, afind, hne, afind_aremove_ne hne]
  | none => simp [storeGet, afind, hne]

theorem storeEmplaceN_get_other {c : Nat} : ∀ {db : Store} {h d h2 : Bytes},
    h ≠ h2 → storeGet (storeEmplaceN db h d c) h2 = storeGet db h2 := by
  induction c with
  | zero => intro db h d h2 hne; rfl
  | succ c ih =>
      intro db h d h2 hne
      show storeGet (storeEmplaceN (storeEmplace db h d) h d c) h2 = _
      rw [ih hne, storeEmplace_get_other hne]

theorem storeEmplaceN_get_self {c : Nat} : ∀ {db : Store} {h d : Bytes},
    0 < c → (storeGet db h = none ∨ storeGet db h = some d) →
    storeGet (storeEmplaceN db h d c) h = some d := by
  induction c with
  | zero => intro db h d hc; omega
  | succ c ih =>
      intro db h d hc hdb
      show storeGet (storeEmplaceN (storeEmplace db h d) h d c) h = some d
      cases c with
      | zero => exact storeEmplace_get_self hdb
      | succ c2 =>
          exact ih (by omega) (Or.inr (storeEmplace_get_self hdb))

theorem storeGet_fold_emplace_pres {Q : Overlay} : ∀ {db : Store} {h d : Bytes},
    (∀ e ∈ Q, e.1 = h → nodeToBytes e.2.1 = d) →
    storeGet db h = some d →
    storeGet (Q.foldl (fun x e => storeEmplaceN x e.1 (nodeToBytes e.2.1) e.2.2) db)
      h = some d := by
  induction Q with
  | nil => intro db h d hb hdb; exact hdb
  | cons e Q ih =>
      intro db h d hb hdb
      simp only [List.foldl_cons]
      refine ih (fun e2 he2 => hb e2 (by simp [he2])) ?_
      by_cases he : e.1 = h
      · rw [hb e (by simp) he, he]
        cases hc : e.2.2 with
        | zero => exact hdb
        | succ c => exact storeEmplaceN_get_self (by omega) (Or.inr hdb)
      · rw [storeEmplaceN_get_other he]
        exact hdb

theorem storeGet_fold_emplace {Q : Overlay} : ∀ {db : Store} {h d : Bytes},
    (∀ e ∈ Q, e.1 = h → nodeToBytes e.2.1 = d) →
    (∃ e ∈ Q, e.1 = h ∧ 0 < e.2.2) →
    (storeGet db h = none ∨ storeGet db h = some d) →
    storeGet (Q.foldl (fun x e => storeEmplaceN x e.1 (nodeToBytes e.2.1) e.2.2) db)
      h = some d := by
  induction Q with
  | nil =>
      intro db h d hb hex hdb
      simp at hex
  | cons e Q ih =>
      intro db h d hb hex hdb
      simp only [List.foldl_cons]
      by_cases he : e.1 = h
      · rcases Nat.eq_zero_or_pos e.2.2 with hc | hc
        · obtain ⟨e2, he2, hh2, hpos⟩ := hex
          rcases List.mem_cons.mp he2 with he2 | he2
          · subst he2; omega
          · refine ih (fun e3 he3 => hb e3 (by simp [he3])) ⟨e2, he2, hh2, hpos⟩ ?_
            rw [hc]
            exact hdb
        · have hfirst : storeGet (storeEmplaceN db e.1 (nodeToBytes e.2.1) e.2.2)
              h = some d := by
            rw [he, hb e (by simp) he]
            exact storeEmplaceN_get_self hc hdb
          exact storeGet_fold_emplace_pres
            (fun e3 he3 => hb e3 (by simp [he3])) hfirst
      · obtain ⟨e2, he2, hh2, hpos⟩ := hex
        rcases List.mem_cons.mp he2 with he2 | he2
        · subst he2; exact absurd hh2 he
        · refine ih (fun e3 he3 => hb e3 (by simp [he3])) ⟨e2, he2, hh2, hpos⟩ ?_
          rw [storeEmplaceN_get_other he]
          exact hdb

theorem storeRemove_get_other {db : Store} {h h2 : Bytes} (hne : h ≠ h2) :
    storeGet (storeRemove db h) h2 = storeGet db h2 := by
  simp only [storeRemove]
  cases hfind : afind db h with
  | none => rfl
  | some e =>
      obtain ⟨d0, c⟩ := e
      by_cases hc : c ≤ 1
      · simp [hc, storeGet, afind_aremove_ne hne]
      · simp [hc, storeGet, afind, hne, afind_aremove_ne hne]

theorem storeRemoveN_get_other {c : Nat} : ∀ {db : Store} {h h2 : Bytes},
    h ≠ h2 → storeGet (storeRemoveN db h c) h2 = storeGet db h2 := by
  induction c with
  | zero => intro db h h2 hne; rfl
  | succ c ih =>
      intro db h h2 hne
      show storeGet (storeRemoveN (storeRemove db h) h c) h2 = _
      rw [ih hne, storeRemove_get_other hne]

theorem storeGet_fold_remove {P : List (Bytes × Nat)} : ∀ {db : Store} {h : Bytes},
    (∀ e ∈ P, e.1 ≠ h) →
    storeGet (P.foldl (fun d e => storeRemoveN d e.1 e.2) db) h = storeGet db h := by
  induction P with
  | nil => intro db h hp; rfl
  | cons e P ih =>
      intro db h hp
      simp only [List.foldl_cons]
      rw [ih (fun e2 he2 => hp e2 (by simp [he2])),
        storeRemoveN_get_other (hp e (by simp))]

theorem spineSubs_sub : ∀ {bits : List Bool} {t : PTree},
    ∀ w ∈ spineSubs t bits, w ∈ t.subtreesL := by
  intro bits
  induction bits with
  | nil =>
      intro t w hw
      cases t <;> simp only [spineSubs, List.mem_singleton] at hw <;>
        exact hw ▸ subtreesL_self _
  | cons b bs ih =>
      intro t w hw
      cases t with
      | lf v =>
          simp only [spineSubs, List.mem_singleton] at hw
          exact hw ▸ subtreesL_self _
      | nd l r =>
          simp only [spineSubs, List.mem_cons] at hw
          rcases hw with hw | hw
          · exact hw ▸ subtreesL_self _
          · refine subtreesL_trans ?_ (ih w hw)
            cases b
            · simpa using subtreesL_left
            · simpa using subtreesL_right

theorem spineSubs_full : ∀ {bits : List Bool} {t : PTree},
    t.fullB bits.length = true →
    ∀ w ∈ spineSubs t bits, ∃ m ≤ bits.length, w.fullB m = true := by
  intro bits
  induction bits with
  | nil =>
      intro t hf w hw
      cases t <;> simp only [spineSubs, List.mem_singleton] at hw <;>
        exact ⟨0, by omega, hw ▸ hf⟩
  | cons b bs ih =>
      intro t hf w hw
      cases t with
      | lf v => simp [PTree.fullB] at hf
      | nd l r =>
          simp only [PTree.fullB, Bool.and_eq_true, List.length_cons] at hf
          simp only [spineSubs, List.mem_cons] at hw
          rcases hw with hw | hw
          · exact ⟨bs.length + 1, by simp,
              hw ▸ (by simp [PTree.fullB, hf.1, hf.2])⟩
          · have hcf : (if b then r else l).fullB bs.length = true := by
              cases b <;> simp [hf.1, hf.2]
            obtain ⟨m, hm, hwf⟩ := ih hcf w hw
            exact ⟨m, by simp [List.length_cons]; omega, hwf⟩

theorem pDeath_afind_top {Hh : HasherM} (hinj : Function.Injective Hh.hash)
    {bits : List Bool} {u : PTree} (hf : u.fullB bits.length = true)
    (hn : u.noTwoL Hh = true) (hd : u.isD = false) :
    afind (pDeath Hh u bits) (u.hashT Hh) = some 1 := by
  cases bits with
  | nil =>
      simp [pDeath, hd, afind]
  | cons b bs =>
      cases u with
      | lf w => simp [PTree.fullB] at hf
      | nd l r =>
          simp only [PTree.fullB, Bool.and_eq_true, List.length_cons] at hf
          simp only [PTree.noTwoL, Bool.and_eq_true] at hn
          have hcf : (if b then r else l).fullB bs.length = true := by
            cases b <;> simp [hf.1, hf.2]
          have hcn : (if b then r else l).noTwoL Hh = true := by
            cases b <;> simp [hn.1, hn.2]
          simp only [pDeath, hd, Bool.false_eq_true, if_neg, ite_false]
          rw [afind_append_none]
          · simp [afind]
          · intro e he hc
            obtain ⟨w, m, hm, hwf, hwn, hwd, hwe, _⟩ := pDeath_mem2 hcf hcn e he
            have hfu : (PTree.nd l r).fullB (bs.length + 1) = true := by
              simp [PTree.fullB, hf.1, hf.2]
            have hnu : (PTree.nd l r).noTwoL Hh = true := by
              simp [PTree.noTwoL, hn.1, hn.2]
            have : w = PTree.nd l r := hashT_inj hinj hwn hnu
              (by rw [hwe] at hc; simpa using hc)
            rw [this] at hwf
            have := fullB_height_eq hwf hfu
            omega

theorem qOver_afind_top {Hh : HasherM} (hinj : Function.Injective Hh.hash)
    {bits : List Bool} {u : PTree} {value : Bytes}
    (hf : u.fullB bits.length = true) (hn : u.noTwoL Hh = true)
    (hvlen : value.length ≠ 2 * Hh.len) (hv : value ≠ []) :
    afind (qOver Hh u bits value) ((u.setAt bits value).hashT Hh) =
      some (mixNode Hh (u.setAt bits value) bits, 1) := by
  cases bits with
  | nil =>
      have hnd : (Node.newValue Hh value).isDefault = false := by
        simp [Node.newValue, Node.isDefault, List.isEmpty_iff, hv]
      simp [qOver, hnd, afind, Node.newValue, Node.hash, Node.isDefault,
        List.isEmpty_iff, hv, PTree.setAt, PTree.hashT, mixNode]
  | cons b bs =>
      cases u with
      | lf w => simp [List.length_cons, PTree.fullB] at hf
      | nd l r =>
          simp only [PTree.fullB, Bool.and_eq_true, List.length_cons] at hf
          simp only [PTree.noTwoL, Bool.and_eq_true] at hn
          have hcf : (if b then r else l).fullB bs.length = true := by
            cases b <;> simp [hf.1, hf.2]
          have hcn : (if b then r else l).noTwoL Hh = true := by
            cases b <;> simp [hn.1, hn.2]
          have hfu : (PTree.nd l r).fullB (bs.length + 1) = true := by
            simp [PTree.fullB, hf.1, hf.2]
          have hnu : (PTree.nd l r).noTwoL Hh = true := by
            simp [PTree.noTwoL, hn.1, hn.2]
          set u2 := (PTree.nd l r).setAt (b :: bs) value with hu2
          have hu2d : u2.isD = false := setAt_isD_false hfu (by simp) hv
          have hu2f : u2.fullB (bs.length + 1) = true := setAt_full hfu (by simp)
          have hu2n : u2.noTwoL Hh = true := setAt_noTwoL hnu hvlen
          have hmd : (mixNode Hh u2 (b :: bs)).isDefault = false := by
            rw [mixNode_isDefault]; exact hu2d
          simp only [qOver, ← hu2, hmd, Bool.false_eq_true, if_neg, ite_false]
          rw [afind_append_none]
          · simp [afind, mixNode_hash]
          · intro e he hc
            obtain ⟨w, m, hm, hwf, hwn, hwd, hwh, _, _, _⟩ :=
              qOver_mem2 hvlen hv hcf hcn e he
            have : w = u2 := hashT_inj hinj hwn hu2n (by rw [← hwh, ← hc])
            rw [this] at hwf
            have := fullB_height_eq hwf hu2f
            omega

theorem treeMutInsert_canon {Hh : HasherM} {D : Nat}
    (hinj : Function.Injective Hh.hash) {db : Store} {t0 : PTree}
    {key value : Bytes}
    (hrep : StoreRep Hh db t0) (hfull : t0.fullB (D * 8) = true)
    (hnoTwo : t0.noTwoL Hh = true) (hnd : t0.isD = false)
    (hk : key.length = D) (hv : value ≠ [])
    (hvlen : value.length ≠ 2 * Hh.len)
    (hne : t0.valueAt (keyBits D key) ≠ some value) :
    treeMutInsert Hh D (committedState db (t0.hashT Hh)) key value =
      ({ storage := ((t0.setAt (keyBits D key) value).hashT Hh,
            mixNode Hh (t0.setAt (keyBits D key) value) (keyBits D key), 2) ::
            aremove (qOver Hh t0 (keyBits D key) value)
              ((t0.setAt (keyBits D key) value).hashT Hh),
          deathRow := (t0.hashT Hh, 2) ::
            aremove (pDeath Hh t0 (keyBits D key)) (t0.hashT Hh),
          db := db, root := t0.hashT Hh,
          rootHandle := .InMemory ((t0.setAt (keyBits D key) value).hashT Hh) },
        .ok (oldOf t0 (keyBits D key))) := by
  have hnew : keyNew D key = .ok key := by simp [keyNew, hk]
  have hkbl : (keyBits D key).length = D * 8 := keyBits_length D key
  have hins := insertAtF_canon (D := D) hinj hvlen (D * 8)
    (committedState db (t0.hashT Hh)) t0 0 hrep (subtreesL_self t0) hfull hnoTwo
    (by omega)
    (by rw [pathBits_keyBits]; exact hne)
    (by intro e he; simp [committedState] at he)
    (by intro e he; simp [committedState] at he)
  rw [pathBits_keyBits] at hins
  have hdtop := pDeath_afind_top hinj (by rw [hkbl]; exact hfull) hnoTwo hnd
  have hqtop := @qOver_afind_top Hh hinj (keyBits D key) t0 value
    (by rw [hkbl]; exact hfull) hnoTwo hvlen hv
  simp only [committedState, List.nil_append] at hins
  rw [show canonRef Hh t0 = NodeHash.Database (t0.hashT Hh) from by
    simp [canonRef, hnd]] at hins
  simp only [treeMutInsert, hnew, committedState, hins]
  simp only [removeNode, hdtop]
  simp only [overlayInsert, mixNode_hash, hqtop]
  rfl

theorem commit_resolve {Hh : HasherM} {D : Nat}
    (hinj : Function.Injective Hh.hash) {db : Store} {t0 : PTree}
    {key value : Bytes}
    (hrep : StoreRep Hh db t0) (hfull : t0.fullB (D * 8) = true)
    (hnoTwo : t0.noTwoL Hh = true) (hnd : t0.isD = false)
    (hk : key.length = D) (hv : value ≠ [])
    (hvlen : value.length ≠ 2 * Hh.len)
    (hne : t0.valueAt (keyBits D key) ≠ some value) :
    (treeMutCommit
        (treeMutInsert Hh D (committedState db (t0.hashT Hh)) key value).1).root =
      (t0.setAt (keyBits D key) value).hashT Hh ∧
    (treeMutCommit
        (treeMutInsert Hh D (committedState db (t0.hashT Hh)) key value).1).rootHandle =
      .Database ((t0.setAt (keyBits D key) value).hashT Hh) ∧
    ∀ w ∈ spineSubs (t0.setAt (keyBits D key) value) (keyBits D key),
      treeMutLookup Hh D
        (treeMutCommit
          (treeMutInsert Hh D (committedState db (t0.hashT Hh)) key value).1)
        (canonRef Hh w) = .ok (canonNode Hh w) := by
  have hkbl : (keyBits D key).length = D * 8 := keyBits_length D key
  have hfull2 : t0.fullB (keyBits D key).length = true := by rw [hkbl]; exact hfull
  set kb := keyBits D key with hkb
  set t2 := t0.setAt kb value with ht2
  have ht2full : t2.fullB (D * 8) = true := by
    rw [ht2, ← hkbl]
    exact setAt_full hfull2 rfl
  have ht2noTwo : t2.noTwoL Hh = true := setAt_noTwoL hnoTwo hvlen
  have ht2val : t2.valueAt kb = some value := valueAt_setAt_self hfull2 rfl
  rw [treeMutInsert_canon hinj hrep hfull hnoTwo hnd hk hv hvlen hne]
  set QF : Overlay := (t2.hashT Hh, mixNode Hh t2 kb, 2) ::
    aremove (qOver Hh t0 kb value) (t2.hashT Hh) with hQF
  set drF : List (Bytes × Nat) := (t0.hashT Hh, 2) ::
    aremove (pDeath Hh t0 kb) (t0.hashT Hh) with hdrF
  -- characterise the overlay entries
  have hQ : ∀ e ∈ QF, ∃ (w : PTree) (m : Nat),
      m ≤ D * 8 ∧ w.fullB m = true ∧ w.noTwoL Hh = true ∧ w.isD = false ∧
      e.1 = w.hashT Hh ∧
      nodeToBytes e.2.1 = nodeToBytes (canonNode Hh w) ∧
      w.valueAt (kb.drop (D * 8 - m)) = some value := by
    intro e he
    rcases List.mem_cons.mp he with he | he
    · subst he
      refine ⟨t2, D * 8, by omega, ht2full, ht2noTwo,
        setAt_isD_false hfull2 rfl hv, rfl, mixNode_bytes _ _, ?_⟩
      simpa using ht2val
    · obtain ⟨w, m, hm, hwf, hwn, hwd, hwh, hwb, _, hwv⟩ :=
        qOver_mem2 hvlen hv hfull2 hnoTwo e (aremove_subset he)
      exact ⟨w, m, by omega, hwf, hwn, hwd, hwh,
        by rw [hwb, mixNode_bytes], by rwa [hkbl] at hwv⟩
  -- characterise the death row entries
  have hP : ∀ f ∈ drF, ∃ (w : PTree) (m : Nat),
      m ≤ D * 8 ∧ w.fullB m = true ∧ w.noTwoL Hh = true ∧
      f.1 = w.hashT Hh ∧
      w.valueAt (kb.drop (D * 8 - m)) = t0.valueAt kb := by
    intro f hf
    rcases List.mem_cons.mp hf with hf | hf
    · subst hf
      exact ⟨t0, D * 8, by omega, hfull, hnoTwo, rfl, by simp⟩
    · obtain ⟨w, m, hm, hwf, hwn, hwd, hwe, hwv⟩ :=
        pDeath_mem2 hfull2 hnoTwo f (aremove_subset hf)
      exact ⟨w, m, by omega, hwf, hwn, by rw [hwe], by rwa [hkbl] at hwv⟩
  -- an overlay hash is never a death row hash
  have hdisj : ∀ e ∈ QF, ∀ f ∈ drF, f.1 ≠ e.1 := by
    intro e he f hf hc
    obtain ⟨w1, m1, hm1, hf1, hn1, hd1, hh1, _, hv1⟩ := hQ e he
    obtain ⟨w2, m2, hm2, hf2, hn2, hh2, hv2⟩ := hP f hf
    have hww : w2 = w1 := hashT_inj hinj hn2 hn1 (by rw [← hh2, ← hh1, hc])
    rw [hww] at hf2 hv2
    have hmm : m1 = m2 := fullB_height_eq hf1 hf2
    rw [← hmm] at hv2
    rw [hv1] at hv2
    exact hne hv2.symm
  have hfold := @commit_fold_no_death QF db drF
    (fun e he => afind_eq_none (fun f hf => hdisj e he f hf))
  refine ⟨by simp only [treeMutCommit, hfold]; simp [NodeHash.hash, ← hkb, ← ht2],
    by simp only [treeMutCommit, hfold]; simp [NodeHash.hash, ← hkb, ← ht2], ?_⟩
  intro w hw
  obtain ⟨hwd, bits2, hwq, hwval, hwfull⟩ := spineSubs_covers hv hfull2 w hw
  have hwsub : w ∈ t2.subtreesL := spineSubs_sub w hw
  have hwn : w.noTwoL Hh = true := noTwoL_subtree ht2noTwo hwsub
  -- the commit target bytes for w
  set d : Bytes := nodeToBytes (canonNode Hh w) with hd
  have hbytes : ∀ e ∈ QF, e.1 = w.hashT Hh → nodeToBytes e.2.1 = d := by
    intro e he hh
    obtain ⟨w1, m1, hm1, hf1, hn1, hd1, hh1, hb1, hv1⟩ := hQ e he
    have : w1 = w := hashT_inj hinj hn1 hwn (by rw [← hh1, hh])
    rw [hb1, this]
  have hsome : ∃ e ∈ QF, e.1 = w.hashT Hh ∧ 0 < e.2.2 := by
    by_cases hww : w.hashT Hh = t2.hashT Hh
    · exact ⟨(t2.hashT Hh, mixNode Hh t2 kb, 2), by simp [hQF], hww.symm, by simp⟩
    · refine ⟨(w.hashT Hh, mixNode Hh w bits2, 1), ?_, rfl, by simp⟩
      rw [hQF]
      refine List.mem_cons_of_mem _ (aremove_mem_of_ne hwq hww)
  have hdb0 : storeGet db (w.hashT Hh) = none ∨
      storeGet db (w.hashT Hh) = some d := by
    simp only [storeGet]
    cases hfind : afind db (w.hashT Hh) with
    | none => exact Or.inl rfl
    | some e =>
        right
        have hmem := afind_mem hfind
        obtain ⟨u0, hu0, hu0d, hu0h, hu0b⟩ := hrep.1 _ hmem
        have hu0n : u0.noTwoL Hh = true := noTwoL_subtree hnoTwo hu0
        have hh0 : u0.hashT Hh = w.hashT Hh := by
          have h3 := hu0h.symm
          simpa using h3
        have huw : u0 = w := hashT_inj hinj hu0n hwn hh0
        have heb : e.1 = d := by
          have hb2 := hu0b
          simp only [huw] at hb2
          simpa [hd] using hb2
        simp [heb]
  have hget2 := storeGet_fold_emplace (Q := QF) hbytes hsome hdb0
  have hnodeath : ∀ f ∈ drF, f.1 ≠ w.hashT Hh := by
    intro f hf hc
    obtain ⟨w2, m2, hm2, hf2, hn2, hh2, hv2⟩ := hP f hf
    have hww : w2 = w := hashT_inj hinj hn2 hwn (by rw [← hh2, hc])
    rw [hww] at hf2 hv2
    obtain ⟨w1, m1, hm1, hf1, hn1, hd1, hh1, _, _, hv1⟩ :=
      qOver_mem2 hvlen hv hfull2 hnoTwo _ hwq
    have hw1 : w1 = w := hashT_inj hinj hn1 hwn (by rw [← hh1])
    rw [hw1] at hf1 hv1
    have hmm : m1 = m2 := fullB_height_eq hf1 hf2
    rw [hmm, hkbl] at hv1
    rw [hv1] at hv2
    exact hne hv2.symm
  have hget3 : storeGet
      (drF.foldl (fun d e => storeRemoveN d e.1 e.2)
        (QF.foldl (fun x e => storeEmplaceN x e.1 (nodeToBytes e.2.1) e.2.2) db))
      (w.hashT Hh) = some d := by
    rw [storeGet_fold_remove hnodeath]
    exact hget2
  have hcr : canonRef Hh w = .Database (w.hashT Hh) := by
    simp [canonRef, hwd]
  simp only [treeMutCommit, hfold, hcr, treeMutLookup, hget3, decode_canon hwd, hd]

/-- C1 (amended): over a committed, well-formed tree (the store represents
    exactly a full tree of height D*8 with no leaf value of digest-pair
    length), a collision-free hasher, a non-default root, a key of width D
    and a non-empty value whose length is not the digest-pair length,
    insert followed by commit yields a state where `value` returns the
    written value, `leaf` returns its hash, and `proof`/`verify` of the
    value against the new root succeed. -/
theorem C1_inclusion_roundtrip_amended (Hh : HasherM) (D : Nat)
    (hinj : Function.Injective Hh.hash) (db : Store) (t0 : PTree)
    (key value : Bytes)
    (hrep : StoreRep Hh db t0) (hfull : t0.fullB (D * 8) = true)
    (hnoTwo : t0.noTwoL Hh = true) (hnd : t0.isD = false)
    (hk : key.length = D)
    (hv : value ≠ []) (hvlen : value.length ≠ 2 * Hh.len) :
    ∃ (s1 : MutState) (old : Option Bytes),
      treeMutInsert Hh D (committedState db (t0.hashT Hh)) key value =
        (s1, .ok old) ∧
      treeMutValue Hh D (treeMutCommit s1) key = .ok (some value) ∧
      treeMutLeaf Hh D (treeMutCommit s1) key = .ok (some (Hh.hash value)) ∧
      ∃ sibs, treeMutProof Hh D (treeMutCommit s1) key = .ok (some sibs) ∧
        treeVerify Hh D key value sibs (treeMutCommit s1).root = .ok true := by
  have hnew : keyNew D key = .ok key := by simp [keyNew, hk]
  have hkbl : (keyBits D key).length = D * 8 := keyBits_length D key
  have hfull2 : t0.fullB (keyBits D key).length = true := by
    rw [hkbl]; exact hfull
  by_cases hne : t0.valueAt (keyBits D key) = some value
  · -- the slot already holds the value: the insert is a no-op and commit
    -- republishes the same state
    have hres0 : ∀ w ∈ spineSubs t0 (keyBits D key),
        treeMutLookup Hh D (committedState db (t0.hashT Hh)) (canonRef Hh w) =
          .ok (canonNode Hh w) := by
      intro w hw
      obtain ⟨m, hm, hwf⟩ := spineSubs_full hfull2 w hw
      exact resolve_canon hinj (by simp [committedState]; exact hrep)
        (subtreesL_trans (subtreesL_self t0) (spineSubs_sub w hw)) hwf
        (by omega)
    have hcs := canonSpineB_of_get hfull2 hres0
    have hSR := spineRepB_of_canonSpine hcs hne
    have hrh0 : canonRef Hh t0 =
        (committedState db (t0.hashT Hh)).rootHandle := by
      simp [canonRef, hnd, committedState]
    rw [hrh0] at hSR
    obtain ⟨n, hnoop⟩ := @insertAt_spine_noop Hh D
      (committedState db (t0.hashT Hh)) key value (keyBits D key) t0
      ((committedState db (t0.hashT Hh)).rootHandle) 0 value hSR hne
      (by intro j hj; rw [hkbl] at hj; simpa using keyBits_getD D key j hj)
      (by omega) rfl
    rw [hkbl] at hnoop
    have hins : treeMutInsert Hh D (committedState db (t0.hashT Hh)) key value =
        (committedState db (t0.hashT Hh), .ok (some value)) := by
      simp only [treeMutInsert, hnew, hnoop]
      simp [List.isEmpty_iff, hv]
    have hcomm : treeMutCommit (committedState db (t0.hashT Hh)) =
        committedState db (t0.hashT Hh) := rfl
    refine ⟨committedState db (t0.hashT Hh), some value, hins, ?_, ?_, ?_⟩
    · rw [hcomm]
      have hwalk := walk_some hSR hne hv []
      simp only [treeMutValue, hnew, lookupLeafVia]
      rw [hwalk]
      simp [Node.value]
    · rw [hcomm]
      have hwalk := walk_some hSR hne hv []
      simp only [treeMutLeaf, hnew, lookupLeafVia]
      rw [hwalk]
      simp [Node.hash]
    · rw [hcomm]
      have hwalk := walk_proof hSR hne []
      refine ⟨(sibHashes Hh t0 (keyBits D key)).reverse, ?_, ?_⟩
      · simp only [treeMutProof, hnew, lookupLeafVia]
        rw [hwalk]
        simp
      · have hver := @verify_of_spine Hh D key value t0 hk hne
        simpa [committedState] using hver
  · obtain ⟨hroot2, hrh2, hres2⟩ :=
      commit_resolve hinj hrep hfull hnoTwo hnd hk hv hvlen hne
    have hins := treeMutInsert_canon hinj hrep hfull hnoTwo hnd hk hv hvlen hne
    have ht2full : (t0.setAt (keyBits D key) value).fullB
        (keyBits D key).length = true := setAt_full hfull2 rfl
    have ht2noTwo : (t0.setAt (keyBits D key) value).noTwoL Hh = true :=
      setAt_noTwoL hnoTwo hvlen
    have ht2val : (t0.setAt (keyBits D key) value).valueAt (keyBits D key) =
        some value := valueAt_setAt_self hfull2 rfl
    have ht2d : (t0.setAt (keyBits D key) value).isD = false :=
      setAt_isD_false hfull2 rfl hv
    have hcs := canonSpineB_of_get ht2full hres2
    have hSR := spineRepB_of_canonSpine hcs ht2val
    rw [show canonRef Hh (t0.setAt (keyBits D key) value) =
        (treeMutCommit
          (treeMutInsert Hh D (committedState db (t0.hashT Hh)) key value).1).rootHandle
      from by rw [hrh2]; simp [canonRef, ht2d]] at hSR
    refine ⟨(treeMutInsert Hh D (committedState db (t0.hashT Hh)) key value).1,
      oldOf t0 (keyBits D key), by rw [hins], ?_, ?_, ?_⟩
    · have hwalk := walk_some hSR ht2val hv []
      simp only [treeMutValue, hnew, lookupLeafVia]
      rw [hwalk]
      simp [Node.value]
    · have hwalk := walk_some hSR ht2val hv []
      simp only [treeMutLeaf, hnew, lookupLeafVia]
      rw [hwalk]
      simp [Node.hash]
    · have hwalk := walk_proof hSR ht2val []
      refine ⟨(sibHashes Hh (t0.setAt (keyBits D key) value)
          (keyBits D key)).reverse, ?_, ?_⟩
      · simp only [treeMutProof, hnew, lookupLeafVia]
        rw [hwalk]
        simp
      · rw [hroot2]
        exact @verify_of_spine Hh D key value (t0.setAt (keyBits D key) value)
          hk ht2val

/-- C1 counterexample: on a committed tree whose leaf at key 128 stores the
    digest-pair-length value `H([1]) ++ d_0`, inserting `[1]` at key 0 and
    committing succeeds, but `value` at key 0 then fails with
    InvalidNodeType("Value", "Inner") instead of returning `Some [1]`: the
    new inner node above the fresh leaf hashes to the same digest as the
    stored leaf bytes, and the refcounted store keeps the old bytes. -/
theorem C1_inclusion_roundtrip_counterexample :
    (treeMutInsert hashC 1 cexState [0] [1]).2 = .ok none ∧
    treeMutValue hashC 1
        (treeMutCommit (treeMutInsert hashC 1 cexState [0] [1]).1) [0] =
      .error (.NodeError (.InvalidNodeType "Value" "Inner")) ∧
    (Except.error (.NodeError (.InvalidNodeType "Value" "Inner")) :
        Except TreeError (Option Bytes)) ≠ .ok (some [1]) := by
  decide

set_option maxRecDepth 40000 in
/-- C1 witness: the amended round-trip instantiated on the committed tree
    `wTree` (value [7] at key 3) at depth one, inserting value [5] at
    key 0. -/
theorem C1_inclusion_roundtrip_witness :
    StoreRep hashC (canonStore hashC wTree) wTree ∧
    wTree.fullB (1 * 8) = true ∧
    wTree.noTwoL hashC = true ∧
    wTree.isD = false ∧
    ([0] : Bytes).length = 1 ∧
    ([5] : Bytes) ≠ [] ∧
    ([5] : Bytes).length ≠ 2 * hashC.len ∧
    (∃ (s1 : MutState) (old : Option Bytes),
      treeMutInsert hashC 1 (committedState (canonStore hashC wTree)
          (wTree.hashT hashC)) [0] [5] = (s1, .ok old) ∧
      treeMutValue hashC 1 (treeMutCommit s1) [0] = .ok (some [5]) ∧
      treeMutLeaf hashC 1 (treeMutCommit s1) [0] = .ok (some (hashC.hash [5])) ∧
      ∃ sibs, treeMutProof hashC 1 (treeMutCommit s1) [0] = .ok (some sibs) ∧
        treeVerify hashC 1 [0] [5] sibs (treeMutCommit s1).root = .ok true) :=
  ⟨by decide, by decide, by decide, by decide, by decide, by decide, by decide,
    C1_inclusion_roundtrip_amended hashC 1 hashC_inj (canonStore hashC wTree)
      wTree [0] [5] (by decide) (by decide) (by decide) (by decide) (by decide)
      (by decide) (by decide)⟩

theorem aremove_append_right {β : Type} {l₁ l₂ : List (Bytes × β)} {k : Bytes}
    (h : ∀ e ∈ l₁, e.1 ≠ k) : aremove (l₁ ++ l₂) k = l₁ ++ aremove l₂ k := by
  induction l₁ with
  | nil => simp
  | cons e es ih =>
      obtain ⟨ek, ev⟩ := e
      have hek : ek ≠ k := h (ek, ev) (by simp)
      simp only [List.cons_append, aremove, hek, ite_false, Bool.false_eq_true,
        if_neg, List.cons.injEq, true_and]
      exact ih (fun e he => h e (by simp [he]))

theorem rOver_mem {Hh : HasherM} :
    ∀ {bits : List Bool} {u : PTree},
      u.fullB bits.length = true → u.noTwoL Hh = true →
      ∀ e ∈ rOver Hh u bits,
        ∃ (w : PTree) (m : Nat) (bits2 : List Bool),
          m ≤ bits.length ∧ w.fullB m = true ∧ w.noTwoL Hh = true ∧
          w.isD = false ∧ e.1 = w.hashT Hh ∧ e.2.1 = mixNode Hh w bits2 ∧
          e.2.2 = 1 := by
  intro bits
  induction bits with
  | nil => intro u hf hn e he; simp [rOver] at he
  | cons b bs ih =>
      intro u hf hn e he
      cases u with
      | lf w => simp [rOver] at he
      | nd l r =>
          simp only [PTree.fullB, Bool.and_eq_true, List.length_cons] at hf
          simp only [PTree.noTwoL, Bool.and_eq_true] at hn
          simp only [rOver, List.mem_append] at he
          rcases he with he | he
          · have hcf : (if b then r else l).fullB bs.length = true := by
              cases b <;> simp [hf.1, hf.2]
            have hcn : (if b then r else l).noTwoL Hh = true := by
              cases b <;> simp [hn.1, hn.2]
            obtain ⟨w, m, bits2, hm, h1, h2, h3, h4, h5, h6⟩ := ih hcf hcn e he
            exact ⟨w, m, bits2, by simp [List.length_cons]; omega, h1, h2, h3,
              h4, h5, h6⟩
          · by_cases hd : (mixNode Hh (PTree.nd l r) (b :: bs)).isDefault = true
            · simp [hd] at he
            · simp only [Bool.not_eq_true] at hd
              simp only [hd, Bool.false_eq_true, if_neg, ite_false,
                List.mem_singleton] at he
              subst he
              refine ⟨PTree.nd l r, bs.length + 1, b :: bs,
                by simp [List.length_cons], by simp [PTree.fullB, hf.1, hf.2],
                by simp [PTree.noTwoL, hn.1, hn.2], ?_,
                by simp [mixNode_hash], rfl, rfl⟩
              rw [mixNode_isDefault] at hd
              exact hd

theorem rOver_death {Hh : HasherM} :
    ∀ {bits : List Bool} {u : PTree}, u.valueAt bits = some [] →
      (rOver Hh u bits).map (fun e => (e.1, e.2.2)) = pDeath Hh u bits := by
  intro bits
  induction bits with
  | nil =>
      intro u hval
      cases u with
      | lf v =>
          simp only [PTree.valueAt, Option.some.injEq] at hval
          subst hval
          simp [rOver, pDeath, PTree.isD]
      | nd l r => simp [PTree.valueAt] at hval
  | cons b bs ih =>
      intro u hval
      cases u with
      | lf v => simp [PTree.valueAt] at hval
      | nd l r =>
          simp only [PTree.valueAt] at hval
          simp only [rOver, pDeath, List.map_append, ih hval]
          congr 1
          by_cases hd : (PTree.nd l r).isD = true
          · simp [mixNode_isDefault, hd]
          · simp only [Bool.not_eq_true] at hd
            simp [mixNode_isDefault, mixNode_hash, hd]

theorem rOver_pairwise {Hh : HasherM} (hinj : Function.Injective Hh.hash) :
    ∀ {bits : List Bool} {u : PTree},
      u.fullB bits.length = true → u.noTwoL Hh = true →
      List.Pairwise (fun a b : Bytes × Node × Nat => a.1 ≠ b.1)
        (rOver Hh u bits) := by
  intro bits
  induction bits with
  | nil => intro u hf hn; simp [rOver]
  | cons b bs ih =>
      intro u hf hn
      cases u with
      | lf w => simp [rOver]
      | nd l r =>
          simp only [PTree.fullB, Bool.and_eq_true, List.length_cons] at hf
          simp only [PTree.noTwoL, Bool.and_eq_true] at hn
          have hcf : (if b then r else l).fullB bs.length = true := by
            cases b <;> simp [hf.1, hf.2]
          have hcn : (if b then r else l).noTwoL Hh = true := by
            cases b <;> simp [hn.1, hn.2]
          simp only [rOver]
          rw [List.pairwise_append]
          refine ⟨ih hcf hcn, ?_, ?_⟩
          · by_cases hd : (mixNode Hh (PTree.nd l r) (b :: bs)).isDefault = true
            · simp [hd]
            · simp only [Bool.not_eq_true] at hd
              simp [hd]
          · intro a ha c hc
            by_cases hd : (mixNode Hh (PTree.nd l r) (b :: bs)).isDefault = true
            · simp [hd] at hc
            · simp only [Bool.not_eq_true] at hd
              simp only [hd, Bool.false_eq_true, if_neg, ite_false,
                List.mem_singleton] at hc
              subst hc
              obtain ⟨w, m, bits2, hm, hwf, hwn, hwd, hwh, _, _⟩ :=
                rOver_mem hcf hcn a ha
              simp only [mixNode_hash, hwh]
              intro hc2
              have hfu : (PTree.nd l r).fullB (bs.length + 1) = true := by
                simp [PTree.fullB, hf.1, hf.2]
              have hnu : (PTree.nd l r).noTwoL Hh = true := by
                simp [PTree.noTwoL, hn.1, hn.2]
              have : w = PTree.nd l r := hashT_inj hinj hwn hnu hc2
              rw [this] at hwf
              have := fullB_height_eq hwf hfu
              omega

theorem commit_cancel_map {Q : Overlay} : ∀ {db : Store},
    List.Pairwise (fun a b : Bytes × Node × Nat => a.1 ≠ b.1) Q →
    Q.foldl commitEntry (db, Q.map (fun e => (e.1, e.2.2))) = (db, []) := by
  induction Q with
  | nil => intro db h; rfl
  | cons e Q ih =>
      intro db hp
      obtain ⟨eh, en, ec⟩ := e
      rw [List.pairwise_cons] at hp
      simp only [List.foldl_cons, List.map_cons, commitEntry, afind, if_pos,
        ite_true, aremove]
      exact ih hp.2


theorem insertAtF_unwrite {Hh : HasherM} {D : Nat}
    (hinj : Function.Injective Hh.hash) {key value : Bytes}
    (hv : value ≠ []) (hvlen : value.length ≠ 2 * Hh.len) :
    ∀ (fuel : Nat) (s : MutState) (u : PTree) (keyIndex : Nat) (S0 S1 : Overlay),
      u.fullB fuel = true →
      u.noTwoL Hh = true →
      keyIndex + fuel = D * 8 →
      u.valueAt (pathBits key keyIndex fuel) = some [] →
      s.storage = S0 ++ qOver Hh u (pathBits key keyIndex fuel) value ++ S1 →
      (∀ e ∈ S0 ++ S1, ∀ (w : PTree) (m : Nat), m ≤ fuel → w.fullB m = true →
        w.noTwoL Hh = true → e.1 ≠ w.hashT Hh) →
      insertAtF Hh D fuel s
          (insRef Hh (u.setAt (pathBits key keyIndex fuel) value)) key []
          keyIndex =
        ({ s with storage :=
            S0 ++ S1 ++ rOver Hh u (pathBits key keyIndex fuel) },
         .ok (mixNode Hh u (pathBits key keyIndex fuel), some value, true)) := by
  intro fuel
  induction fuel with
  | zero =>
      intro s u keyIndex S0 S1 hfull hnoTwo hsum hval hstore hcond
      cases u with
      | nd l r => simp [PTree.fullB] at hfull
      | lf w =>
          rw [pathBits_zero] at hval hstore ⊢
          simp only [PTree.valueAt, Option.some.injEq] at hval
          subst hval
          have hvd : (Node.newValue Hh value).isDefault = false := by
            simp [Node.newValue, Node.isDefault, List.isEmpty_iff, hv]
          have hins : insRef Hh ((PTree.lf []).setAt [] value) =
              .InMemory (Hh.hash value) := by
            simp [PTree.setAt, insRef, PTree.isD, List.isEmpty_iff, hv,
              PTree.hashT]
          have hvd2 : (Node.Value (Hh.hash value) value).isDefault = false := by
            simp [Node.isDefault, List.isEmpty_iff, hv]
          have hq : qOver Hh (PTree.lf []) [] value =
              [(Hh.hash value, Node.Value (Hh.hash value) value, 1)] := by
            simp [qOver, Node.newValue, hvd2, Node.hash]
          have hS0 : ∀ e ∈ S0, e.1 ≠ Hh.hash value := by
            intro e he
            have := hcond e (by simp [he]) (.lf value) 0 (by omega)
              (by simp [PTree.fullB]) (by simp [PTree.noTwoL, hvlen])
            simpa [PTree.hashT] using this
          have hafind : afind s.storage (Hh.hash value) =
              some (Node.Value (Hh.hash value) value, 1) := by
            rw [hstore, hq, List.append_assoc]
            have h2 := afind_append_none (k := Hh.hash value) hS0
              ([(Hh.hash value, Node.Value (Hh.hash value) value, 1)] ++ S1)
            rw [h2]
            simp [afind]
          have hrm : aremove s.storage (Hh.hash value) = S0 ++ S1 := by
            rw [hstore, hq, List.append_assoc]
            have h2 := @aremove_append_right (Node × Nat) S0
              ([(Hh.hash value, Node.Value (Hh.hash value) value, 1)] ++ S1)
              (Hh.hash value) hS0
            rw [h2]
            simp [aremove]
          have hhne : Hh.hash [] ≠ Hh.hash value := fun h => hv (hinj h).symm
          simp only [hins, insertAtF, treeMutLookup, overlayGet, hafind,
            Option.map_some', Node.value, Node.newValue, Node.hash,
            NodeHash.hash, hhne, Bool.false_eq_true, if_neg, ite_false,
            Node.isDefault, List.isEmpty_nil, not_true, removeNode,
            overlayRemove, hrm]
          simp [mixNode, rOver, PTree.hashT]
  | succ fuel ih =>
      intro s u keyIndex S0 S1 hfull hnoTwo hsum hval hstore hcond
      cases u with
      | lf w => simp [PTree.fullB] at hfull
      | nd l r =>
          have hufull : (PTree.nd l r).fullB (fuel + 1) = true := hfull
          have hunoTwo : PTree.noTwoL Hh (PTree.nd l r) = true := hnoTwo
          simp only [PTree.fullB, Bool.and_eq_true] at hfull
          simp only [PTree.noTwoL, Bool.and_eq_true] at hnoTwo
          have hpb := pathBits_succ key keyIndex fuel
          set b := keyBitRaw key keyIndex with hbdef
          set bs := pathBits key (keyIndex + 1) fuel with hbs
          have hbslen : bs.length = fuel := pathBits_len key (keyIndex + 1) fuel
          set child := if b then r else l with hchild
          have hcfull : child.fullB fuel = true := by
            rw [hchild]; cases b <;> simp [hfull.1, hfull.2]
          have hcnoTwo : child.noTwoL Hh = true := by
            rw [hchild]; cases b <;> simp [hnoTwo.1, hnoTwo.2]
          rw [hpb] at hval hstore ⊢
          have hcval : child.valueAt bs = some [] := by
            simpa [PTree.valueAt, ← hbdef, ← hchild] using hval
          set w2 := (PTree.nd l r).setAt (b :: bs) value with hw2
          have hw2c : w2 = if b then PTree.nd l (r.setAt bs value)
              else PTree.nd (l.setAt bs value) r := by
            rw [hw2]; cases b <;> simp [PTree.setAt]
          have hw2d : w2.isD = false := setAt_isD_false hufull (by simp [hbslen]) hv
          have hw2full : w2.fullB (fuel + 1) = true :=
            setAt_full hufull (by simp [hbslen])
          have hw2noTwo : w2.noTwoL Hh = true := setAt_noTwoL hunoTwo hvlen
          have hw2ne : w2 ≠ PTree.nd l r := by
            intro h
            have h1 : w2.valueAt (b :: bs) = some value := by
              rw [hw2]
              exact valueAt_setAt_self hufull (by simp [hbslen])
            rw [h] at h1
            rw [h1] at hval
            simp at hval
            exact hv hval
          have hins : insRef Hh w2 = .InMemory (w2.hashT Hh) := by
            simp [insRef, hw2d]
          have hmdw : (mixNode Hh w2 (b :: bs)).isDefault = false := by
            rw [mixNode_isDefault]; exact hw2d
          have hqsplit : qOver Hh (PTree.nd l r) (b :: bs) value =
              qOver Hh child bs value ++
                [(w2.hashT Hh, mixNode Hh w2 (b :: bs), 1)] := by
            simp only [qOver, ← hbdef, ← hchild, ← hw2, hmdw,
              Bool.false_eq_true, if_neg, ite_false]
            rw [mixNode_hash]
          -- no hash of a well formed tree of height ≤ fuel+1 occurs in S0
          have hS0 : ∀ e ∈ S0, ∀ (v2 : PTree) (m : Nat), m ≤ fuel + 1 →
              v2.fullB m = true → v2.noTwoL Hh = true → e.1 ≠ v2.hashT Hh := by
            intro e he
            exact hcond e (by simp [he])
          have hS1 : ∀ e ∈ S1, ∀ (v2 : PTree) (m : Nat), m ≤ fuel + 1 →
              v2.fullB m = true → v2.noTwoL Hh = true → e.1 ≠ v2.hashT Hh := by
            intro e he
            exact hcond e (by simp [he])
          -- the qOver entries of the child call never collide with a
          -- height-(fuel+1) hash
          have hQlow : ∀ e ∈ qOver Hh child bs value, ∀ (v2 : PTree),
              v2.fullB (fuel + 1) = true → v2.noTwoL Hh = true →
              e.1 ≠ v2.hashT Hh := by
            intro e he v2 hv2f hv2n hc
            obtain ⟨w3, m3, hm3, hf3, hn3, hd3, hh3, _, _, _⟩ :=
              qOver_mem2 hvlen hv (by rw [hbslen]; exact hcfull) hcnoTwo e he
            have : w3 = v2 := hashT_inj hinj hn3 hv2n (by rw [← hh3, hc])
            rw [this] at hf3
            have := fullB_height_eq hf3 hv2f
            omega
          have hafind : afind s.storage (w2.hashT Hh) =
              some (mixNode Hh w2 (b :: bs), 1) := by
            rw [hstore, hqsplit]
            rw [show S0 ++ (qOver Hh child bs value ++
                [(w2.hashT Hh, mixNode Hh w2 (b :: bs), 1)]) ++ S1 =
              (S0 ++ qOver Hh child bs value) ++
                ((w2.hashT Hh, mixNode Hh w2 (b :: bs), 1) :: S1) by
                simp [List.append_assoc]]
            rw [afind_append_none]
            · simp [afind]
            · intro e he hc
              rcases List.mem_append.mp he with he | he
              · exact hS0 e he w2 (fuel + 1) (by omega) hw2full hw2noTwo hc
              · exact hQlow e he w2 hw2full hw2noTwo hc
          have hres : treeMutLookup Hh D s (.InMemory (w2.hashT Hh)) =
              .ok (mixNode Hh w2 (b :: bs)) := by
            simp [treeMutLookup, overlayGet, hafind]
          have hkb : keyBit D key keyIndex = .ok b :=
            keyBit_lt D key keyIndex (by omega)
          have hch : (mixNode Hh w2 (b :: bs)).childHash (ChildSelector.new b) =
              .ok (insRef Hh (child.setAt bs value)) := by
            rw [hw2c, hchild]
            cases b <;> simp [mixNode, ChildSelector.new, Node.childHash]
          have hrec := ih s child (keyIndex + 1) S0
            ((w2.hashT Hh, mixNode Hh w2 (b :: bs), 1) :: S1)
            hcfull hcnoTwo (by omega) hcval
            (by
              rw [hstore, hqsplit, ← hbs]
              simp [List.append_assoc])
            (by
              intro e he v2 m hm hv2f hv2n
              rcases List.mem_append.mp he with he | he
              · exact hS0 e he v2 m (by omega) hv2f hv2n
              · rcases List.mem_cons.mp he with he | he
                · subst he
                  intro hc
                  have : w2 = v2 := hashT_inj hinj hw2noTwo hv2n hc
                  rw [← this] at hv2f
                  have := fullB_height_eq hw2full hv2f
                  omega
                · exact hS1 e he v2 m (by omega) hv2f hv2n)
          rw [← hbs] at hrec
          have hncr : (if (mixNode Hh child bs).isDefault = true
              then NodeHash.Default (mixNode Hh child bs).hash
              else NodeHash.InMemory (mixNode Hh child bs).hash)
              = insRef Hh child := by
            rw [mixNode_isDefault, mixNode_hash, insRef]
          have hsch : (mixNode Hh w2 (b :: bs)).setChildHash Hh
              (ChildSelector.new b) (insRef Hh child) =
              .ok (mixNode Hh (PTree.nd l r) (b :: bs)) := by
            rw [hw2c, hchild]
            cases b with
            | false =>
                simp [mixNode, ChildSelector.new, Node.setChildHash,
                  PTree.hashT, canonRef_hash, insRef_hash]
            | true =>
                simp [mixNode, ChildSelector.new, Node.setChildHash,
                  PTree.hashT, canonRef_hash, insRef_hash]
          have hrOlow : ∀ e ∈ rOver Hh child bs, ∀ (v2 : PTree),
              v2.fullB (fuel + 1) = true → v2.noTwoL Hh = true →
              e.1 ≠ v2.hashT Hh := by
            intro e he v2 hv2f hv2n hc
            obtain ⟨w3, m3, bits3, hm3, hf3, hn3, hd3, hh3, _, _⟩ :=
              rOver_mem (by rw [hbslen]; exact hcfull) hcnoTwo e he
            have : w3 = v2 := hashT_inj hinj hn3 hv2n (by rw [← hh3, hc])
            rw [this] at hf3
            have := fullB_height_eq hf3 hv2f
            omega
          have hS0w2 : ∀ e ∈ S0, e.1 ≠ w2.hashT Hh := fun e he =>
            hS0 e he w2 (fuel + 1) (le_refl _) hw2full hw2noTwo
          have hw2u : w2.hashT Hh ≠ (PTree.nd l r).hashT Hh := by
            intro hc
            exact hw2ne (hashT_inj hinj hw2noTwo hunoTwo hc)
          have hfindT : ∀ (R : Overlay),
              afind (S0 ++ (w2.hashT Hh, mixNode Hh w2 (b :: bs), 1) ::
                (S1 ++ R)) (w2.hashT Hh) = some (mixNode Hh w2 (b :: bs), 1) := by
            intro R
            rw [afind_append_none hS0w2]
            simp [afind]
          have hremT : ∀ (R : Overlay),
              aremove (S0 ++ (w2.hashT Hh, mixNode Hh w2 (b :: bs), 1) ::
                (S1 ++ R)) (w2.hashT Hh) = S0 ++ (S1 ++ R) := by
            intro R
            rw [aremove_append_right hS0w2]
            simp [aremove]
          by_cases hud : (PTree.nd l r).isD = true
          · have hmdu : (mixNode Hh (PTree.nd l r) (b :: bs)).isDefault = true := by
              rw [mixNode_isDefault]; exact hud
            have hrOeq : rOver Hh (PTree.nd l r) (b :: bs) =
                rOver Hh child bs := by
              simp only [rOver, ← hbdef, ← hchild, hmdu, if_pos, ite_true]
              simp
            have hRlow : ∀ e ∈ rOver Hh child bs, e.1 ≠ w2.hashT Hh := by
              intro e he
              exact hrOlow e he w2 hw2full hw2noTwo
            simp only [insertAtF, hins, hres, hkb, ← hbdef, hch, hrec, not_true,
              Bool.false_eq_true, if_neg, ite_false, hncr, hsch, hmdu,
              removeNode, overlayRemove]
            simp only [List.cons_append, List.append_assoc]
            rw [hfindT (rOver Hh child bs)]
            simp only [Nat.sub_self, if_pos, ite_true]
            rw [hremT (rOver Hh child bs)]
            simp [hrOeq, List.append_assoc, oldOf]
          · simp only [Bool.not_eq_true] at hud
            have hmdu : (mixNode Hh (PTree.nd l r) (b :: bs)).isDefault = false := by
              rw [mixNode_isDefault]; exact hud
            have hrOeq : rOver Hh (PTree.nd l r) (b :: bs) =
                rOver Hh child bs ++
                  [((PTree.nd l r).hashT Hh,
                    mixNode Hh (PTree.nd l r) (b :: bs), 1)] := by
              simp only [rOver, ← hbdef, ← hchild, hmdu, Bool.false_eq_true,
                if_neg, ite_false]
              rw [mixNode_hash]
            have hfindu : afind (S0 ++
                ((w2.hashT Hh, mixNode Hh w2 (b :: bs), 1) :: S1) ++
                rOver Hh child bs) ((mixNode Hh (PTree.nd l r) (b :: bs)).hash) =
                none := by
              rw [mixNode_hash]
              apply afind_eq_none
              intro e he hc
              rcases List.mem_append.mp he with he | he
              · rcases List.mem_append.mp he with he | he
                · exact hS0 e he (PTree.nd l r) (fuel + 1) (le_refl _) hufull
                    hunoTwo hc
                · rcases List.mem_cons.mp he with he | he
                  · rw [he] at hc
                    exact hw2u hc
                  · exact hS1 e he (PTree.nd l r) (fuel + 1) (le_refl _) hufull
                      hunoTwo hc
              · exact hrOlow e he (PTree.nd l r) hufull hunoTwo hc
            have hRlow : ∀ e ∈ rOver Hh child bs ++
                [((PTree.nd l r).hashT Hh,
                  mixNode Hh (PTree.nd l r) (b :: bs), 1)],
                e.1 ≠ w2.hashT Hh := by
              intro e he
              rcases List.mem_append.mp he with he | he
              · exact hrOlow e he w2 hw2full hw2noTwo
              · simp only [List.mem_singleton] at he
                subst he
                intro hc
                exact hw2u hc.symm
            simp only [insertAtF, hins, hres, hkb, ← hbdef, hch, hrec, not_true,
              Bool.false_eq_true, if_neg, ite_false, hncr, hsch, hmdu,
              not_false_eq_true, if_pos, ite_true, overlayInsert, hfindu,
              removeNode, overlayRemove]
            rw [mixNode_hash]
            simp only [List.cons_append, List.append_assoc]
            rw [hfindT (rOver Hh child bs ++
              [((PTree.nd l r).hashT Hh,
                mixNode Hh (PTree.nd l r) (b :: bs), 1)])]
            simp only [Nat.sub_self, if_pos, ite_true]
            rw [hremT (rOver Hh child bs ++
              [((PTree.nd l r).hashT Hh,
                mixNode Hh (PTree.nd l r) (b :: bs), 1)])]
            simp [hrOeq, List.append_assoc, oldOf]

theorem treeMutRemove_unwrite {Hh : HasherM} {D : Nat}
    (hinj : Function.Injective Hh.hash) {db : Store} {t0 : PTree}
    {key value : Bytes}
    (hrep : StoreRep Hh db t0) (hfull : t0.fullB (D * 8) = true)
    (hnoTwo : t0.noTwoL Hh = true) (hnd : t0.isD = false)
    (hk : key.length = D) (hv : value ≠ [])
    (hvlen : value.length ≠ 2 * Hh.len)
    (habs : t0.valueAt (keyBits D key) = some []) :
    ∃ (Q : Overlay),
      treeMutRemove Hh D
          (treeMutInsert Hh D (committedState db (t0.hashT Hh)) key value).1
          key =
        ({ storage := Q,
           deathRow := (t0.hashT Hh, 2) ::
             aremove (pDeath Hh t0 (keyBits D key)) (t0.hashT Hh),
           db := db, root := t0.hashT Hh,
           rootHandle := .InMemory (t0.hashT Hh) }, .ok (some value)) ∧
      Q.map (fun e => (e.1, e.2.2)) =
        (t0.hashT Hh, 2) ::
          aremove (pDeath Hh t0 (keyBits D key)) (t0.hashT Hh) ∧
      List.Pairwise (fun a b : Bytes × Node × Nat => a.1 ≠ b.1) Q := by
  have hnew : keyNew D key = .ok key := by simp [keyNew, hk]
  have hkbl : (keyBits D key).length = D * 8 := keyBits_length D key
  have hfull2 : t0.fullB (keyBits D key).length = true := by
    rw [hkbl]; exact hfull
  have hne : t0.valueAt (keyBits D key) ≠ some value := by
    rw [habs]
    intro h
    exact hv (Option.some.inj h).symm
  -- the key path is non-empty
  cases hkb : keyBits D key with
  | nil =>
      exfalso
      rw [hkb] at habs
      cases t0 with
      | lf w =>
          simp [PTree.valueAt] at habs
          subst habs
          simp [PTree.isD] at hnd
      | nd l r => simp [PTree.valueAt] at habs
  | cons b bs =>
  cases t0 with
  | lf w =>
      exfalso
      rw [hkb] at habs
      simp [PTree.valueAt] at habs
  | nd l r =>
  rw [treeMutInsert_canon hinj hrep hfull hnoTwo hnd hk hv hvlen hne]
  have hufull : (PTree.nd l r).fullB (bs.length + 1) = true := by
    rw [show bs.length + 1 = (keyBits D key).length by rw [hkb]; simp]
    exact hfull2
  have hD8 : D * 8 = bs.length + 1 := by
    rw [← hkbl, hkb]
    simp
  simp only [PTree.fullB, Bool.and_eq_true] at hufull
  have hufull2 : (PTree.nd l r).fullB (bs.length + 1) = true := by
    simp [PTree.fullB, hufull.1, hufull.2]
  have hunoTwo : PTree.noTwoL Hh (PTree.nd l r) = true := hnoTwo
  simp only [PTree.noTwoL, Bool.and_eq_true] at hnoTwo
  rw [hkb] at habs
  simp only [PTree.valueAt] at habs
  -- the key bits
  have hb0 : b = keyBitRaw key 0 := by
    have := keyBits_getD D key 0 (by omega)
    rw [hkb] at this
    simpa using this
  have hbs : bs = pathBits key 1 bs.length := by
    have h1 : keyBits D key = pathBits key 0 (D * 8) :=
      (pathBits_keyBits key D).symm
    rw [hD8, pathBits_succ] at h1
    rw [hkb] at h1
    have h2 := congrArg List.tail h1
    simpa using h2
  set child := if b then r else l with hchild
  have hcfull : child.fullB bs.length = true := by
    rw [hchild]; cases b <;> simp [hufull.1, hufull.2]
  have hcnoTwo : child.noTwoL Hh = true := by
    rw [hchild]; cases b <;> simp [hnoTwo.1, hnoTwo.2]
  have hcval : child.valueAt bs = some [] := by
    simpa [← hb0, ← hchild] using habs
  set t2 := (PTree.nd l r).setAt (b :: bs) value with ht2
  have ht2c : t2 = if b then PTree.nd l (r.setAt bs value)
      else PTree.nd (l.setAt bs value) r := by
    rw [ht2]; cases b <;> simp [PTree.setAt]
  have ht2d : t2.isD = false := setAt_isD_false hufull2 (by simp) hv
  have ht2full : t2.fullB (bs.length + 1) = true := setAt_full hufull2 (by simp)
  have ht2noTwo : t2.noTwoL Hh = true := setAt_noTwoL hunoTwo hvlen
  have ht2ne : t2 ≠ PTree.nd l r := by
    intro h
    have h1 : t2.valueAt (b :: bs) = some value := by
      rw [ht2]
      exact valueAt_setAt_self hufull2 (by simp)
    rw [h] at h1
    simp only [PTree.valueAt] at h1
    rw [← hchild] at h1
    rw [hcval] at h1
    simp at h1
    exact hv h1
  have ht2u : t2.hashT Hh ≠ (PTree.nd l r).hashT Hh := by
    intro hc
    exact ht2ne (hashT_inj hinj ht2noTwo hunoTwo hc)
  have hmt2d : (mixNode Hh t2 (b :: bs)).isDefault = false := by
    rw [mixNode_isDefault]; exact ht2d
  have hqsplit : qOver Hh (PTree.nd l r) (b :: bs) value =
      qOver Hh child bs value ++
        [(t2.hashT Hh, mixNode Hh t2 (b :: bs), 1)] := by
    simp only [qOver, ← hchild, ← ht2, hmt2d, Bool.false_eq_true, if_neg,
      ite_false]
    rw [mixNode_hash]
  have hQlow : ∀ e ∈ qOver Hh child bs value, ∀ (v2 : PTree),
      v2.fullB (bs.length + 1) = true → v2.noTwoL Hh = true →
      e.1 ≠ v2.hashT Hh := by
    intro e he v2 hv2f hv2n hc
    obtain ⟨w3, m3, hm3, hf3, hn3, hd3, hh3, _, _, _⟩ :=
      qOver_mem2 hvlen hv hcfull hcnoTwo e he
    have : w3 = v2 := hashT_inj hinj hn3 hv2n (by rw [← hh3, hc])
    rw [this] at hf3
    have := fullB_height_eq hf3 hv2f
    omega
  have hrOlow : ∀ e ∈ rOver Hh child bs, ∀ (v2 : PTree),
      v2.fullB (bs.length + 1) = true → v2.noTwoL Hh = true →
      e.1 ≠ v2.hashT Hh := by
    intro e he v2 hv2f hv2n hc
    obtain ⟨w3, m3, bits3, hm3, hf3, hn3, hd3, hh3, _, _⟩ :=
      rOver_mem hcfull hcnoTwo e he
    have : w3 = v2 := hashT_inj hinj hn3 hv2n (by rw [← hh3, hc])
    rw [this] at hf3
    have := fullB_height_eq hf3 hv2f
    omega
  have hQF : aremove (qOver Hh (PTree.nd l r) (b :: bs) value) (t2.hashT Hh) =
      qOver Hh child bs value := by
    rw [hqsplit, aremove_append_right]
    · simp [aremove]
    · intro e he
      exact hQlow e he t2 ht2full ht2noTwo
  -- normalise the key path in the insert-pass state
  rw [hkb]
  set mixT2 := mixNode Hh t2 (b :: bs) with hmixT2
  set mixT0 := mixNode Hh (PTree.nd l r) (b :: bs) with hmixT0
  set rQ := aremove (qOver Hh (PTree.nd l r) (b :: bs) value) (t2.hashT Hh)
    with hrQ
  set dR : List (Bytes × Nat) := (PTree.hashT Hh (PTree.nd l r), 2) ::
    aremove (pDeath Hh (PTree.nd l r) (b :: bs)) (PTree.hashT Hh (PTree.nd l r))
    with hdR
  set s1 : MutState :=
    { storage := (PTree.hashT Hh t2, mixT2, 2) :: rQ,
      deathRow := dR, db := db, root := PTree.hashT Hh (PTree.nd l r),
      rootHandle := .InMemory (PTree.hashT Hh t2) } with hs1
  have hres1 : treeMutLookup Hh D s1 (.InMemory (PTree.hashT Hh t2)) =
      .ok mixT2 := by
    simp [treeMutLookup, overlayGet, hs1, afind]
  have hkb0 : keyBit D key 0 = .ok b := by
    rw [hb0]
    exact keyBit_lt D key 0 (by omega)
  have hch : mixT2.childHash (ChildSelector.new b) =
      .ok (insRef Hh (child.setAt bs value)) := by
    rw [hmixT2, ht2c, hchild]
    cases b <;> simp [mixNode, ChildSelector.new, Node.childHash]
  have hrec := insertAtF_unwrite (D := D) hinj hv hvlen bs.length s1 child 1
    [(PTree.hashT Hh t2, mixT2, 2)] []
    hcfull hcnoTwo (by omega) (by rw [← hbs]; exact hcval)
    (by
      rw [hs1, ← hbs]
      simp only [hrQ]
      simpa using hQF)
    (by
      intro e he v2 m hm hv2f hv2n
      simp only [List.append_nil, List.mem_singleton] at he
      subst he
      intro hc
      have : t2 = v2 := hashT_inj hinj ht2noTwo hv2n hc
      rw [← this] at hv2f
      have := fullB_height_eq ht2full hv2f
      omega)
  rw [← hbs] at hrec
  have hncr : (if (mixNode Hh child bs).isDefault = true
      then NodeHash.Default (mixNode Hh child bs).hash
      else NodeHash.InMemory (mixNode Hh child bs).hash)
      = insRef Hh child := by
    rw [mixNode_isDefault, mixNode_hash, insRef]
  have hsch : mixT2.setChildHash Hh (ChildSelector.new b) (insRef Hh child) =
      .ok mixT0 := by
    rw [hmixT2, hmixT0, ht2c, hchild]
    cases b with
    | false =>
        simp [mixNode, ChildSelector.new, Node.setChildHash, PTree.hashT,
          canonRef_hash, insRef_hash]
    | true =>
        simp [mixNode, ChildSelector.new, Node.setChildHash, PTree.hashT,
          canonRef_hash, insRef_hash]
  have hmt0d : mixT0.isDefault = false := by
    rw [hmixT0, mixNode_isDefault]; exact hnd
  have hmt0h : mixT0.hash = PTree.hashT Hh (PTree.nd l r) := by
    rw [hmixT0, mixNode_hash]
  -- the rebuilt root is absent from the reconstructed overlay
  have hfind0 : afind ([(PTree.hashT Hh t2, mixT2, 2)] ++ [] ++
      rOver Hh child bs) mixT0.hash = none := by
    rw [hmt0h]
    apply afind_eq_none
    intro e he hc
    rcases List.mem_append.mp he with he | he
    · simp only [List.append_nil, List.mem_singleton] at he
      subst he
      exact ht2u hc
    · exact hrOlow e he (PTree.nd l r) hufull2 hunoTwo hc
  -- removing the written root reference, twice
  have hrem1 : overlayRemove ([(PTree.hashT Hh t2, mixT2, 2)] ++ [] ++
      rOver Hh child bs ++ [(mixT0.hash, mixT0, 1)]) (PTree.hashT Hh t2) =
      ((PTree.hashT Hh t2, mixT2, 1) ::
        (rOver Hh child bs ++ [(mixT0.hash, mixT0, 1)]), none) := by
    simp [overlayRemove, afind, aremove]
  have hrem2 : overlayRemove ((PTree.hashT Hh t2, mixT2, 1) ::
      (rOver Hh child bs ++ [(mixT0.hash, mixT0, 1)])) (PTree.hashT Hh t2) =
      (rOver Hh child bs ++ [(mixT0.hash, mixT0, 1)], some mixT2) := by
    simp [overlayRemove, afind, aremove]
  -- re-registering the rebuilt root
  have hfind1 : afind (rOver Hh child bs ++ [(mixT0.hash, mixT0, 1)])
      mixT0.hash = some (mixT0, 1) := by
    rw [afind_append_none]
    · simp [afind]
    · intro e he
      rw [hmt0h]
      exact hrOlow e he (PTree.nd l r) hufull2 hunoTwo
  have hrm1 : aremove (rOver Hh child bs ++ [(mixT0.hash, mixT0, 1)])
      mixT0.hash = rOver Hh child bs := by
    rw [aremove_append_right]
    · simp [aremove]
    · intro e he
      rw [hmt0h]
      exact hrOlow e he (PTree.nd l r) hufull2 hunoTwo
  refine ⟨(mixT0.hash, mixT0, 2) :: rOver Hh child bs, ?_, ?_, ?_⟩
  · simp only [treeMutRemove, treeMutInsert, hnew, hD8]
    simp only [insertAtF, hres1, hkb0, hch, hrec, not_true, Bool.false_eq_true,
      if_neg, ite_false, hncr, hsch, hmt0d, not_false_eq_true, if_pos,
      ite_true, overlayInsert, hfind0, removeNode, hrem1, hrem2, hfind1, hrm1]
    simp only [hs1, hdR]
    simp [hmt0h]
  · rw [hdR]
    simp only [List.map_cons, hmt0h]
    rw [rOver_death hcval]
    have hsplit : pDeath Hh (PTree.nd l r) (b :: bs) =
        pDeath Hh child bs ++ [(PTree.hashT Hh (PTree.nd l r), 1)] := by
      simp only [pDeath, ← hchild, hnd, Bool.false_eq_true, if_neg, ite_false]
    rw [hsplit, aremove_append_right]
    · simp [aremove]
    · intro e he hc
      obtain ⟨w3, m3, hm3, hf3, hn3, hd3, hh3, _⟩ :=
        pDeath_mem2 hcfull hcnoTwo e he
      rw [hh3] at hc
      have : w3 = PTree.nd l r := hashT_inj hinj hn3 hunoTwo (by simpa using hc)
      rw [this] at hf3
      have := fullB_height_eq hf3 hufull2
      omega
  · rw [List.pairwise_cons]
    refine ⟨?_, rOver_pairwise hinj hcfull hcnoTwo⟩
    intro e he hc
    rw [hmt0h] at hc
    exact hrOlow e he (PTree.nd l r) hufull2 hunoTwo hc.symm

/-- C5 (amended): the insert/remove/commit round-trip restores the exact
    starting state — store bytes, refcounts, root and handles — when the key
    was previously absent; for a previously present key the remove pass
    clears the slot instead of restoring the old value, so the store does
    not return to its starting contents (see the counterexample). -/
theorem C5_refcount_preservation_amended (Hh : HasherM) (D : Nat)
    (hinj : Function.Injective Hh.hash) (db : Store) (t0 : PTree)
    (key value : Bytes)
    (hrep : StoreRep Hh db t0) (hfull : t0.fullB (D * 8) = true)
    (hnoTwo : t0.noTwoL Hh = true) (hnd : t0.isD = false)
    (hk : key.length = D) (hvlen : value.length ≠ 2 * Hh.len)
    (habs : t0.valueAt (keyBits D key) = some []) :
    ∃ (s1 s2 : MutState) (o1 o2 : Option Bytes),
      treeMutInsert Hh D (committedState db (t0.hashT Hh)) key value =
        (s1, .ok o1) ∧
      treeMutRemove Hh D s1 key = (s2, .ok o2) ∧
      treeMutCommit s2 = committedState db (t0.hashT Hh) := by
  have hnew : keyNew D key = .ok key := by simp [keyNew, hk]
  have hkbl : (keyBits D key).length = D * 8 := keyBits_length D key
  have hfull2 : t0.fullB (keyBits D key).length = true := by
    rw [hkbl]; exact hfull
  by_cases hv : value = []
  · -- inserting the empty value into an absent slot is a no-op, and so is
    -- the removal; commit then republishes the same state
    subst hv
    have hres0 : ∀ w ∈ spineSubs t0 (keyBits D key),
        treeMutLookup Hh D (committedState db (t0.hashT Hh)) (canonRef Hh w) =
          .ok (canonNode Hh w) := by
      intro w hw
      obtain ⟨m, hm, hwf⟩ := spineSubs_full hfull2 w hw
      exact resolve_canon hinj (by simp [committedState]; exact hrep)
        (subtreesL_trans (subtreesL_self t0) (spineSubs_sub w hw)) hwf
        (by omega)
    have hcs := canonSpineB_of_get hfull2 hres0
    have hSR := spineRepB_of_canonSpine hcs habs
    have hrh0 : canonRef Hh t0 =
        (committedState db (t0.hashT Hh)).rootHandle := by
      simp [canonRef, hnd, committedState]
    rw [hrh0] at hSR
    obtain ⟨n, hnoop⟩ := @insertAt_spine_noop Hh D
      (committedState db (t0.hashT Hh)) key [] (keyBits D key) t0
      ((committedState db (t0.hashT Hh)).rootHandle) 0 [] hSR habs
      (by intro j hj; rw [hkbl] at hj; simpa using keyBits_getD D key j hj)
      (by omega) rfl
    rw [hkbl] at hnoop
    have hins : treeMutInsert Hh D (committedState db (t0.hashT Hh)) key [] =
        (committedState db (t0.hashT Hh), .ok none) := by
      simp only [treeMutInsert, hnew, hnoop]
      simp
    refine ⟨committedState db (t0.hashT Hh), committedState db (t0.hashT Hh),
      none, none, hins, ?_, rfl⟩
    simpa [treeMutRemove] using hins
  · have hne : t0.valueAt (keyBits D key) ≠ some value := by
      rw [habs]
      intro h
      exact hv (Option.some.inj h).symm
    obtain ⟨Q, hrem, hmap, hpw⟩ :=
      treeMutRemove_unwrite hinj hrep hfull hnoTwo hnd hk hv hvlen habs
    refine ⟨(treeMutInsert Hh D (committedState db (t0.hashT Hh)) key value).1,
      _, oldOf t0 (keyBits D key), some value, ?_, hrem, ?_⟩
    · rw [treeMutInsert_canon hinj hrep hfull hnoTwo hnd hk hv hvlen hne]
    · simp only [treeMutCommit]
      rw [← hmap]
      rw [commit_cancel_map hpw]
      simp [committedState, NodeHash.hash]

/-- C5 counterexample: on the committed tree holding value [7] at key 3,
    insert([3],[5]); remove([3]); commit does not restore the store: the
    removal writes an empty slot where [7] used to be, so the leaf bytes of
    [7] (present at the start) are gone from the store after commit. -/
theorem C5_refcount_preservation_counterexample :
    storeGet (canonStore hashC wTree) (hashC.hash [7]) =
      some (nodeToBytes (Node.Value (hashC.hash [7]) [7])) ∧
    storeGet
      (treeMutCommit
        (treeMutRemove hashC 1
          (treeMutInsert hashC 1
            (committedState (canonStore hashC wTree) (wTree.hashT hashC))
            [3] [5]).1 [3]).1).db
      (hashC.hash [7]) = none ∧
    (some (nodeToBytes (Node.Value (hashC.hash [7]) [7])) : Option Bytes) ≠
      none := by
  decide

set_option maxRecDepth 40000 in
/-- C5 witness: the amended statement instantiated on the committed tree
    `wTree` at depth one, with the absent key 0 and value [5]. -/
theorem C5_refcount_preservation_witness :
    StoreRep hashC (canonStore hashC wTree) wTree ∧
    wTree.fullB (1 * 8) = true ∧
    wTree.noTwoL hashC = true ∧
    wTree.isD = false ∧
    ([0] : Bytes).length = 1 ∧
    ([5] : Bytes).length ≠ 2 * hashC.len ∧
    wTree.valueAt (keyBits 1 [0]) = some [] ∧
    (∃ (s1 s2 : MutState) (o1 o2 : Option Bytes),
      treeMutInsert hashC 1 (committedState (canonStore hashC wTree)
          (wTree.hashT hashC)) [0] [5] = (s1, .ok o1) ∧
      treeMutRemove hashC 1 s1 [0] = (s2, .ok o2) ∧
      treeMutCommit s2 =
        committedState (canonStore hashC wTree) (wTree.hashT hashC)) :=
  ⟨by decide, by decide, by decide, by decide, by decide, by decide, by decide,
    C5_refcount_preservation_amended hashC 1 hashC_inj (canonStore hashC wTree)
      wTree [0] [5] (by decide) (by decide) (by decide) (by decide) (by decide)
      (by decide) (by decide)⟩
